import Mathlib

/-!
# Glimpse `field.cpp`: forward / adjoint lensing operators and lensing kernels

A shallow embedding of `src/field.cpp` in exact arithmetic.  Every `double` is an element
of an arbitrary linearly ordered field `K` (so the statements hold over the reals and can be
evaluated over the rationals), an `fftwf_complex` is the pair of its real and imaginary part,
an array is a function on indices, and a write `a[i] = v` is `Function.update a i v`.
Loops are folds over `0, 1, ..., n-1` in the order the source runs them.

External libraries are parameters:
* NFFT: each plane `z` carries a complex matrix `nfft z j k` (galaxy `j`, grid index `k`);
  `nfft_trafo_2d` applies it, `nfft_adjoint_2d` applies its conjugate transpose;
* GSL quadrature and interpolation, the cosmology code, Armadillo's `svd` and `inv`;
* the random draws, and the functions `sqrt`, `cos`, `sin` of the C library: a function
  `sqrt : K → K` is an argument of `gradient_noise` and `get_spectral_norm`, and the theorems
  assume what they need of it (`sqrt c >= 0` and `sqrt c * sqrt c = c` for `c >= 0`).
-/

namespace Glimpse

open Finset

set_option linter.unusedSectionVars false

/-- An `fftwf_complex` value: component `[0]` (real part) and component `[1]` (imaginary part). -/
abbrev Cplx (K : Type) := K × K

/-- The loop `for (i = 0; i < n; i++) body(i)` acting on an explicit state. -/
def forLoop {σ : Type} (n : ℕ) (body : ℕ → σ → σ) (s : σ) : σ :=
  (List.range n).foldl (fun acc i => body i acc) s

/-- The transform buffers of one `nfft_plan`: `f_hat` on the grid, `f` at the galaxies. -/
structure nfft_plan (K : Type) where
  f_hat : ℕ → Cplx K
  f : ℕ → Cplx K

/-- The members of the C++ class `field` that the operators read or write.
`freqFactor` is the value of the local `2.0 * M_PI / pixel_size / ((double) npix)` that every
operator recomputes, `nfft z` is the matrix of the NFFT of plane `z` (fixed by the nodes). -/
structure field (K : Type) where
  npix : ℕ
  nlp : ℕ
  ngal : ℕ
  include_flexion : Bool
  freqFactor : K
  sig_frac : K
  zlens : K
  r_cond : K
  shear_gamma1 : ℕ → K
  shear_gamma2 : ℕ → K
  flexion_f1 : ℕ → K
  flexion_f2 : ℕ → K
  w_e : ℕ → K
  w_f : ℕ → K
  res_gamma1 : ℕ → K
  res_gamma2 : ℕ → K
  res_f1 : ℕ → K
  res_f2 : ℕ → K
  res_conv : ℕ → K
  cov : ℕ → K
  lensKernel : ℕ → K
  lensKernelTrue : ℕ → K
  P : ℕ → K
  PP : ℕ → K
  iP : ℕ → K
  fft_frame : ℕ → Cplx K
  ps : ℕ → nfft_plan K
  nfft : ℕ → ℕ → ℕ → Cplx K

variable {K : Type} [LinearOrderedField K]

/-- The constructor's `fftFactor = 1.0/(((double)npix)*npix)`. -/
def field.fftFactor (F : field K) : K := 1 / ((F.npix : K) * (F.npix : K))

/-- The index shift `(x < npix / 2 ? x + npix / 2 : x - npix / 2)`. -/
def kshift (npix x : ℕ) : ℕ := if x < npix / 2 then x + npix / 2 else x - npix / 2

/-- The wave number `(x - npix / 2) * freqFactor` (integer subtraction, then conversion). -/
def kfreq (npix : ℕ) (freqFactor : K) (x : ℕ) : K :=
  (((x : ℤ) - ((npix / 2 : ℕ) : ℤ) : ℤ) : K) * freqFactor

/-- The spectral index `pos = ky * npix + kx + z * (npix * npix)` of grid point `(y, x)`. -/
def spos (npix z y x : ℕ) : ℕ := kshift npix y * npix + kshift npix x + z * (npix * npix)

/-- External NFFT `nfft_trafo_2d`: `f[j] = sum_k E[j][k] * f_hat[k]` over the `N` grid points. -/
def nfft_trafo_2d (E : ℕ → ℕ → Cplx K) (N : ℕ) (p : nfft_plan K) : nfft_plan K :=
  { p with f := fun j =>
      (∑ k in range N, ((E j k).1 * (p.f_hat k).1 - (E j k).2 * (p.f_hat k).2),
       ∑ k in range N, ((E j k).1 * (p.f_hat k).2 + (E j k).2 * (p.f_hat k).1)) }

/-- External NFFT `nfft_adjoint_2d`: `f_hat[k] = sum_j conj(E[j][k]) * f[j]` over the `M` nodes. -/
def nfft_adjoint_2d (E : ℕ → ℕ → Cplx K) (M : ℕ) (p : nfft_plan K) : nfft_plan K :=
  { p with f_hat := fun k =>
      (∑ j in range M, ((E j k).1 * (p.f j).1 + (E j k).2 * (p.f j).2),
       ∑ j in range M, ((E j k).1 * (p.f j).2 - (E j k).2 * (p.f j).1)) }

/-- The kappa-to-gamma loops of `forward_operator` (lines 361-385) for plane `z`. -/
def kappa_to_gamma (npix : ℕ) (freqFactor : K) (z : ℕ) (delta : ℕ → Cplx K)
    (f_hat : ℕ → Cplx K) : ℕ → Cplx K :=
  forLoop npix (fun y f_hat =>
    let k2 := kfreq npix freqFactor y
    let ky := kshift npix y
    forLoop npix (fun x f_hat =>
      let k1 := kfreq npix freqFactor x
      let kx := kshift npix x
      let pos := ky * npix + kx + z * (npix * npix)
      if k1 = 0 ∧ k2 = 0 then
        Function.update f_hat (y * npix + x) (0, 0)
      else
        let k1k1 := k1 * k1
        let k2k2 := k2 * k2
        let k1k2 := k1 * k2
        let ksqr := k1k1 + k2k2
        let denom := 1 / ksqr
        Function.update f_hat (y * npix + x)
          (denom * ((delta pos).1 * (k2k2 - k1k1) + (delta pos).2 * (2 * k1k2)),
           denom * ((delta pos).2 * (k2k2 - k1k1) - (delta pos).1 * (2 * k1k2)))) f_hat) f_hat

/-- The copy loops `f_hat[y * npix + x] = src[pos]` used for the flexion block (lines 408-421)
and for the combined convergence (lines 449-461, 1158-1170); `src` is the array read. -/
def spectral_gather (npix : ℕ) (z : ℕ) (src : ℕ → Cplx K) (f_hat : ℕ → Cplx K) : ℕ → Cplx K :=
  forLoop npix (fun y f_hat =>
    let ky := kshift npix y
    forLoop npix (fun x f_hat =>
      let kx := kshift npix x
      let pos := ky * npix + kx + z * (npix * npix)
      Function.update f_hat (y * npix + x) ((src pos).1, (src pos).2)) f_hat) f_hat

/-- The gamma-to-kappa loops of `adjoint_operator` (lines 504-525) for plane `z`. -/
def gamma_to_kappa (npix : ℕ) (freqFactor : K) (z : ℕ) (f_hat : ℕ → Cplx K)
    (delta : ℕ → Cplx K) : ℕ → Cplx K :=
  forLoop npix (fun y delta =>
    let k2 := kfreq npix freqFactor y
    let ky := kshift npix y
    forLoop npix (fun x delta =>
      let k1 := kfreq npix freqFactor x
      let kx := kshift npix x
      let pos := ky * npix + kx + z * (npix * npix)
      if k1 = 0 ∧ k2 = 0 then
        delta
      else
        let k1k1 := k1 * k1
        let k2k2 := k2 * k2
        let k1k2 := k1 * k2
        let ksqr := k1k1 + k2k2
        Function.update delta pos
          (((f_hat (y * npix + x)).1 * (k2k2 - k1k1) - (f_hat (y * npix + x)).2 * (2 * k1k2)) / ksqr,
           ((f_hat (y * npix + x)).2 * (k2k2 - k1k1) + (f_hat (y * npix + x)).1 * (2 * k1k2)) / ksqr))
      delta) delta

/-- The copy loops `deltaFlex[pos] = f_hat[y * npix + x]` of `adjoint_operator` (lines 538-551);
`off` is the offset `nlp * npix * npix` of `deltaFlex` inside `delta`. -/
def spectral_scatter (npix : ℕ) (z : ℕ) (off : ℕ) (f_hat : ℕ → Cplx K)
    (delta : ℕ → Cplx K) : ℕ → Cplx K :=
  forLoop npix (fun y delta =>
    let ky := kshift npix y
    forLoop npix (fun x delta =>
      let kx := kshift npix x
      let pos := ky * npix + kx + z * (npix * npix)
      Function.update delta (off + pos) ((f_hat (y * npix + x)).1, (f_hat (y * npix + x)).2))
      delta) delta

/-- The loops `ps[z]->f[i] = (r1[i] * q, r2[i] * q)` with `q = kernel[i * nlp + z]`
of `adjoint_operator` (lines 489-499 and 530-534). -/
def scatter_residuals (ngal nlp z : ℕ) (kernel : ℕ → K) (r1 r2 : ℕ → K)
    (f : ℕ → Cplx K) : ℕ → Cplx K :=
  forLoop ngal (fun i f =>
    let q := kernel (i * nlp + z)
    Function.update f i (r1 i * q, r2 i * q)) f

/-- The loops applying the lensing efficiency kernel (lines 392-400, 428-436): for each galaxy
`out1[i] = sum_z kernel[i*nlp+z] * ps[z]->f[i][0] * fftFactor` and likewise `out2` with `[1]`. -/
def apply_kernel (ngal nlp : ℕ) (fftFactor : K) (kernel : ℕ → K) (ps : ℕ → nfft_plan K)
    (out : (ℕ → K) × (ℕ → K)) : (ℕ → K) × (ℕ → K) :=
  forLoop ngal (fun i out =>
    (Function.update out.1 i (∑ z in range nlp, kernel (i * nlp + z) * ((ps z).f i).1 * fftFactor),
     Function.update out.2 i (∑ z in range nlp, kernel (i * nlp + z) * ((ps z).f i).2 * fftFactor)))
    out

/-- The function `field::combine_components(delta, delta_comb)`; returns `delta_comb`. -/
def combine_components (F : field K) (delta delta_comb : ℕ → Cplx K) : ℕ → Cplx K :=
  let npix := F.npix
  let deltaFlex := fun pos => delta (F.nlp * npix * npix + pos)
  forLoop F.nlp (fun z delta_comb =>
    let delta_comb := forLoop npix (fun y delta_comb =>
      let k2 := kfreq npix F.freqFactor y
      let ky := kshift npix y
      forLoop npix (fun x delta_comb =>
        let k1 := kfreq npix F.freqFactor x
        let kx := kshift npix x
        let pos := ky * npix + kx + z * (npix * npix)
        let ksqr := k1 * k1 + k2 * k2
        let denom := 1 / (ksqr + F.sig_frac)
        if F.include_flexion then
          Function.update delta_comb pos
            (((deltaFlex pos).1 * k2 - (deltaFlex pos).2 * k1) * denom
                + denom * F.sig_frac * (delta pos).1,
             ((deltaFlex pos).1 * k1 + (deltaFlex pos).2 * k2) * denom
                + denom * F.sig_frac * (delta pos).2)
        else
          Function.update delta_comb pos ((delta pos).1, (delta pos).2)) delta_comb) delta_comb
    Function.update delta_comb 0 (0, 0)) delta_comb

/-- The function `field::combine_components(delta, delta_comb)` with a record of its writes:
the state is `delta_comb` together with the list of the indices of `delta_comb` that have been
assigned so far, in order (the statements that assign the two components of one coefficient
count as one write).  Its first component is `combine_components`. -/
def combine_components_logged (F : field K) (delta : ℕ → Cplx K)
    (st : (ℕ → Cplx K) × List ℕ) : (ℕ → Cplx K) × List ℕ :=
  let npix := F.npix
  let deltaFlex := fun pos => delta (F.nlp * npix * npix + pos)
  forLoop F.nlp (fun z (st : (ℕ → Cplx K) × List ℕ) =>
    let st := forLoop npix (fun y (st : (ℕ → Cplx K) × List ℕ) =>
      let k2 := kfreq npix F.freqFactor y
      let ky := kshift npix y
      forLoop npix (fun x (st : (ℕ → Cplx K) × List ℕ) =>
        let k1 := kfreq npix F.freqFactor x
        let kx := kshift npix x
        let pos := ky * npix + kx + z * (npix * npix)
        let ksqr := k1 * k1 + k2 * k2
        let denom := 1 / (ksqr + F.sig_frac)
        if F.include_flexion then
          (Function.update st.1 pos
            (((deltaFlex pos).1 * k2 - (deltaFlex pos).2 * k1) * denom
                + denom * F.sig_frac * (delta pos).1,
             ((deltaFlex pos).1 * k1 + (deltaFlex pos).2 * k2) * denom
                + denom * F.sig_frac * (delta pos).2), st.2 ++ [pos])
        else
          (Function.update st.1 pos ((delta pos).1, (delta pos).2), st.2 ++ [pos])) st) st
    (Function.update st.1 0 (0, 0), st.2 ++ [0])) st

/-- The function `field::combine_components_inverse(delta_comb, delta)`; returns `delta`. -/
def combine_components_inverse (F : field K) (delta_comb delta : ℕ → Cplx K) : ℕ → Cplx K :=
  let npix := F.npix
  let off := F.nlp * npix * npix
  forLoop F.nlp (fun z delta =>
    forLoop npix (fun y delta =>
      let k2 := kfreq npix F.freqFactor y
      let ky := kshift npix y
      forLoop npix (fun x delta =>
        let k1 := kfreq npix F.freqFactor x
        let kx := kshift npix x
        let pos := ky * npix + kx + z * (npix * npix)
        if F.include_flexion then
          let delta := Function.update delta (off + pos)
            ((delta_comb pos).1 * k2 + (delta_comb pos).2 * k1,
             -(delta_comb pos).1 * k1 + (delta_comb pos).2 * k2)
          Function.update delta pos ((delta_comb pos).1, (delta_comb pos).2)
        else
          Function.update delta pos ((delta_comb pos).1, (delta_comb pos).2)) delta) delta) delta

/-- Lines 353-400 of `forward_operator`: kappa to gamma on every plane, NFFT, kernel sum. -/
def forward_shear (F : field K) (delta : ℕ → Cplx K) : field K :=
  let ps := forLoop F.nlp (fun z ps =>
    Function.update ps z
      (nfft_trafo_2d (F.nfft z) (F.npix * F.npix)
        { ps z with f_hat := kappa_to_gamma F.npix F.freqFactor z delta (ps z).f_hat })) F.ps
  let r := apply_kernel F.ngal F.nlp F.fftFactor F.lensKernel ps (F.res_gamma1, F.res_gamma2)
  { F with ps := ps, res_gamma1 := r.1, res_gamma2 := r.2 }

/-- Lines 402-437 of `forward_operator`: the flexion block, read at `deltaFlex`. -/
def forward_flexion (F : field K) (delta : ℕ → Cplx K) : field K :=
  let deltaFlex := fun pos => delta (F.nlp * F.npix * F.npix + pos)
  let ps := forLoop F.nlp (fun z ps =>
    Function.update ps z
      (nfft_trafo_2d (F.nfft z) (F.npix * F.npix)
        { ps z with f_hat := spectral_gather F.npix z deltaFlex (ps z).f_hat })) F.ps
  let r := apply_kernel F.ngal F.nlp F.fftFactor F.lensKernel ps (F.res_f1, F.res_f2)
  { F with ps := ps, res_f1 := r.1, res_f2 := r.2 }

/-- Lines 442-473 of `forward_operator` and 1151-1182 of `update_covariance`: the combined
field in `fft_frame` is transformed to the galaxies and summed with `lensKernelTrue`. -/
def convergence_at_galaxies (F : field K) : field K :=
  let ps := forLoop F.nlp (fun z ps =>
    Function.update ps z
      (nfft_trafo_2d (F.nfft z) (F.npix * F.npix)
        { ps z with f_hat := spectral_gather F.npix z F.fft_frame (ps z).f_hat })) F.ps
  let res_conv := forLoop F.ngal (fun i res_conv =>
    Function.update res_conv i
      (∑ z in range F.nlp, F.lensKernelTrue (i * F.nlp + z) * ((ps z).f i).1 * F.fftFactor))
    F.res_conv
  { F with ps := ps, res_conv := res_conv }

/-- The function `field::forward_operator(delta)`. -/
def forward_operator (F : field K) (delta : ℕ → Cplx K) : field K :=
  let F1 := forward_shear F delta
  let F2 := if F1.include_flexion then forward_flexion F1 delta else F1
  convergence_at_galaxies { F2 with fft_frame := combine_components F2 delta F2.fft_frame }

/-- The body of the plane loop of `adjoint_operator` (lines 484-553) on `(ps, delta)`. -/
def adjoint_plane (F : field K) ( preconditionning : Bool) (z : ℕ)
    (st : (ℕ → nfft_plan K) × (ℕ → Cplx K)) : (ℕ → nfft_plan K) × (ℕ → Cplx K) :=
  let ps := st.1
  let delta := st.2
  let f := if preconditionning then
      scatter_residuals F.ngal F.nlp z F.lensKernel F.res_gamma1 F.res_gamma2 (ps z).f
    else
      scatter_residuals F.ngal F.nlp z F.lensKernelTrue F.res_gamma1 F.res_gamma2 (ps z).f
  let plan := nfft_adjoint_2d (F.nfft z) F.ngal { ps z with f := f }
  let delta := gamma_to_kappa F.npix F.freqFactor z plan.f_hat delta
  let delta := Function.update delta (z * (F.npix * F.npix)) (0, 0)
  if F.include_flexion then
    let f := scatter_residuals F.ngal F.nlp z F.lensKernel F.res_f1 F.res_f2 plan.f
    let plan := nfft_adjoint_2d (F.nfft z) F.ngal { plan with f := f }
    (Function.update ps z plan,
     spectral_scatter F.npix z (F.nlp * F.npix * F.npix) plan.f_hat delta)
  else
    (Function.update ps z plan, delta)

/-- The function `field::adjoint_operator(delta, preconditionning)`: the field with its
updated transform buffers, and the written array `delta`. -/
def adjoint_operator (F : field K) (delta : ℕ → Cplx K) ( preconditionning : Bool) :
    field K × (ℕ → Cplx K) :=
  let st := forLoop F.nlp (adjoint_plane F preconditionning) (F.ps, delta)
  ({ F with ps := st.1 }, st.2)

/-- The four sums that `check_adjoint` prints. -/
structure adjoint_check (K : Type) where
  result_forward : K
  result_forward2 : K
  result_backward : K
  result_backward2 : K

/-- The function `field::check_adjoint`.  The random draws are arguments: `delta1` is the
spectral vector, `g1 g2 f1 f2` the residuals drawn after the forward pass, and `delta2` is
the content of the freshly allocated output buffer.  `test_*` are the copies of the forward
result.  The call `adjoint_operator(delta2)` uses the default argument of the declaration in
`field.h`, which the specification gives as `use_preconditioned_kernel=true`. -/
def check_adjoint (F : field K) (delta1 delta2 : ℕ → Cplx K) (g1 g2 f1 f2 : ℕ → K) :
    adjoint_check K :=
  if F.include_flexion then
    let F1 := forward_operator F delta1
    let test_g1 := F1.res_gamma1
    let test_g2 := F1.res_gamma2
    let test_f1 := F1.res_f1
    let test_f2 := F1.res_f2
    let r := forLoop F.ngal (fun ind (r : ((ℕ → K) × (ℕ → K)) × ((ℕ → K) × (ℕ → K))) =>
      ((Function.update r.1.1 ind (g1 ind), Function.update r.1.2 ind (g2 ind)),
       (Function.update r.2.1 ind (f1 ind), Function.update r.2.2 ind (f2 ind))))
      ((F1.res_gamma1, F1.res_gamma2), (F1.res_f1, F1.res_f2))
    let F2 := { F1 with res_gamma1 := r.1.1, res_gamma2 := r.1.2,
                        res_f1 := r.2.1, res_f2 := r.2.2 }
    let d2 := (adjoint_operator F2 delta2 true).2
    { result_forward := ∑ ind in range (F.npix * F.npix * F.nlp * 2),
        ((delta1 ind).1 * (d2 ind).1 + (delta1 ind).2 * (d2 ind).2),
      result_forward2 := ∑ ind in range (F.npix * F.npix * F.nlp * 2),
        (-(delta1 ind).2 * (d2 ind).1 + (delta1 ind).1 * (d2 ind).2),
      result_backward := ∑ ind in range F.ngal,
        (F2.res_gamma1 ind * test_g1 ind + F2.res_gamma2 ind * test_g2 ind
          + F2.res_f1 ind * test_f1 ind + F2.res_f2 ind * test_f2 ind),
      result_backward2 := ∑ ind in range F.ngal,
        (F2.res_gamma2 ind * test_g1 ind - F2.res_gamma1 ind * test_g2 ind
          + F2.res_f2 ind * test_f1 ind - F2.res_f1 ind * test_f2 ind) }
  else
    let F1 := forward_operator F delta1
    let test_g1 := F1.res_gamma1
    let test_g2 := F1.res_gamma2
    let r := forLoop F.ngal (fun ind (r : (ℕ → K) × (ℕ → K)) =>
      (Function.update r.1 ind (g1 ind), Function.update r.2 ind (g2 ind)))
      (F1.res_gamma1, F1.res_gamma2)
    let F2 := { F1 with res_gamma1 := r.1, res_gamma2 := r.2 }
    let d2 := (adjoint_operator F2 delta2 true).2
    { result_forward := ∑ ind in range (F.npix * F.npix * F.nlp),
        ((delta1 ind).1 * (d2 ind).1 * F.fftFactor + (delta1 ind).2 * (d2 ind).2 * F.fftFactor),
      result_forward2 := ∑ ind in range (F.npix * F.npix * F.nlp),
        (-(delta1 ind).2 * (d2 ind).1 * F.fftFactor + (delta1 ind).1 * (d2 ind).2 * F.fftFactor),
      result_backward := ∑ ind in range F.ngal,
        (F2.res_gamma1 ind * test_g1 ind + F2.res_gamma2 ind * test_g2 ind),
      result_backward2 := ∑ ind in range F.ngal,
        (F2.res_gamma2 ind * test_g1 ind - F2.res_gamma1 ind * test_g2 ind) }

/-- The function `field::update_covariance(delta)`; the floor `0.3` is the rational `3/10`. -/
def update_covariance (F : field K) (delta : ℕ → Cplx K) : field K :=
  let F1 := convergence_at_galaxies { F with fft_frame := combine_components F delta F.fft_frame }
  let cov := forLoop F1.ngal (fun i cov =>
    let factor := max (1 - F1.res_conv i) (3 / 10)
    Function.update cov i (1 / (factor * factor))) F1.cov
  { F1 with cov := cov }

/-- The function `field::gradient(delta)` (lines 309-326): forward pass, residuals
`cov * w * (factor * data - model)` with `factor = max(1 - res_conv, 0)`, adjoint pass with
the default (preconditioned) kernel.  Returns the field and the overwritten `delta`. -/
def gradient (F : field K) (delta : ℕ → Cplx K) : field K × (ℕ → Cplx K) :=
  let F1 := forward_operator F delta
  let r := forLoop F.ngal (fun i (r : ((ℕ → K) × (ℕ → K)) × ((ℕ → K) × (ℕ → K))) =>
    let factor := max (1 - F1.res_conv i) 0
    let g := (Function.update r.1.1 i
                (F.cov i * F.w_e i * (factor * F.shear_gamma1 i - r.1.1 i)),
              Function.update r.1.2 i
                (F.cov i * F.w_e i * (factor * F.shear_gamma2 i - r.1.2 i)))
    if F.include_flexion then
      (g, (Function.update r.2.1 i
              (F.cov i * F.w_f i * (factor * F.flexion_f1 i - r.2.1 i)),
           Function.update r.2.2 i
              (F.cov i * F.w_f i * (factor * F.flexion_f2 i - r.2.2 i))))
    else (g, r.2))
    ((F1.res_gamma1, F1.res_gamma2), (F1.res_f1, F1.res_f2))
  let F2 := { F1 with res_gamma1 := r.1.1, res_gamma2 := r.1.2,
                      res_f1 := r.2.1, res_f2 := r.2.2 }
  adjoint_operator F2 delta true

/-- The function `field::gradient_noise(delta)` (lines 328-345).  The library calls are
arguments: `sqrt` is the square root, and `cos1 ind`, `sin1 ind`, `cos2 ind`, `sin2 ind` are
the cosine and sine of the angles `theta1`, `theta2` drawn for galaxy `ind`. -/
def gradient_noise (sqrt : K → K) (F : field K) (cos1 sin1 cos2 sin2 : ℕ → K)
    (delta : ℕ → Cplx K) : field K × (ℕ → Cplx K) :=
  let r := forLoop F.ngal (fun ind (r : ((ℕ → K) × (ℕ → K)) × ((ℕ → K) × (ℕ → K))) =>
    let g := (Function.update r.1.1 ind
                (sqrt (F.cov ind) * F.w_e ind
                  * (F.shear_gamma1 ind * cos1 ind - F.shear_gamma2 ind * sin1 ind)),
              Function.update r.1.2 ind
                (sqrt (F.cov ind) * F.w_e ind
                  * (F.shear_gamma2 ind * cos1 ind + F.shear_gamma1 ind * sin1 ind)))
    if F.include_flexion then
      (g, (Function.update r.2.1 ind
              (sqrt (F.cov ind) * F.w_f ind
                * (F.flexion_f1 ind * cos2 ind - F.flexion_f2 ind * sin2 ind)),
           Function.update r.2.2 ind
              (sqrt (F.cov ind) * F.w_f ind
                * (F.flexion_f2 ind * cos2 ind + F.flexion_f1 ind * sin2 ind))))
    else (g, r.2))
    ((F.res_gamma1, F.res_gamma2), (F.res_f1, F.res_f2))
  let F2 := { F with res_gamma1 := r.1.1, res_gamma2 := r.1.2,
                     res_f1 := r.2.1, res_f2 := r.2.2 }
  adjoint_operator F2 delta false

/-- The local `ncoeff` of `get_spectral_norm` (lines 1076-1078). -/
def ncoeff (F : field K) : ℕ :=
  if F.include_flexion then F.npix * F.npix * F.nlp * 2 else F.npix * F.npix * F.nlp

/-- The accumulation `norm = 0; for ind < ncoeff: norm += kap[ind][0]^2 + kap[ind][1]^2`
(lines 1083-1088 and 1119-1122), before the square root. -/
def sum_of_squares (ncoeff : ℕ) (kap : ℕ → Cplx K) : K :=
  ∑ ind in range ncoeff, ((kap ind).1 * (kap ind).1 + (kap ind).2 * (kap ind).2)

/-- The loop `kap[ind][0] /= norm; kap[ind][1] /= norm` (lines 1091-1094 and 1129-1132). -/
def normalise (ncoeff : ℕ) (norm : K) (kap : ℕ → Cplx K) : ℕ → Cplx K :=
  forLoop ncoeff (fun ind kap =>
    Function.update kap ind ((kap ind).1 / norm, (kap ind).2 / norm)) kap

/-- Lines 1099-1115 of `get_spectral_norm`, one application of the operator: combine, forward
pass, residuals scaled by `cov * w`, adjoint pass, inverse combination.  Returns the field and
the arrays `kap` and `kap_tmp`. -/
def apply_normal_operator (F : field K) (kap kap_tmp : ℕ → Cplx K) :
    field K × ((ℕ → Cplx K) × (ℕ → Cplx K)) :=
  let kap_tmp := combine_components F kap kap_tmp
  let F1 := forward_operator F kap_tmp
  let r := forLoop F.ngal (fun i (r : ((ℕ → K) × (ℕ → K)) × ((ℕ → K) × (ℕ → K))) =>
    let g := (Function.update r.1.1 i (F.cov i * F.w_e i * r.1.1 i),
              Function.update r.1.2 i (F.cov i * F.w_e i * r.1.2 i))
    if F.include_flexion then
      (g, (Function.update r.2.1 i (F.cov i * F.w_f i * r.2.1 i),
           Function.update r.2.2 i (F.cov i * F.w_f i * r.2.2 i)))
    else (g, r.2))
    ((F1.res_gamma1, F1.res_gamma2), (F1.res_f1, F1.res_f2))
  let F2 := { F1 with res_gamma1 := r.1.1, res_gamma2 := r.1.2,
                      res_f1 := r.2.1, res_f2 := r.2.2 }
  let a := adjoint_operator F2 kap_tmp true
  (a.1, (combine_components_inverse F a.2 kap, a.2))

/-- The variables of `get_spectral_norm` that live across iterations of its loop; `stopped`
records that the `break` of line 1127 was taken. -/
structure power_state (K : Type) where
  F : field K
  kap : ℕ → Cplx K
  kap_tmp : ℕ → Cplx K
  norm : K
  norm_old : K
  stopped : Bool

/-- Lines 1073-1094 of `get_spectral_norm`: `kap` holds the Gaussian draws, `kap_tmp` the
content of the freshly allocated buffer; the draws are normalised. -/
def spectral_norm_start (sqrt : K → K) (F : field K) (kap kap_tmp : ℕ → Cplx K) :
    power_state K :=
  let norm := sqrt (sum_of_squares (ncoeff F) kap)
  { F := F, kap := normalise (ncoeff F) norm kap, kap_tmp := kap_tmp,
    norm := norm, norm_old := 0, stopped := false }

/-- The body of the loop of `get_spectral_norm` (lines 1097-1137); after the `break` the
remaining iterations do nothing. -/
def spectral_norm_step (sqrt : K → K) (tol : K) (_k : ℕ) (s : power_state K) : power_state K :=
  if s.stopped then s
  else
    let a := apply_normal_operator s.F s.kap s.kap_tmp
    let norm := sqrt (sum_of_squares (ncoeff s.F) a.2.1)
    if |norm - s.norm_old| / norm ≤ tol then
      { F := a.1, kap := a.2.1, kap_tmp := a.2.2, norm := norm, norm_old := s.norm_old,
        stopped := true }
    else
      { F := a.1, kap := normalise (ncoeff s.F) norm a.2.1, kap_tmp := a.2.2, norm := norm,
        norm_old := norm, stopped := false }

/-- The state of `get_spectral_norm` after `niter` passes through its loop. -/
def spectral_norm_loop (sqrt : K → K) (F : field K) (niter : ℕ) (tol : K)
    (kap kap_tmp : ℕ → Cplx K) : power_state K :=
  forLoop niter (spectral_norm_step sqrt tol) (spectral_norm_start sqrt F kap kap_tmp)

/-- The function `field::get_spectral_norm(niter, tol)`: returns `norm * (1.0 + tol)`. -/
def get_spectral_norm (sqrt : K → K) (F : field K) (niter : ℕ) (tol : K)
    (kap kap_tmp : ℕ → Cplx K) : K :=
  (spectral_norm_loop sqrt F niter tol kap kap_tmp).norm * (1 + tol)

/-- A `redshift_distribution` of the survey: `pdf`, `get_zmin()`, `get_zmax()`, and in `specz`
the value of `get_redshift()` when `dynamic_cast<spectroscopic_redshift *>` succeeds. -/
structure redshift_distribution (K : Type) where
  pdf : K → K
  get_zmin : K
  get_zmax : K
  specz : Option K

/-- The external numerical routines the kernel builders call.
`qags f a b epsabs epsrel limit` is `gsl_integration_qags` (return code, `result`);
`interp_eval z` is `gsl_interp_eval` on the efficiency table of plane `z`;
`svd m n A` gives Armadillo's `s` and `V` for the `m x n` matrix `A`; `inv n A` is `inv(A)`;
`w` is `nicaea::w(model, a, 0, err)`, `a_min` is `model->a_min`, `Z_INF` the header constant;
`indices` is the shuffled index vector. -/
structure numerics (K : Type) where
  qags : (K → K) → K → K → K → K → ℕ → ℤ × K
  interp_eval : ℕ → K → K
  svd : ℕ → ℕ → (ℕ → ℕ → K) → (ℕ → K) × (ℕ → ℕ → K)
  inv : ℕ → (ℕ → ℕ → K) → (ℕ → ℕ → K)
  w : K → K
  a_min : K
  Z_INF : K
  indices : ℕ → ℕ

/-- The constant `#define ZMAX 10.0`. -/
def ZMAX : K := 10

/-- The integrand `int_for_marginalisation`: `pdf(z) * gsl_interp_eval(..., z, ...)`. -/
def int_for_marginalisation (redshift : redshift_distribution K) (interp : K → K) (z : K) : K :=
  redshift.pdf z * interp z

/-- The value of `result` at line 884 of `compute_3D_lensing_kernel`, for one galaxy and
plane `z` (lines 861-883): spectroscopic shortcut, `qags`, or the trapezoid fallback. -/
def marginalise (N : numerics K) (redshift : redshift_distribution K) (z : ℕ) : K :=
  if redshift.get_zmax = redshift.get_zmin then
    int_for_marginalisation redshift (N.interp_eval z)
      (1 / 2 * (redshift.get_zmin + redshift.get_zmax))
  else
    let r := N.qags (int_for_marginalisation redshift (N.interp_eval z))
      (max 0 redshift.get_zmin) (min ZMAX redshift.get_zmax) 0 (1 / 10000) 1024
    if r.1 ≠ 0 then
      let a := max 0 redshift.get_zmin
      let b := min ZMAX redshift.get_zmax
      let n : ℕ := 1024
      let h := (b - a) / (n : K)
      let result := forLoop (n - 1) (fun it result =>
        let x1 := (it : K) * h + a
        let x2 := ((it : K) + 1) * h + a
        result + (int_for_marginalisation redshift (N.interp_eval z) x1
          + int_for_marginalisation redshift (N.interp_eval z) x2)) 0
      result * (h / 2)
    else
      r.2

/-- Armadillo's matrix product of an `? x n` by an `n x ?` matrix. -/
def mat_mul (n : ℕ) (A B : ℕ → ℕ → K) : ℕ → ℕ → K :=
  fun a b => ∑ j in range n, A a j * B j b

/-- Armadillo's `diagmat(s)`. -/
def diagmat (s : ℕ → K) : ℕ → ℕ → K := fun a b => if a = b then s a else 0

/-- Armadillo's `.t()`. -/
def mat_t (A : ℕ → ℕ → K) : ℕ → ℕ → K := fun a b => A b a

/-- The regularisation of the singular values (lines 937-949); `s` is the resized vector. -/
def regularise (nlp nsmall : ℕ) (r_cond : K) (s : ℕ → K) : ℕ → K :=
  let maxS := s 0
  forLoop nlp (fun i s =>
    let s := if s i > r_cond * maxS then Function.update s i (1 / s i)
      else Function.update s i (1 / (r_cond * maxS))
    if i ≥ nsmall then Function.update s i 1 else s) s

/-- The function `field::compute_3D_lensing_kernel` from the marginalisation on (line 842). -/
def compute_3D_lensing_kernel (N : numerics K) (F : field K)
    (redshift : ℕ → redshift_distribution K) : field K :=
  let nlp := F.nlp
  let ngal := F.ngal
  let lensKernel := forLoop ngal (fun i lensKernel =>
    forLoop nlp (fun z lensKernel =>
      Function.update lensKernel (i * nlp + z) (max (marginalise N (redshift i) z) 0))
      lensKernel) F.lensKernel
  let nsmall := min ngal 20000
  let Asmall : ℕ → ℕ → K := fun ind z => lensKernel (N.indices ind * nlp + z)
  let A : ℕ → ℕ → K := fun ind z => lensKernel (ind * nlp + z)
  let lensKernelTrue := forLoop ngal (fun ind lensKernelTrue =>
    forLoop nlp (fun z lensKernelTrue =>
      Function.update lensKernelTrue (ind * nlp + z) (lensKernel (ind * nlp + z)))
      lensKernelTrue) F.lensKernelTrue
  let sv := N.svd nsmall nlp Asmall
  let s := regularise nlp nsmall F.r_cond sv.1
  let V := sv.2
  let Pr := mat_mul nlp (mat_mul nlp V (diagmat s)) (mat_t V)
  let PPr := mat_mul nlp Pr (mat_t Pr)
  let IP := N.inv nlp Pr
  let AP := mat_mul nlp A Pr
  let lensKernel := forLoop ngal (fun ind lensKernel =>
    forLoop nlp (fun z lensKernel =>
      Function.update lensKernel (ind * nlp + z) (AP ind z)) lensKernel) lensKernel
  let st := forLoop nlp (fun z1 (st : (ℕ → K) × (ℕ → K) × (ℕ → K)) =>
    forLoop nlp (fun z2 (st : (ℕ → K) × (ℕ → K) × (ℕ → K)) =>
      (Function.update st.1 (z2 * nlp + z1) (Pr z1 z2),
       Function.update st.2.1 (z2 * nlp + z1) (IP z1 z2),
       Function.update st.2.2 (z2 * nlp + z1) (PPr z1 z2))) st) (F.P, F.iP, F.PP)
  { F with lensKernel := lensKernel, lensKernelTrue := lensKernelTrue,
           P := st.1, iP := st.2.1, PP := st.2.2 }

/-- The integrand `int_for_sigma` of the surface lensing weight. -/
def int_for_sigma (N : numerics K) (w_l w_inf : K) (redshift : redshift_distribution K)
    (a_s : K) : K :=
  let w_s := N.w a_s
  if w_s - w_l ≤ 0 then 0
  else
    let p := 1 / a_s / a_s * redshift.pdf (1 / a_s - 1)
    p * ((w_s - w_l) * w_inf) / ((w_inf - w_l) * w_s)

/-- The function `field::compute_surface_lensing_kernel`; the loop state is the pair
`(lensKernel, lensKernelTrue)`. -/
def compute_surface_lensing_kernel (N : numerics K) (F : field K)
    (redshift : ℕ → redshift_distribution K) : field K :=
  let a_inf := 1 / (1 + N.Z_INF)
  let a_lens := 1 / (1 + F.zlens)
  let w_l := N.w a_lens
  let w_inf := N.w a_inf
  let st := forLoop F.ngal (fun i (st : (ℕ → K) × (ℕ → K)) =>
    let lensKernel :=
      match (redshift i).specz with
      | some zs =>
        let afit := 1 / (1 + zs)
        let w_s := N.w afit
        if afit ≥ a_lens then Function.update st.1 i 0
        else Function.update st.1 i (((w_s - w_l) * w_inf) / ((w_inf - w_l) * w_s))
      | none =>
        let result := (N.qags (int_for_sigma N w_l w_inf (redshift i))
          (max (max N.a_min a_inf) (1 / ((redshift i).get_zmax + 1)))
          (min a_lens (1 / ((redshift i).get_zmin + 1))) 0 (1 / 100000) 1024).2
        Function.update st.1 i result
    (lensKernel, Function.update st.2 i (lensKernel i))) (F.lensKernel, F.lensKernelTrue)
  { F with lensKernel := st.1, lensKernelTrue := st.2 }

/-- Lines 102-103 of the constructor: from `n0 = (int) (survey_size / pixel_size)` the grid
size `npix = n0 + (n0 % 2) + 2 * padding_size`; `%` is the C++ remainder, truncated towards
zero (`Int.tmod`). -/
def constructor_npix (n0 padding_size : ℤ) : ℤ :=
  let npix := n0
  npix + Int.tmod npix 2 + 2 * padding_size

/-- Lines 189-190 (and 192-193) of the constructor: the NFFT node coordinate of a galaxy with
tangent-plane offset `X` on a field of width `size`. -/
def node_coordinate (X size : K) : K :=
  let val := -(1 / 2) + X / size
  if val < -(1 / 2) then val + 1 else val

/-- Lines 203-226 of the constructor: the kernels and the preconditioning matrices, written
into the freshly allocated arrays held by `F`. -/
def init_lensing_kernel (N : numerics K) (F : field K)
    (redshift : ℕ → redshift_distribution K) : field K :=
  if F.nlp = 1 then
    let F1 :=
      if F.zlens ≤ 0 then
        let lensKernel :=
          forLoop (F.ngal * F.nlp) (fun ind lensKernel => Function.update lensKernel ind 1)
            F.lensKernel
        { F with lensKernel := lensKernel }
      else
        compute_surface_lensing_kernel N F redshift
    { F1 with P := Function.update F1.P 0 1, PP := Function.update F1.PP 0 1,
              iP := Function.update F1.iP 0 1 }
  else
    compute_3D_lensing_kernel N F redshift

/-- Closed form of the coefficient that `kappa_to_gamma` stores in `f_hat[y * npix + x]`. -/
def gamma_hat (npix : ℕ) (freqFactor : K) (delta : ℕ → Cplx K) (z y x : ℕ) : Cplx K :=
  if kfreq npix freqFactor x = 0 ∧ kfreq npix freqFactor y = 0 then (0, 0)
  else
    (1 / (kfreq npix freqFactor x * kfreq npix freqFactor x
          + kfreq npix freqFactor y * kfreq npix freqFactor y) *
      ((delta (spos npix z y x)).1 * (kfreq npix freqFactor y * kfreq npix freqFactor y
          - kfreq npix freqFactor x * kfreq npix freqFactor x)
        + (delta (spos npix z y x)).2 * (2 * (kfreq npix freqFactor x * kfreq npix freqFactor y))),
     1 / (kfreq npix freqFactor x * kfreq npix freqFactor x
          + kfreq npix freqFactor y * kfreq npix freqFactor y) *
      ((delta (spos npix z y x)).2 * (kfreq npix freqFactor y * kfreq npix freqFactor y
          - kfreq npix freqFactor x * kfreq npix freqFactor x)
        - (delta (spos npix z y x)).1 * (2 * (kfreq npix freqFactor x * kfreq npix freqFactor y))))

/-- Closed form of the coefficient that `adjoint_operator` leaves in `delta[pos]` for the
grid point `(y, x)`, given the coefficient `fh = f_hat[y * npix + x]`. -/
def kappa_hat (npix : ℕ) (freqFactor : K) (fh : Cplx K) (y x : ℕ) : Cplx K :=
  if kfreq npix freqFactor x = 0 ∧ kfreq npix freqFactor y = 0 then (0, 0)
  else
    ((fh.1 * (kfreq npix freqFactor y * kfreq npix freqFactor y
          - kfreq npix freqFactor x * kfreq npix freqFactor x)
        - fh.2 * (2 * (kfreq npix freqFactor x * kfreq npix freqFactor y)))
      / (kfreq npix freqFactor x * kfreq npix freqFactor x
          + kfreq npix freqFactor y * kfreq npix freqFactor y),
     (fh.2 * (kfreq npix freqFactor y * kfreq npix freqFactor y
          - kfreq npix freqFactor x * kfreq npix freqFactor x)
        + fh.1 * (2 * (kfreq npix freqFactor x * kfreq npix freqFactor y)))
      / (kfreq npix freqFactor x * kfreq npix freqFactor x
          + kfreq npix freqFactor y * kfreq npix freqFactor y))

/-- Closed form of `f_hat[k]` after `scatter_residuals` followed by `nfft_adjoint_2d`. -/
def adj_hat (E : ℕ → ℕ → Cplx K) (ngal nlp z : ℕ) (kernel r1 r2 : ℕ → K) (k : ℕ) : Cplx K :=
  (∑ j in range ngal, ((E j k).1 * (r1 j * kernel (j * nlp + z))
      + (E j k).2 * (r2 j * kernel (j * nlp + z))),
   ∑ j in range ngal, ((E j k).1 * (r2 j * kernel (j * nlp + z))
      - (E j k).2 * (r1 j * kernel (j * nlp + z))))

/-- Closed form of `f[i]` after `nfft_trafo_2d` when `f_hat[y * npix + x] = fh y x`. -/
def trafo_at (E : ℕ → ℕ → Cplx K) (npix : ℕ) (fh : ℕ → ℕ → Cplx K) (i : ℕ) : Cplx K :=
  (∑ y in range npix, ∑ x in range npix,
      ((E i (y * npix + x)).1 * (fh y x).1 - (E i (y * npix + x)).2 * (fh y x).2),
   ∑ y in range npix, ∑ x in range npix,
      ((E i (y * npix + x)).1 * (fh y x).2 + (E i (y * npix + x)).2 * (fh y x).1))

/-- Closed form of the pair `(res_gamma1[i], res_gamma2[i])` that the shear part of
`forward_operator` computes from the spectral field `a`. -/
def forward_closed (F : field K) (a : ℕ → Cplx K) (i : ℕ) : Cplx K :=
  (∑ z in range F.nlp, F.lensKernel (i * F.nlp + z)
      * (trafo_at (F.nfft z) F.npix (gamma_hat F.npix F.freqFactor a z) i).1 * F.fftFactor,
   ∑ z in range F.nlp, F.lensKernel (i * F.nlp + z)
      * (trafo_at (F.nfft z) F.npix (gamma_hat F.npix F.freqFactor a z) i).2 * F.fftFactor)

/-- Closed form of the coefficient that one pass of the loop of `get_spectral_norm` leaves in
`kap[pos]` for the grid point `(z, y, x)`, flexion disabled: the adjoint of the forward shear
of `a` scaled by `cov * w_e`. -/
def normal_closed (F : field K) (a : ℕ → Cplx K) (z y x : ℕ) : Cplx K :=
  kappa_hat F.npix F.freqFactor
    (adj_hat (F.nfft z) F.ngal F.nlp z F.lensKernel
      (fun i => F.cov i * F.w_e i * (forward_closed F a i).1)
      (fun i => F.cov i * F.w_e i * (forward_closed F a i).2) (y * F.npix + x)) y x

/-- Two states of the class agree on the members that the operators only read. -/
def same_setup (F G : field K) : Prop :=
  F.npix = G.npix ∧ F.nlp = G.nlp ∧ F.ngal = G.ngal ∧ F.include_flexion = G.include_flexion
  ∧ F.freqFactor = G.freqFactor ∧ F.lensKernel = G.lensKernel ∧ F.nfft = G.nfft
  ∧ F.cov = G.cov ∧ F.w_e = G.w_e

/-- The coefficient that `combine_components` stores when flexion is enabled (lines 583-588),
for wave numbers `k1, k2`, convergence coefficient `conv` and flexion coefficient `flex`. -/
def combined_coefficient (sig_frac k1 k2 : K) (conv flex : Cplx K) : Cplx K :=
  ((flex.1 * k2 - flex.2 * k1) * (1 / (k1 * k1 + k2 * k2 + sig_frac))
      + 1 / (k1 * k1 + k2 * k2 + sig_frac) * sig_frac * conv.1,
   (flex.1 * k1 + flex.2 * k2) * (1 / (k1 * k1 + k2 * k2 + sig_frac))
      + 1 / (k1 * k1 + k2 * k2 + sig_frac) * sig_frac * conv.2)

/-- The flexion coefficient that `combine_components_inverse` derives from a combined
coefficient `c` (lines 621-622). -/
def flexion_of_combined (k1 k2 : K) (c : Cplx K) : Cplx K :=
  (c.1 * k2 + c.2 * k1, -c.1 * k1 + c.2 * k2)

/-- Closed form of the coefficient that `combine_components` stores for the grid point
`(z, y, x)` of the spectral field `kap`: the combined coefficient when flexion is enabled,
the convergence coefficient otherwise. -/
def combined_at (F : field K) (kap : ℕ → Cplx K) (z y x : ℕ) : Cplx K :=
  if F.include_flexion then
    combined_coefficient F.sig_frac (kfreq F.npix F.freqFactor x) (kfreq F.npix F.freqFactor y)
      (kap (spos F.npix z y x)) (kap (F.nlp * F.npix * F.npix + spos F.npix z y x))
  else kap (spos F.npix z y x)

/-- Closed form of the pair `(res_gamma1[i], res_gamma2[i])` that `forward_operator` computes
from `combine_components(kap)`, with or without flexion. -/
def forward_of_combined (F : field K) (kap : ℕ → Cplx K) (i : ℕ) : Cplx K :=
  (∑ z in range F.nlp, F.lensKernel (i * F.nlp + z)
      * (trafo_at (F.nfft z) F.npix
          (fun y x => gamma_hat F.npix F.freqFactor (fun _ => combined_at F kap z y x) z y x)
          i).1 * F.fftFactor,
   ∑ z in range F.nlp, F.lensKernel (i * F.nlp + z)
      * (trafo_at (F.nfft z) F.npix
          (fun y x => gamma_hat F.npix F.freqFactor (fun _ => combined_at F kap z y x) z y x)
          i).2 * F.fftFactor)

/-- Closed form of the coefficient that one pass of the loop of `get_spectral_norm` leaves in
the convergence block of `kap_tmp` and of `kap` for the grid point `(z, y, x)`, with or
without flexion. -/
def normal_of_combined (F : field K) (kap : ℕ → Cplx K) (z y x : ℕ) : Cplx K :=
  kappa_hat F.npix F.freqFactor
    (adj_hat (F.nfft z) F.ngal F.nlp z F.lensKernel
      (fun i => F.cov i * F.w_e i * (forward_of_combined F kap i).1)
      (fun i => F.cov i * F.w_e i * (forward_of_combined F kap i).2) (y * F.npix + x)) y x

/-- Two states of the class agree on the members that one pass of `get_spectral_norm` reads
without writing them first. -/
def same_operator (F G : field K) : Prop :=
  same_setup F G ∧ F.sig_frac = G.sig_frac

/-- Two states of the loop of `get_spectral_norm` over the field `F0` agree on everything but
the scratch buffer `kap_tmp` and the buffers of the field. -/
def same_iterate (F0 : field K) (s t : power_state K) : Prop :=
  same_operator s.F F0 ∧ same_operator t.F F0
  ∧ (∀ p, p < ncoeff F0 → s.kap p = t.kap p)
  ∧ s.norm = t.norm ∧ s.norm_old = t.norm_old ∧ s.stopped = t.stopped

/-- A small concrete field over the rationals: a `2 x 2` grid, one galaxy, unit kernels,
unit pixel frequency, and an NFFT matrix with all entries `1`. -/
def example_field (nlp : ℕ) (flexion : Bool) (zlens : ℚ) : field ℚ :=
  { npix := 2, nlp := nlp, ngal := 1, include_flexion := flexion, freqFactor := 1,
    sig_frac := 1, zlens := zlens, r_cond := 1 / 10,
    shear_gamma1 := fun _ => 0, shear_gamma2 := fun _ => 0,
    flexion_f1 := fun _ => 0, flexion_f2 := fun _ => 0,
    w_e := fun _ => 1, w_f := fun _ => 1,
    res_gamma1 := fun _ => 0, res_gamma2 := fun _ => 0,
    res_f1 := fun _ => 0, res_f2 := fun _ => 0,
    res_conv := fun _ => 0, cov := fun _ => 1,
    lensKernel := fun _ => 1, lensKernelTrue := fun _ => 1,
    P := fun _ => 0, PP := fun _ => 0, iP := fun _ => 0,
    fft_frame := fun _ => (0, 0),
    ps := fun _ => ⟨fun _ => (0, 0), fun _ => (0, 0)⟩,
    nfft := fun _ _ _ => (1, 0) }

/-- Concrete external routines over the rationals: the midpoint rule for `qags`, the
distance `w(a) = 1/a - 1`, `Z_INF = 9`, an identity `svd`/`inv`, and no shuffling. -/
def example_numerics : numerics ℚ :=
  { qags := fun f a b _ _ _ => (0, (b - a) * f ((a + b) / 2)),
    interp_eval := fun _ z => z,
    svd := fun _ _ _ => (fun _ => 1, fun a b => if a = b then 1 else 0),
    inv := fun _ A => A,
    w := fun a => 1 / a - 1,
    a_min := 1 / 100,
    Z_INF := 9,
    indices := fun i => i }

/-- A general (non-spectroscopic) redshift distribution on `[1, 3]` whose density is
negative, as the lobes of an interpolated histogram can be. -/
def negative_redshift : redshift_distribution ℚ :=
  { pdf := fun _ => -1, get_zmin := 1, get_zmax := 3, specz := none }

/-- The composite trapezoid rule over `1024` equal subintervals of `[a, b]`, as the
specification words the fallback: `(h/2) * sum_{it=0}^{1023} [f(a + it*h) + f(a + (it+1)*h)]`
with `h = (b - a) / 1024`.  Compared with the fallback of `marginalise`. -/
def trapezoid_1024 (f : K → K) (a b : K) : K :=
  (b - a) / 1024 / 2 * ∑ it in range 1024,
    (f (a + (it : K) * ((b - a) / 1024)) + f (a + ((it : K) + 1) * ((b - a) / 1024)))

/-- External routines whose adaptive quadrature fails (`qags` returns the error code
`GSL_EMAXITER = 11`), with a constant efficiency table `E_z = 1`. -/
def failing_numerics : numerics ℚ :=
  { example_numerics with
    qags := fun _ _ _ _ _ _ => (11, 0),
    interp_eval := fun _ _ => 1 }

/-- The uniform redshift distribution on `[0, 1]`: density `1`. -/
def flat_redshift : redshift_distribution ℚ :=
  { pdf := fun _ => 1, get_zmin := 0, get_zmax := 1, specz := none }

/-- A zero-width redshift distribution at `z0 = 2` whose `pdf` returns `p`. -/
def point_redshift (p : ℚ) : redshift_distribution ℚ :=
  { pdf := fun _ => p, get_zmin := 2, get_zmax := 2, specz := some 2 }

/-- The field `example_field 1 false (-1)` whose freshly allocated `lensKernelTrue` holds the
value `7` left in memory. -/
def stale_kernel_field : field ℚ :=
  { example_field 1 false (-1) with lensKernelTrue := fun _ => 7 }

/-- External routines for one galaxy and two planes whose efficiency tables are the constants
`E_0 = 3` and `E_1 = 4`: `svd` returns the singular value decomposition of the `1 x 2` kernel
matrix `[3 4] = 1 * 5 * (3/5, 4/5)`, that is `s = (5)` and
`V = [[3/5, -4/5], [4/5, 3/5]]`, and `inv` is the inverse of a `2 x 2` matrix. -/
def pythagorean_numerics : numerics ℚ :=
  { example_numerics with
    interp_eval := fun z _ => if z = 0 then 3 else 4,
    svd := fun _ _ _ =>
      (fun i => if i = 0 then 5 else 0,
       fun a b => if a = 0 then (if b = 0 then 3 / 5 else -4 / 5)
                  else (if b = 0 then 4 / 5 else 3 / 5)),
    inv := fun _ A a b =>
      (if a = b then A (1 - a) (1 - b) else -(A a b)) / (A 0 0 * A 1 1 - A 0 1 * A 1 0) }

/-- The state the constructor builds in tomographic mode (`nlp = 2`) with flexion, for one
galaxy with a spectroscopic redshift and measured flexion `flexion_f1 = 1`: the kernels come
out of `init_lensing_kernel`, `lensKernelTrue = [3, 4]` and `lensKernel = [3/5, 4/5]`. -/
def tomographic_field : field ℚ :=
  init_lensing_kernel pythagorean_numerics
    { example_field 2 true (-1) with flexion_f1 := fun _ => 1 } (fun _ => point_redshift 1)

/-- The `2 x 2` one-plane, one-galaxy field of `example_field` without flexion, over an
arbitrary field of numbers (used over the reals, where the square root lives). -/
def unit_grid_field : field K :=
  { npix := 2, nlp := 1, ngal := 1, include_flexion := false, freqFactor := 1,
    sig_frac := 1, zlens := -1, r_cond := 1 / 10,
    shear_gamma1 := fun _ => 0, shear_gamma2 := fun _ => 0,
    flexion_f1 := fun _ => 0, flexion_f2 := fun _ => 0,
    w_e := fun _ => 1, w_f := fun _ => 1,
    res_gamma1 := fun _ => 0, res_gamma2 := fun _ => 0,
    res_f1 := fun _ => 0, res_f2 := fun _ => 0,
    res_conv := fun _ => 0, cov := fun _ => 1,
    lensKernel := fun _ => 1, lensKernelTrue := fun _ => 1,
    P := fun _ => 0, PP := fun _ => 0, iP := fun _ => 0,
    fft_frame := fun _ => (0, 0),
    ps := fun _ => ⟨fun _ => (0, 0), fun _ => (0, 0)⟩,
    nfft := fun _ _ _ => (1, 0) }

/-- The start vector of `get_spectral_norm` with the single non-zero draw `kap[2] = (1, 0)`. -/
def unit_start : ℕ → Cplx K := fun p => if p = 2 then (1, 0) else (0, 0)

/-- A scratch buffer whose flexion block (offset `nlp * npix^2 = 4` on the `2 x 2` one-plane
grid) holds a value left in memory: `kap_tmp[4] = (1, 0)`. -/
def stale_scratch : ℕ → Cplx ℚ := fun p => if p = 4 then (1, 0) else (0, 0)

/-! # Theorems -/

theorem forLoop_zero {σ : Type} (body : ℕ → σ → σ) (s : σ) : forLoop 0 body s = s := rfl

theorem forLoop_succ {σ : Type} (n : ℕ) (body : ℕ → σ → σ) (s : σ) :
    forLoop (n + 1) body s = body n (forLoop n body s) := by
  simp [forLoop, List.range_succ, List.foldl_append]

/-- An observation that no iteration changes is unchanged by the loop. -/
theorem forLoop_obs_inv {σ β : Type} (obs : σ → β) (n : ℕ) (body : ℕ → σ → σ) (s : σ)
    (h : ∀ i, i < n → ∀ t, obs (body i t) = obs t) : obs (forLoop n body s) = obs s := by
  induction n with
  | zero => rfl
  | succ n ih =>
    rw [forLoop_succ, h n (Nat.lt_succ_self n)]
    exact ih (fun i hi => h i (Nat.lt_succ_of_lt hi))

/-- An observation fixed by iteration `i` and untouched afterwards has that value at the end. -/
theorem forLoop_obs_hit {σ β : Type} (obs : σ → β) (n : ℕ) (body : ℕ → σ → σ) (s : σ)
    (i : ℕ) (hi : i < n) (val : β) (hval : ∀ t, obs (body i t) = val)
    (hlater : ∀ j, i < j → j < n → ∀ t, obs (body j t) = obs t) :
    obs (forLoop n body s) = val := by
  induction n with
  | zero => exact absurd hi (Nat.not_lt_zero _)
  | succ n ih =>
    rw [forLoop_succ]
    rcases Nat.lt_succ_iff_lt_or_eq.mp hi with h | h
    · rw [hlater n h (Nat.lt_succ_self n)]
      exact ih h (fun j hij hj => hlater j hij (Nat.lt_succ_of_lt hj))
    · subst h
      exact hval _

/-- A property established by iteration `i` and preserved afterwards holds at the end. -/
theorem forLoop_pred_hit {σ : Type} (P : σ → Prop) (n : ℕ) (body : ℕ → σ → σ) (s : σ)
    (i : ℕ) (hi : i < n) (hval : ∀ t, P (body i t))
    (hlater : ∀ j, i < j → j < n → ∀ t, P t → P (body j t)) :
    P (forLoop n body s) := by
  induction n with
  | zero => exact absurd hi (Nat.not_lt_zero _)
  | succ n ih =>
    rw [forLoop_succ]
    rcases Nat.lt_succ_iff_lt_or_eq.mp hi with h | h
    · exact hlater n h (Nat.lt_succ_self n) _
        (ih h (fun j hij hj => hlater j hij (Nat.lt_succ_of_lt hj)))
    · subst h
      exact hval _

theorem forLoop2_obs_inv {σ β : Type} (obs : σ → β) (n m : ℕ) (body : ℕ → ℕ → σ → σ) (s : σ)
    (h : ∀ y x, y < n → x < m → ∀ t, obs (body y x t) = obs t) :
    obs (forLoop n (fun y t => forLoop m (fun x t => body y x t) t) s) = obs s :=
  forLoop_obs_inv obs n _ s (fun y hy t =>
    forLoop_obs_inv obs m _ t (fun x hx u => h y x hy hx u))

theorem forLoop2_obs_hit {σ β : Type} (obs : σ → β) (n m : ℕ) (body : ℕ → ℕ → σ → σ) (s : σ)
    (y x : ℕ) (hy : y < n) (hx : x < m) (val : β) (hval : ∀ t, obs (body y x t) = val)
    (hother : ∀ y' x', y' < n → x' < m → (y' ≠ y ∨ x' ≠ x) → ∀ t, obs (body y' x' t) = obs t) :
    obs (forLoop n (fun y t => forLoop m (fun x t => body y x t) t) s) = val :=
  forLoop_obs_hit obs n _ s y hy val
    (fun t => forLoop_obs_hit obs m _ t x hx val hval
      (fun j hj hjm u => hother y j hy hjm (Or.inr (Nat.ne_of_gt hj)) u))
    (fun j hj hjn t => forLoop_obs_inv obs m _ t
      (fun x' hx' u => hother j x' hjn hx' (Or.inl (Nat.ne_of_gt hj)) u))

theorem grid_index_inj (n y x y' x' : ℕ) (hx : x < n) (hx' : x' < n)
    (h : y * n + x = y' * n + x') : y = y' ∧ x = x' := by
  have hn : 0 < n := Nat.lt_of_le_of_lt (Nat.zero_le _) hx
  have h1 : (y * n + x) / n = y := by
    rw [Nat.mul_comm, Nat.mul_add_div hn, Nat.div_eq_of_lt hx, Nat.add_zero]
  have h2 : (y' * n + x') / n = y' := by
    rw [Nat.mul_comm, Nat.mul_add_div hn, Nat.div_eq_of_lt hx', Nat.add_zero]
  have hy : y = y' := by rw [← h1, ← h2, h]
  subst hy
  exact ⟨rfl, Nat.add_left_cancel h⟩

theorem kshift_lt (n x : ℕ) (hn : Even n) (hx : x < n) : kshift n x < n := by
  obtain ⟨m, rfl⟩ := hn
  unfold kshift
  split_ifs <;> omega

theorem kshift_kshift (n x : ℕ) (hn : Even n) (hx : x < n) : kshift n (kshift n x) = x := by
  obtain ⟨m, rfl⟩ := hn
  unfold kshift
  split_ifs <;> omega

theorem kshift_eq_zero_iff (n x : ℕ) (hn : Even n) (hx : x < n) :
    kshift n x = 0 ↔ x = n / 2 := by
  obtain ⟨m, rfl⟩ := hn
  unfold kshift
  split_ifs <;> omega

theorem kshift_inj (n x x' : ℕ) (hn : Even n) (hx : x < n) (hx' : x' < n)
    (h : kshift n x = kshift n x') : x = x' := by
  rw [← kshift_kshift n x hn hx, h, kshift_kshift n x' hn hx']

theorem spos_inj (n z y x z' y' x' : ℕ) (hn : Even n) (hy : y < n) (hx : x < n)
    (hy' : y' < n) (hx' : x' < n) (h : spos n z y x = spos n z' y' x') :
    z = z' ∧ y = y' ∧ x = x' := by
  unfold spos at h
  have h1 : (z * n + kshift n y) * n + kshift n x = (z' * n + kshift n y') * n + kshift n x' := by
    nlinarith [h]
  obtain ⟨h2, h3⟩ := grid_index_inj n _ _ _ _ (kshift_lt n x hn hx) (kshift_lt n x' hn hx') h1
  obtain ⟨h4, h5⟩ := grid_index_inj n _ _ _ _ (kshift_lt n y hn hy) (kshift_lt n y' hn hy') h2
  exact ⟨h4, kshift_inj n y y' hn hy hy' h5, kshift_inj n x x' hn hx hx' h3⟩

theorem kfreq_eq_zero_iff (n : ℕ) (ff : K) (hff : ff ≠ 0) (x : ℕ) :
    kfreq n ff x = 0 ↔ x = n / 2 := by
  unfold kfreq
  rw [mul_eq_zero]
  constructor
  · rintro (h | h)
    · have : ((x : ℤ) - ((n / 2 : ℕ) : ℤ)) = 0 := by exact_mod_cast h
      omega
    · exact absurd h hff
  · intro h
    left
    subst h
    simp

theorem kappa_to_gamma_apply (n : ℕ) (ff : K) (z : ℕ) (delta fh : ℕ → Cplx K) (y x : ℕ)
    (hy : y < n) (hx : x < n) :
    kappa_to_gamma n ff z delta fh (y * n + x) = gamma_hat n ff delta z y x := by
  unfold gamma_hat
  unfold kappa_to_gamma
  refine forLoop2_obs_hit (fun b : ℕ → Cplx K => b (y * n + x)) n n _ fh y x hy hx _ ?_ ?_
  · intro t
    simp only [spos]
    split_ifs <;> simp [Function.update_same]
  · intro y' x' _ hx' hne t
    have hidx : y * n + x ≠ y' * n + x' := by
      intro h
      obtain ⟨h1, h2⟩ := grid_index_inj n _ _ _ _ hx hx' h
      rcases hne with h3 | h3
      · exact h3 h1.symm
      · exact h3 h2.symm
    simp only []
    split_ifs <;> rw [Function.update_noteq hidx]

theorem sum_range_mul {M : Type} [AddCommMonoid M] (n m : ℕ) (g : ℕ → M) :
    ∑ k in range (n * m), g k = ∑ y in range n, ∑ x in range m, g (y * m + x) := by
  induction n with
  | zero => simp
  | succ n ih => rw [Nat.succ_mul, Finset.sum_range_add, Finset.sum_range_succ, ih]

theorem sum_kshift {M : Type} [AddCommMonoid M] (n : ℕ) (hn : Even n) (g : ℕ → M) :
    ∑ x in range n, g (kshift n x) = ∑ x in range n, g x := by
  refine Finset.sum_nbij' (fun x => kshift n x) (fun x => kshift n x) ?_ ?_ ?_ ?_ ?_
  · intro x hx
    exact mem_range.mpr (kshift_lt n x hn (mem_range.mp hx))
  · intro x hx
    exact mem_range.mpr (kshift_lt n x hn (mem_range.mp hx))
  · intro x hx
    exact kshift_kshift n x hn (mem_range.mp hx)
  · intro x hx
    exact kshift_kshift n x hn (mem_range.mp hx)
  · intro x _
    rfl

/-- Summing over the coefficients of `nlp` planes is summing over planes and grid points. -/
theorem sum_spos {M : Type} [AddCommMonoid M] (n L : ℕ) (hn : Even n) (g : ℕ → M) :
    ∑ p in range (n * n * L), g p
      = ∑ z in range L, ∑ y in range n, ∑ x in range n, g (spos n z y x) := by
  rw [Nat.mul_comm (n * n) L, sum_range_mul]
  refine Finset.sum_congr rfl (fun z _ => ?_)
  rw [sum_range_mul, ← sum_kshift n hn]
  refine Finset.sum_congr rfl (fun y _ => ?_)
  rw [← sum_kshift n hn]
  refine Finset.sum_congr rfl (fun x _ => ?_)
  congr 1
  unfold spos
  ring

theorem spectral_gather_apply (n z : ℕ) (src fh : ℕ → Cplx K) (y x : ℕ)
    (hy : y < n) (hx : x < n) :
    spectral_gather n z src fh (y * n + x) = src (spos n z y x) := by
  unfold spectral_gather
  refine forLoop2_obs_hit (fun b : ℕ → Cplx K => b (y * n + x)) n n _ fh y x hy hx _ ?_ ?_
  · intro t
    simp [spos, Function.update_same]
  · intro y' x' _ hx' hne t
    have hidx : y * n + x ≠ y' * n + x' := by
      intro h
      obtain ⟨h1, h2⟩ := grid_index_inj n _ _ _ _ hx hx' h
      rcases hne with h3 | h3
      · exact h3 h1.symm
      · exact h3 h2.symm
    exact Function.update_noteq hidx _ _

theorem gamma_to_kappa_miss (n : ℕ) (ff : K) (z : ℕ) (fhat delta : ℕ → Cplx K) (p : ℕ)
    (h : ∀ y x, y < n → x < n → ¬ (kfreq n ff x = 0 ∧ kfreq n ff y = 0) → spos n z y x ≠ p) :
    gamma_to_kappa n ff z fhat delta p = delta p := by
  unfold gamma_to_kappa
  refine forLoop2_obs_inv (fun b : ℕ → Cplx K => b p) n n _ delta ?_
  intro y x hy hx t
  simp only []
  split_ifs with hdc
  · rfl
  · exact Function.update_noteq (Ne.symm (h y x hy hx hdc)) _ _

theorem gamma_to_kappa_hit (n : ℕ) (ff : K) (z : ℕ) (fhat delta : ℕ → Cplx K) (y x : ℕ)
    (hn : Even n) (hy : y < n) (hx : x < n)
    (hdc : ¬ (kfreq n ff x = 0 ∧ kfreq n ff y = 0)) :
    gamma_to_kappa n ff z fhat delta (spos n z y x) =
      (((fhat (y * n + x)).1 * (kfreq n ff y * kfreq n ff y - kfreq n ff x * kfreq n ff x)
          - (fhat (y * n + x)).2 * (2 * (kfreq n ff x * kfreq n ff y)))
          / (kfreq n ff x * kfreq n ff x + kfreq n ff y * kfreq n ff y),
       ((fhat (y * n + x)).2 * (kfreq n ff y * kfreq n ff y - kfreq n ff x * kfreq n ff x)
          + (fhat (y * n + x)).1 * (2 * (kfreq n ff x * kfreq n ff y)))
          / (kfreq n ff x * kfreq n ff x + kfreq n ff y * kfreq n ff y)) := by
  unfold gamma_to_kappa
  refine forLoop2_obs_hit (fun b : ℕ → Cplx K => b (spos n z y x)) n n _ delta y x hy hx _ ?_ ?_
  · intro t
    simp only []
    rw [if_neg hdc]
    exact Function.update_same _ _ _
  · intro y' x' hy' hx' hne t
    have hidx : spos n z y x ≠ spos n z y' x' := by
      intro h
      obtain ⟨_, h1, h2⟩ := spos_inj n _ _ _ _ _ _ hn hy hx hy' hx' h
      rcases hne with h3 | h3
      · exact h3 h1.symm
      · exact h3 h2.symm
    simp only []
    split_ifs
    · rfl
    · exact Function.update_noteq hidx _ _

theorem spectral_scatter_miss (n z off : ℕ) (fhat delta : ℕ → Cplx K) (p : ℕ)
    (h : ∀ y x, y < n → x < n → off + spos n z y x ≠ p) :
    spectral_scatter n z off fhat delta p = delta p := by
  unfold spectral_scatter
  refine forLoop2_obs_inv (fun b : ℕ → Cplx K => b p) n n _ delta ?_
  intro y x hy hx t
  exact Function.update_noteq (Ne.symm (h y x hy hx)) _ _

theorem spectral_scatter_hit (n z off : ℕ) (fhat delta : ℕ → Cplx K) (y x : ℕ)
    (hn : Even n) (hy : y < n) (hx : x < n) :
    spectral_scatter n z off fhat delta (off + spos n z y x) = fhat (y * n + x) := by
  unfold spectral_scatter
  refine forLoop2_obs_hit (fun b : ℕ → Cplx K => b (off + spos n z y x)) n n _ delta y x hy hx
    _ ?_ ?_
  · intro t
    exact Function.update_same _ _ _
  · intro y' x' hy' hx' hne t
    have hidx : off + spos n z y x ≠ off + spos n z y' x' := by
      intro h
      obtain ⟨_, h1, h2⟩ := spos_inj n _ _ _ _ _ _ hn hy hx hy' hx' (Nat.add_left_cancel h)
      rcases hne with h3 | h3
      · exact h3 h1.symm
      · exact h3 h2.symm
    exact Function.update_noteq hidx _ _

theorem scatter_residuals_apply (G L z : ℕ) (q r1 r2 : ℕ → K) (f : ℕ → Cplx K) (i : ℕ)
    (hi : i < G) :
    scatter_residuals G L z q r1 r2 f i = (r1 i * q (i * L + z), r2 i * q (i * L + z)) := by
  unfold scatter_residuals
  refine forLoop_obs_hit (fun b : ℕ → Cplx K => b i) G _ f i hi _ ?_ ?_
  · intro t
    exact Function.update_same _ _ _
  · intro j hj _ t
    exact Function.update_noteq (Nat.ne_of_lt hj) _ _

theorem apply_kernel_fst (G L : ℕ) (c : K) (q : ℕ → K) (ps : ℕ → nfft_plan K)
    (out : (ℕ → K) × (ℕ → K)) (i : ℕ) (hi : i < G) :
    (apply_kernel G L c q ps out).1 i
      = ∑ z in range L, q (i * L + z) * ((ps z).f i).1 * c := by
  unfold apply_kernel
  refine forLoop_obs_hit (fun b : (ℕ → K) × (ℕ → K) => b.1 i) G _ out i hi _ ?_ ?_
  · intro t
    exact Function.update_same _ _ _
  · intro j hj _ t
    exact Function.update_noteq (Nat.ne_of_lt hj) _ _

theorem apply_kernel_snd (G L : ℕ) (c : K) (q : ℕ → K) (ps : ℕ → nfft_plan K)
    (out : (ℕ → K) × (ℕ → K)) (i : ℕ) (hi : i < G) :
    (apply_kernel G L c q ps out).2 i
      = ∑ z in range L, q (i * L + z) * ((ps z).f i).2 * c := by
  unfold apply_kernel
  refine forLoop_obs_hit (fun b : (ℕ → K) × (ℕ → K) => b.2 i) G _ out i hi _ ?_ ?_
  · intro t
    exact Function.update_same _ _ _
  · intro j hj _ t
    exact Function.update_noteq (Nat.ne_of_lt hj) _ _

theorem spos_lt (n z y x : ℕ) (hn : Even n) (hy : y < n) (hx : x < n) :
    spos n z y x < (z + 1) * (n * n) := by
  have h1 := kshift_lt n y hn hy
  have h2 := kshift_lt n x hn hx
  unfold spos
  have h3 : (kshift n y + 1) * n ≤ n * n := Nat.mul_le_mul_right n h1
  nlinarith

theorem spos_ge (n z y x : ℕ) : z * (n * n) ≤ spos n z y x := by
  unfold spos
  omega

theorem spos_half (n z : ℕ) (hn : Even n) (h0 : 0 < n) :
    spos n z (n / 2) (n / 2) = z * (n * n) := by
  have hh : n / 2 < n := Nat.div_lt_self h0 (by decide)
  have h := (kshift_eq_zero_iff n (n / 2) hn hh).mpr rfl
  unfold spos
  rw [h]
  simp

theorem spos_eq_plane_iff (n z y x : ℕ) (hn : Even n) (hy : y < n) (hx : x < n) :
    spos n z y x = z * (n * n) ↔ (x = n / 2 ∧ y = n / 2) := by
  have h0 : 0 < n := Nat.lt_of_le_of_lt (Nat.zero_le _) hx
  have hh : n / 2 < n := Nat.div_lt_self h0 (by decide)
  constructor
  · intro h
    rw [← spos_half n z hn h0] at h
    obtain ⟨_, h1, h2⟩ := spos_inj n _ _ _ _ _ _ hn hy hx hh hh h
    exact ⟨h2, h1⟩
  · rintro ⟨h1, h2⟩
    rw [h1, h2]
    exact spos_half n z hn h0

theorem nfft_adjoint_scatter (E : ℕ → ℕ → Cplx K) (G L z : ℕ) (q r1 r2 : ℕ → K)
    (fh0 f0 : ℕ → Cplx K) :
    (nfft_adjoint_2d E G ⟨fh0, scatter_residuals G L z q r1 r2 f0⟩).f_hat
      = adj_hat E G L z q r1 r2 := by
  funext k
  unfold nfft_adjoint_2d adj_hat
  refine Prod.ext ?_ ?_
  · dsimp only
    refine Finset.sum_congr rfl (fun j hj => ?_)
    rw [scatter_residuals_apply G L z q r1 r2 f0 j (mem_range.mp hj)]
  · dsimp only
    refine Finset.sum_congr rfl (fun j hj => ?_)
    rw [scatter_residuals_apply G L z q r1 r2 f0 j (mem_range.mp hj)]

/-- The array `delta` after the body of the plane loop of `adjoint_operator`. -/
theorem adjoint_plane_snd (F : field K) (pre : Bool) (z : ℕ)
    (st : (ℕ → nfft_plan K) × (ℕ → Cplx K)) :
    (adjoint_plane F pre z st).2 =
      if F.include_flexion then
        spectral_scatter F.npix z (F.nlp * F.npix * F.npix)
          (adj_hat (F.nfft z) F.ngal F.nlp z F.lensKernel F.res_f1 F.res_f2)
          (Function.update
            (gamma_to_kappa F.npix F.freqFactor z
              (adj_hat (F.nfft z) F.ngal F.nlp z
                (if pre then F.lensKernel else F.lensKernelTrue) F.res_gamma1 F.res_gamma2) st.2)
            (z * (F.npix * F.npix)) (0, 0))
      else
        Function.update
          (gamma_to_kappa F.npix F.freqFactor z
            (adj_hat (F.nfft z) F.ngal F.nlp z
              (if pre then F.lensKernel else F.lensKernelTrue) F.res_gamma1 F.res_gamma2) st.2)
          (z * (F.npix * F.npix)) (0, 0) := by
  unfold adjoint_plane
  cases pre <;> cases hfl : F.include_flexion <;>
    simp [nfft_adjoint_scatter]

theorem plane_le (n L z : ℕ) (hz : z < L) : (z + 1) * (n * n) ≤ L * n * n := by
  rw [Nat.mul_assoc]
  exact Nat.mul_le_mul_right _ hz

/-- The coefficient of plane `z` after the plane's own iteration of `adjoint_operator`. -/
theorem adjoint_plane_shear_own (F : field K) (pre : Bool) (z : ℕ)
    (st : (ℕ → nfft_plan K) × (ℕ → Cplx K)) (y x : ℕ) (hn : Even F.npix)
    (hff : F.freqFactor ≠ 0) (hz : z < F.nlp) (hy : y < F.npix) (hx : x < F.npix) :
    (adjoint_plane F pre z st).2 (spos F.npix z y x) =
      kappa_hat F.npix F.freqFactor
        (adj_hat (F.nfft z) F.ngal F.nlp z (if pre then F.lensKernel else F.lensKernelTrue)
          F.res_gamma1 F.res_gamma2 (y * F.npix + x)) y x := by
  have hA : ∀ fh : ℕ → Cplx K,
      Function.update (gamma_to_kappa F.npix F.freqFactor z fh st.2)
        (z * (F.npix * F.npix)) (0, 0) (spos F.npix z y x)
        = kappa_hat F.npix F.freqFactor (fh (y * F.npix + x)) y x := by
    intro fh
    by_cases hdc : x = F.npix / 2 ∧ y = F.npix / 2
    · rw [(spos_eq_plane_iff F.npix z y x hn hy hx).mpr hdc, Function.update_same]
      unfold kappa_hat
      rw [if_pos ⟨(kfreq_eq_zero_iff F.npix F.freqFactor hff x).mpr hdc.1,
        (kfreq_eq_zero_iff F.npix F.freqFactor hff y).mpr hdc.2⟩]
    · have hk : ¬ (kfreq F.npix F.freqFactor x = 0 ∧ kfreq F.npix F.freqFactor y = 0) := by
        rintro ⟨h1, h2⟩
        exact hdc ⟨(kfreq_eq_zero_iff F.npix F.freqFactor hff x).mp h1,
          (kfreq_eq_zero_iff F.npix F.freqFactor hff y).mp h2⟩
      rw [Function.update_noteq (fun h => hdc ((spos_eq_plane_iff F.npix z y x hn hy hx).mp h)),
        gamma_to_kappa_hit F.npix F.freqFactor z fh st.2 y x hn hy hx hk]
      unfold kappa_hat
      rw [if_neg hk]
  rw [adjoint_plane_snd]
  by_cases hfl : F.include_flexion = true
  · rw [if_pos hfl, spectral_scatter_miss _ _ _ _ _ _ (fun y' x' _ _ => ?_)]
    · exact hA _
    · have h1 := spos_lt F.npix z y x hn hy hx
      have h2 := plane_le F.npix F.nlp z hz
      omega
  · rw [if_neg hfl]
    exact hA _

/-- The coefficients of plane `z` are not touched by the iteration of another plane `j`. -/
theorem adjoint_plane_shear_other (F : field K) (pre : Bool) (j z : ℕ)
    (st : (ℕ → nfft_plan K) × (ℕ → Cplx K)) (y x : ℕ) (hn : Even F.npix)
    (hz : z < F.nlp) (hjz : j ≠ z) (hy : y < F.npix) (hx : x < F.npix) :
    (adjoint_plane F pre j st).2 (spos F.npix z y x) = st.2 (spos F.npix z y x) := by
  have h0 : 0 < F.npix := Nat.lt_of_le_of_lt (Nat.zero_le _) hx
  have hh : F.npix / 2 < F.npix := Nat.div_lt_self h0 (by decide)
  have hA : ∀ fh : ℕ → Cplx K,
      Function.update (gamma_to_kappa F.npix F.freqFactor j fh st.2)
        (j * (F.npix * F.npix)) (0, 0) (spos F.npix z y x) = st.2 (spos F.npix z y x) := by
    intro fh
    rw [Function.update_noteq, gamma_to_kappa_miss]
    · intro y' x' hy' hx' _ h
      exact hjz (spos_inj F.npix _ _ _ _ _ _ hn hy' hx' hy hx h).1
    · intro h
      rw [← spos_half F.npix j hn h0] at h
      exact hjz (spos_inj F.npix _ _ _ _ _ _ hn hy hx hh hh h).1.symm
  rw [adjoint_plane_snd]
  by_cases hfl : F.include_flexion = true
  · rw [if_pos hfl, spectral_scatter_miss _ _ _ _ _ _ (fun y' x' _ _ => ?_)]
    · exact hA _
    · have h1 := spos_lt F.npix z y x hn hy hx
      have h2 := plane_le F.npix F.nlp z hz
      omega
  · rw [if_neg hfl]
    exact hA _

/-- Closed form of the shear block written by `adjoint_operator`. -/
theorem adjoint_operator_shear (F : field K) (delta : ℕ → Cplx K) (pre : Bool) (z y x : ℕ)
    (hn : Even F.npix) (hff : F.freqFactor ≠ 0) (hz : z < F.nlp) (hy : y < F.npix)
    (hx : x < F.npix) :
    (adjoint_operator F delta pre).2 (spos F.npix z y x) =
      kappa_hat F.npix F.freqFactor
        (adj_hat (F.nfft z) F.ngal F.nlp z (if pre then F.lensKernel else F.lensKernelTrue)
          F.res_gamma1 F.res_gamma2 (y * F.npix + x)) y x := by
  unfold adjoint_operator
  exact forLoop_obs_hit
    (fun st : (ℕ → nfft_plan K) × (ℕ → Cplx K) => st.2 (spos F.npix z y x)) F.nlp
    (adjoint_plane F pre) (F.ps, delta) z hz _
    (fun t => adjoint_plane_shear_own F pre z t y x hn hff hz hy hx)
    (fun j hj _ t => adjoint_plane_shear_other F pre j z t y x hn hz (Nat.ne_of_gt hj) hy hx)

/-- The entry `delta[z * npix * npix]` is zero after `adjoint_operator`, whatever `npix`. -/
theorem adjoint_operator_plane_zero (F : field K) (delta : ℕ → Cplx K) (pre : Bool) (z : ℕ)
    (hz : z < F.nlp) :
    (adjoint_operator F delta pre).2 (z * (F.npix * F.npix)) = (0, 0) := by
  have hscat : ∀ (j : ℕ) (fh d : ℕ → Cplx K),
      spectral_scatter F.npix j (F.nlp * F.npix * F.npix) fh d (z * (F.npix * F.npix))
        = d (z * (F.npix * F.npix)) := by
    intro j fh d
    refine spectral_scatter_miss _ _ _ _ _ _ (fun y' x' hy' _ => ?_)
    have h0 : 0 < F.npix := Nat.lt_of_le_of_lt (Nat.zero_le _) hy'
    have h2 := plane_le F.npix F.nlp z hz
    have h3 : 0 < F.npix * F.npix := Nat.mul_pos h0 h0
    have h4 : (z + 1) * (F.npix * F.npix) = z * (F.npix * F.npix) + F.npix * F.npix := by ring
    omega
  unfold adjoint_operator
  refine forLoop_pred_hit
    (fun st : (ℕ → nfft_plan K) × (ℕ → Cplx K) => st.2 (z * (F.npix * F.npix)) = (0, 0))
    F.nlp (adjoint_plane F pre) (F.ps, delta) z hz ?_ ?_
  · intro t
    show (adjoint_plane F pre z t).2 (z * (F.npix * F.npix)) = (0, 0)
    rw [adjoint_plane_snd]
    by_cases hfl : F.include_flexion = true
    · rw [if_pos hfl, hscat, Function.update_same]
    · rw [if_neg hfl, Function.update_same]
  · intro j hj _ t ht
    show (adjoint_plane F pre j t).2 (z * (F.npix * F.npix)) = (0, 0)
    have hA : ∀ fh : ℕ → Cplx K,
        Function.update (gamma_to_kappa F.npix F.freqFactor j fh t.2)
          (j * (F.npix * F.npix)) (0, 0) (z * (F.npix * F.npix)) = (0, 0) := by
      intro fh
      by_cases hjz : z * (F.npix * F.npix) = j * (F.npix * F.npix)
      · rw [hjz, Function.update_same]
      · rw [Function.update_noteq hjz, gamma_to_kappa_miss]
        · exact ht
        · intro y' x' hy' _ _ h
          have h1 := spos_ge F.npix j y' x'
          have h2 : z * (F.npix * F.npix) ≤ j * (F.npix * F.npix) :=
            Nat.mul_le_mul_right _ (Nat.le_of_lt hj)
          omega
    rw [adjoint_plane_snd]
    by_cases hfl : F.include_flexion = true
    · rw [if_pos hfl, hscat]
      exact hA _
    · rw [if_neg hfl]
      exact hA _

theorem trafo_f_eq (E : ℕ → ℕ → Cplx K) (n : ℕ) (p : nfft_plan K) (fh : ℕ → ℕ → Cplx K)
    (i : ℕ) (h : ∀ y x, y < n → x < n → p.f_hat (y * n + x) = fh y x) :
    (nfft_trafo_2d E (n * n) p).f i = trafo_at E n fh i := by
  unfold nfft_trafo_2d trafo_at
  refine Prod.ext ?_ ?_
  · dsimp only
    rw [sum_range_mul]
    refine Finset.sum_congr rfl (fun y hy => Finset.sum_congr rfl (fun x hx => ?_))
    rw [h y x (mem_range.mp hy) (mem_range.mp hx)]
  · dsimp only
    rw [sum_range_mul]
    refine Finset.sum_congr rfl (fun y hy => Finset.sum_congr rfl (fun x hx => ?_))
    rw [h y x (mem_range.mp hy) (mem_range.mp hx)]

/-- The plane loop `ps[z]->f_hat = fill; nfft_trafo_2d(ps[z])` leaves `trafo_at` in `f`. -/
theorem plane_loop_f (L n : ℕ) (E : ℕ → ℕ → ℕ → Cplx K)
    (fill : ℕ → (ℕ → Cplx K) → (ℕ → Cplx K)) (fh : ℕ → ℕ → ℕ → Cplx K)
    (hfill : ∀ z b y x, y < n → x < n → fill z b (y * n + x) = fh z y x)
    (ps0 : ℕ → nfft_plan K) (z i : ℕ) (hz : z < L) :
    ((forLoop L (fun z ps =>
        Function.update ps z
          (nfft_trafo_2d (E z) (n * n) { ps z with f_hat := fill z (ps z).f_hat })) ps0) z).f i
      = trafo_at (E z) n (fh z) i := by
  refine forLoop_obs_hit (fun ps : ℕ → nfft_plan K => (ps z).f i) L _ ps0 z hz _ ?_ ?_
  · intro t
    show ((Function.update t z _) z).f i = _
    rw [Function.update_same]
    exact trafo_f_eq (E z) n _ (fh z) i (fun y x hy hx => hfill z _ y x hy hx)
  · intro j hj _ t
    show ((Function.update t j _) z).f i = (t z).f i
    rw [Function.update_noteq (Nat.ne_of_lt hj)]

theorem forward_shear_res1 (F : field K) (a : ℕ → Cplx K) (i : ℕ) (hi : i < F.ngal) :
    (forward_shear F a).res_gamma1 i
      = ∑ z in range F.nlp, F.lensKernel (i * F.nlp + z)
          * (trafo_at (F.nfft z) F.npix (gamma_hat F.npix F.freqFactor a z) i).1
          * F.fftFactor := by
  unfold forward_shear
  dsimp only
  rw [apply_kernel_fst _ _ _ _ _ _ i hi]
  refine Finset.sum_congr rfl (fun z hz => ?_)
  rw [plane_loop_f F.nlp F.npix F.nfft
    (fun z b => kappa_to_gamma F.npix F.freqFactor z a b)
    (fun z => gamma_hat F.npix F.freqFactor a z)
    (fun z b y x hy hx => kappa_to_gamma_apply F.npix F.freqFactor z a b y x hy hx)
    F.ps z i (mem_range.mp hz)]

theorem forward_shear_res2 (F : field K) (a : ℕ → Cplx K) (i : ℕ) (hi : i < F.ngal) :
    (forward_shear F a).res_gamma2 i
      = ∑ z in range F.nlp, F.lensKernel (i * F.nlp + z)
          * (trafo_at (F.nfft z) F.npix (gamma_hat F.npix F.freqFactor a z) i).2
          * F.fftFactor := by
  unfold forward_shear
  dsimp only
  rw [apply_kernel_snd _ _ _ _ _ _ i hi]
  refine Finset.sum_congr rfl (fun z hz => ?_)
  rw [plane_loop_f F.nlp F.npix F.nfft
    (fun z b => kappa_to_gamma F.npix F.freqFactor z a b)
    (fun z => gamma_hat F.npix F.freqFactor a z)
    (fun z b y x hy hx => kappa_to_gamma_apply F.npix F.freqFactor z a b y x hy hx)
    F.ps z i (mem_range.mp hz)]

theorem forward_flexion_res1 (F : field K) (a : ℕ → Cplx K) (i : ℕ) (hi : i < F.ngal) :
    (forward_flexion F a).res_f1 i
      = ∑ z in range F.nlp, F.lensKernel (i * F.nlp + z)
          * (trafo_at (F.nfft z) F.npix
              (fun y x => a (F.nlp * F.npix * F.npix + spos F.npix z y x)) i).1
          * F.fftFactor := by
  unfold forward_flexion
  dsimp only
  rw [apply_kernel_fst _ _ _ _ _ _ i hi]
  refine Finset.sum_congr rfl (fun z hz => ?_)
  rw [plane_loop_f F.nlp F.npix F.nfft
    (fun z b => spectral_gather F.npix z
      (fun pos => a (F.nlp * F.npix * F.npix + pos)) b)
    (fun z y x => a (F.nlp * F.npix * F.npix + spos F.npix z y x))
    (fun z b y x hy hx => spectral_gather_apply F.npix z _ b y x hy hx)
    F.ps z i (mem_range.mp hz)]

theorem forward_flexion_res2 (F : field K) (a : ℕ → Cplx K) (i : ℕ) (hi : i < F.ngal) :
    (forward_flexion F a).res_f2 i
      = ∑ z in range F.nlp, F.lensKernel (i * F.nlp + z)
          * (trafo_at (F.nfft z) F.npix
              (fun y x => a (F.nlp * F.npix * F.npix + spos F.npix z y x)) i).2
          * F.fftFactor := by
  unfold forward_flexion
  dsimp only
  rw [apply_kernel_snd _ _ _ _ _ _ i hi]
  refine Finset.sum_congr rfl (fun z hz => ?_)
  rw [plane_loop_f F.nlp F.npix F.nfft
    (fun z b => spectral_gather F.npix z
      (fun pos => a (F.nlp * F.npix * F.npix + pos)) b)
    (fun z y x => a (F.nlp * F.npix * F.npix + spos F.npix z y x))
    (fun z b y x hy hx => spectral_gather_apply F.npix z _ b y x hy hx)
    F.ps z i (mem_range.mp hz)]

theorem ksqr_ne_zero (k1 k2 : K) (h : ¬ (k1 = 0 ∧ k2 = 0)) : k1 * k1 + k2 * k2 ≠ 0 :=
  fun h0 => h (mul_self_add_mul_self_eq_zero.mp h0)

theorem term_alg (s A B a1 a2 c S1 S2 : K) (hs : s ≠ 0) :
    a1 * ((S1 * A - S2 * B) / s) * c + a2 * ((S2 * A + S1 * B) / s) * c
      = (c * (a1 * A + a2 * B) / s) * S1 + (c * (a2 * A - a1 * B) / s) * S2 := by
  field_simp
  ring

theorem term_alg2 (s A B a1 a2 c S1 S2 : K) (hs : s ≠ 0) :
    -a2 * ((S1 * A - S2 * B) / s) * c + a1 * ((S2 * A + S1 * B) / s) * c
      = (c * (a1 * B - a2 * A) / s) * S1 + (c * (a1 * A + a2 * B) / s) * S2 := by
  field_simp
  ring

/-- One grid point of the real-part identity: the adjoint side equals the sum over galaxies. -/
theorem adjoint_term (n L G : ℕ) (ff c : K) (E : ℕ → ℕ → Cplx K) (q : ℕ → K)
    (a : ℕ → Cplx K) (b1 b2 : ℕ → K) (z y x : ℕ) :
    (a (spos n z y x)).1 * (kappa_hat n ff (adj_hat E G L z q b1 b2 (y * n + x)) y x).1 * c
      + (a (spos n z y x)).2 * (kappa_hat n ff (adj_hat E G L z q b1 b2 (y * n + x)) y x).2 * c
    = ∑ i in range G, c * q (i * L + z) *
        (b1 i * ((E i (y * n + x)).1 * (gamma_hat n ff a z y x).1
                  - (E i (y * n + x)).2 * (gamma_hat n ff a z y x).2)
          + b2 i * ((E i (y * n + x)).1 * (gamma_hat n ff a z y x).2
                  + (E i (y * n + x)).2 * (gamma_hat n ff a z y x).1)) := by
  unfold kappa_hat gamma_hat
  by_cases hdc : kfreq n ff x = 0 ∧ kfreq n ff y = 0
  · simp only [if_pos hdc]
    simp
  · simp only [if_neg hdc]
    have hs := ksqr_ne_zero _ _ hdc
    unfold adj_hat
    dsimp only
    rw [term_alg _ _ _ _ _ _ _ _ hs, Finset.mul_sum, Finset.mul_sum, ← Finset.sum_add_distrib]
    refine Finset.sum_congr rfl (fun i _ => ?_)
    field_simp
    ring

/-- One grid point of the rotated (imaginary-part) identity. -/
theorem adjoint_term2 (n L G : ℕ) (ff c : K) (E : ℕ → ℕ → Cplx K) (q : ℕ → K)
    (a : ℕ → Cplx K) (b1 b2 : ℕ → K) (z y x : ℕ) :
    -(a (spos n z y x)).2 * (kappa_hat n ff (adj_hat E G L z q b1 b2 (y * n + x)) y x).1 * c
      + (a (spos n z y x)).1 * (kappa_hat n ff (adj_hat E G L z q b1 b2 (y * n + x)) y x).2 * c
    = ∑ i in range G, c * q (i * L + z) *
        (b2 i * ((E i (y * n + x)).1 * (gamma_hat n ff a z y x).1
                  - (E i (y * n + x)).2 * (gamma_hat n ff a z y x).2)
          - b1 i * ((E i (y * n + x)).1 * (gamma_hat n ff a z y x).2
                  + (E i (y * n + x)).2 * (gamma_hat n ff a z y x).1)) := by
  unfold kappa_hat gamma_hat
  by_cases hdc : kfreq n ff x = 0 ∧ kfreq n ff y = 0
  · simp only [if_pos hdc]
    simp
  · simp only [if_neg hdc]
    have hs := ksqr_ne_zero _ _ hdc
    unfold adj_hat
    dsimp only
    rw [term_alg2 _ _ _ _ _ _ _ _ hs, Finset.mul_sum, Finset.mul_sum, ← Finset.sum_add_distrib]
    refine Finset.sum_congr rfl (fun i _ => ?_)
    field_simp
    ring

/-- The galaxy side of the identities, expanded into a sum over planes and grid points. -/
theorem galaxy_side_expand (n L : ℕ) (c : K) (E : ℕ → ℕ → ℕ → Cplx K) (q : ℕ → K)
    (fh : ℕ → ℕ → ℕ → Cplx K) (u1 u2 : K) (i : ℕ) :
    u1 * (∑ z in range L, q (i * L + z) * (trafo_at (E z) n (fh z) i).1 * c)
      + u2 * (∑ z in range L, q (i * L + z) * (trafo_at (E z) n (fh z) i).2 * c)
    = ∑ z in range L, ∑ y in range n, ∑ x in range n, c * q (i * L + z) *
        (u1 * ((E z i (y * n + x)).1 * (fh z y x).1 - (E z i (y * n + x)).2 * (fh z y x).2)
          + u2 * ((E z i (y * n + x)).1 * (fh z y x).2 + (E z i (y * n + x)).2 * (fh z y x).1)) := by
  unfold trafo_at
  dsimp only
  rw [Finset.mul_sum, Finset.mul_sum, ← Finset.sum_add_distrib]
  refine Finset.sum_congr rfl (fun z _ => ?_)
  simp only [Finset.mul_sum, Finset.sum_mul, ← Finset.sum_add_distrib]
  refine Finset.sum_congr rfl (fun y _ => Finset.sum_congr rfl (fun x _ => ?_))
  ring

theorem sum_comm4 {M : Type} [AddCommMonoid M] (G L n : ℕ) (t : ℕ → ℕ → ℕ → ℕ → M) :
    ∑ i in range G, ∑ z in range L, ∑ y in range n, ∑ x in range n, t i z y x
      = ∑ z in range L, ∑ y in range n, ∑ x in range n, ∑ i in range G, t i z y x := by
  rw [Finset.sum_comm]
  refine Finset.sum_congr rfl (fun z _ => ?_)
  rw [Finset.sum_comm]
  refine Finset.sum_congr rfl (fun y _ => ?_)
  rw [Finset.sum_comm]

/-- The algebraic core of the adjointness of the shear operators, real part. -/
theorem shear_adjoint_core (n L G : ℕ) (ff c : K) (E : ℕ → ℕ → ℕ → Cplx K) (q : ℕ → K)
    (a : ℕ → Cplx K) (b1 b2 : ℕ → K) :
    ∑ z in range L, ∑ y in range n, ∑ x in range n,
      ((a (spos n z y x)).1
          * (kappa_hat n ff (adj_hat (E z) G L z q b1 b2 (y * n + x)) y x).1 * c
        + (a (spos n z y x)).2
          * (kappa_hat n ff (adj_hat (E z) G L z q b1 b2 (y * n + x)) y x).2 * c)
    = ∑ i in range G,
        (b1 i * (∑ z in range L, q (i * L + z)
            * (trafo_at (E z) n (gamma_hat n ff a z) i).1 * c)
          + b2 i * (∑ z in range L, q (i * L + z)
            * (trafo_at (E z) n (gamma_hat n ff a z) i).2 * c)) := by
  rw [Finset.sum_congr rfl (fun i _ =>
    galaxy_side_expand n L c E q (fun z => gamma_hat n ff a z) (b1 i) (b2 i) i), sum_comm4]
  refine Finset.sum_congr rfl (fun z _ => Finset.sum_congr rfl (fun y _ =>
    Finset.sum_congr rfl (fun x _ => ?_)))
  exact adjoint_term n L G ff c (E z) q a b1 b2 z y x

/-- The algebraic core of the adjointness of the shear operators, rotated part. -/
theorem shear_adjoint_core2 (n L G : ℕ) (ff c : K) (E : ℕ → ℕ → ℕ → Cplx K) (q : ℕ → K)
    (a : ℕ → Cplx K) (b1 b2 : ℕ → K) :
    ∑ z in range L, ∑ y in range n, ∑ x in range n,
      (-(a (spos n z y x)).2
          * (kappa_hat n ff (adj_hat (E z) G L z q b1 b2 (y * n + x)) y x).1 * c
        + (a (spos n z y x)).1
          * (kappa_hat n ff (adj_hat (E z) G L z q b1 b2 (y * n + x)) y x).2 * c)
    = ∑ i in range G,
        (b2 i * (∑ z in range L, q (i * L + z)
            * (trafo_at (E z) n (gamma_hat n ff a z) i).1 * c)
          - b1 i * (∑ z in range L, q (i * L + z)
            * (trafo_at (E z) n (gamma_hat n ff a z) i).2 * c)) := by
  have h : ∀ i ∈ range G,
      (b2 i * (∑ z in range L, q (i * L + z)
            * (trafo_at (E z) n (gamma_hat n ff a z) i).1 * c)
          - b1 i * (∑ z in range L, q (i * L + z)
            * (trafo_at (E z) n (gamma_hat n ff a z) i).2 * c))
      = ∑ z in range L, ∑ y in range n, ∑ x in range n, c * q (i * L + z) *
        (b2 i * ((E z i (y * n + x)).1 * (gamma_hat n ff a z y x).1
                  - (E z i (y * n + x)).2 * (gamma_hat n ff a z y x).2)
          + (-b1 i) * ((E z i (y * n + x)).1 * (gamma_hat n ff a z y x).2
                  + (E z i (y * n + x)).2 * (gamma_hat n ff a z y x).1)) := by
    intro i _
    rw [← galaxy_side_expand n L c E q (fun z => gamma_hat n ff a z) (b2 i) (-b1 i) i]
    ring
  rw [Finset.sum_congr rfl h, sum_comm4]
  refine Finset.sum_congr rfl (fun z _ => Finset.sum_congr rfl (fun y _ =>
    Finset.sum_congr rfl (fun x _ => ?_)))
  rw [adjoint_term2 n L G ff c (E z) q a b1 b2 z y x]
  refine Finset.sum_congr rfl (fun i _ => ?_)
  ring

theorem forward_operator_shear_only (F : field K) (a : ℕ → Cplx K)
    (hfl : F.include_flexion = false) :
    forward_operator F a =
      convergence_at_galaxies
        { forward_shear F a with
          fft_frame := combine_components (forward_shear F a) a (forward_shear F a).fft_frame } := by
  have h : ¬ ((forward_shear F a).include_flexion = true) := by
    show ¬ (F.include_flexion = true)
    rw [hfl]
    decide
  unfold forward_operator
  dsimp only
  rw [if_neg h]

theorem forward_operator_flexion (F : field K) (a : ℕ → Cplx K)
    (hfl : F.include_flexion = true) :
    forward_operator F a =
      convergence_at_galaxies
        { forward_flexion (forward_shear F a) a with
          fft_frame := combine_components (forward_flexion (forward_shear F a) a) a
            (forward_flexion (forward_shear F a) a).fft_frame } := by
  have h : (forward_shear F a).include_flexion = true := hfl
  unfold forward_operator
  dsimp only
  rw [if_pos h]

theorem residual_loop2 (G : ℕ) (g1 g2 : ℕ → K) (r0 : (ℕ → K) × (ℕ → K)) (j : ℕ) (hj : j < G) :
    (forLoop G (fun ind (r : (ℕ → K) × (ℕ → K)) =>
      (Function.update r.1 ind (g1 ind), Function.update r.2 ind (g2 ind))) r0).1 j = g1 j
    ∧ (forLoop G (fun ind (r : (ℕ → K) × (ℕ → K)) =>
      (Function.update r.1 ind (g1 ind), Function.update r.2 ind (g2 ind))) r0).2 j = g2 j := by
  constructor
  · refine forLoop_obs_hit (fun b : (ℕ → K) × (ℕ → K) => b.1 j) G _ r0 j hj _ ?_ ?_
    · intro t
      exact Function.update_same _ _ _
    · intro i hi _ t
      exact Function.update_noteq (Nat.ne_of_lt hi) _ _
  · refine forLoop_obs_hit (fun b : (ℕ → K) × (ℕ → K) => b.2 j) G _ r0 j hj _ ?_ ?_
    · intro t
      exact Function.update_same _ _ _
    · intro i hi _ t
      exact Function.update_noteq (Nat.ne_of_lt hi) _ _

theorem adj_hat_congr (E : ℕ → ℕ → Cplx K) (G L z : ℕ) (q r1 r2 g1 g2 : ℕ → K) (k : ℕ)
    (h1 : ∀ j, j < G → r1 j = g1 j) (h2 : ∀ j, j < G → r2 j = g2 j) :
    adj_hat E G L z q r1 r2 k = adj_hat E G L z q g1 g2 k := by
  unfold adj_hat
  refine Prod.ext ?_ ?_
  · dsimp only
    refine Finset.sum_congr rfl (fun j hj => ?_)
    rw [h1 j (mem_range.mp hj), h2 j (mem_range.mp hj)]
  · dsimp only
    refine Finset.sum_congr rfl (fun j hj => ?_)
    rw [h1 j (mem_range.mp hj), h2 j (mem_range.mp hj)]

/-- The two pairs of sums of the shear-only branch of `check_adjoint`, in closed form. -/
theorem check_adjoint_shear_sums (F : field K) (delta1 delta2 : ℕ → Cplx K)
    (g1 g2 f1 f2 : ℕ → K) (hfl : F.include_flexion = false) (hn : Even F.npix)
    (hff : F.freqFactor ≠ 0) :
    (check_adjoint F delta1 delta2 g1 g2 f1 f2).result_forward
        = (check_adjoint F delta1 delta2 g1 g2 f1 f2).result_backward
    ∧ (check_adjoint F delta1 delta2 g1 g2 f1 f2).result_forward2
        = (check_adjoint F delta1 delta2 g1 g2 f1 f2).result_backward2 := by
  have hnf : ¬ (F.include_flexion = true) := by rw [hfl]; decide
  -- the residuals drawn after the forward pass
  have hr := residual_loop2 F.ngal g1 g2
    ((forward_operator F delta1).res_gamma1, (forward_operator F delta1).res_gamma2)
  -- the adjoint output on the shear block
  have hd : ∀ z y x, z < F.nlp → y < F.npix → x < F.npix →
      (adjoint_operator
        { forward_operator F delta1 with
          res_gamma1 := (forLoop F.ngal (fun ind (r : (ℕ → K) × (ℕ → K)) =>
            (Function.update r.1 ind (g1 ind), Function.update r.2 ind (g2 ind)))
            ((forward_operator F delta1).res_gamma1, (forward_operator F delta1).res_gamma2)).1,
          res_gamma2 := (forLoop F.ngal (fun ind (r : (ℕ → K) × (ℕ → K)) =>
            (Function.update r.1 ind (g1 ind), Function.update r.2 ind (g2 ind)))
            ((forward_operator F delta1).res_gamma1, (forward_operator F delta1).res_gamma2)).2 }
        delta2 true).2 (spos F.npix z y x)
      = kappa_hat F.npix F.freqFactor
          (adj_hat (F.nfft z) F.ngal F.nlp z F.lensKernel g1 g2 (y * F.npix + x)) y x := by
    intro z y x hz hy hx
    rw [← adj_hat_congr (F.nfft z) F.ngal F.nlp z F.lensKernel _ _ g1 g2 (y * F.npix + x)
      (fun j hj => (hr j hj).1) (fun j hj => (hr j hj).2)]
    rw [forward_operator_shear_only F delta1 hfl]
    exact adjoint_operator_shear _ delta2 true z y x hn hff hz hy hx
  -- the forward output at the galaxies
  have ht1 : ∀ i, i < F.ngal → (forward_operator F delta1).res_gamma1 i
      = ∑ z in range F.nlp, F.lensKernel (i * F.nlp + z)
          * (trafo_at (F.nfft z) F.npix (gamma_hat F.npix F.freqFactor delta1 z) i).1
          * F.fftFactor := by
    intro i hi
    rw [forward_operator_shear_only F delta1 hfl]
    exact forward_shear_res1 F delta1 i hi
  have ht2 : ∀ i, i < F.ngal → (forward_operator F delta1).res_gamma2 i
      = ∑ z in range F.nlp, F.lensKernel (i * F.nlp + z)
          * (trafo_at (F.nfft z) F.npix (gamma_hat F.npix F.freqFactor delta1 z) i).2
          * F.fftFactor := by
    intro i hi
    rw [forward_operator_shear_only F delta1 hfl]
    exact forward_shear_res2 F delta1 i hi
  unfold check_adjoint
  rw [if_neg hnf]
  dsimp only
  constructor
  · rw [sum_spos F.npix F.nlp hn]
    rw [Finset.sum_congr rfl (fun z hz => Finset.sum_congr rfl (fun y hy =>
      Finset.sum_congr rfl (fun x hx => by
        rw [hd z y x (mem_range.mp hz) (mem_range.mp hy) (mem_range.mp hx)])))]
    rw [shear_adjoint_core F.npix F.nlp F.ngal F.freqFactor F.fftFactor F.nfft F.lensKernel
      delta1 g1 g2]
    refine Finset.sum_congr rfl (fun i hi => ?_)
    rw [(hr i (mem_range.mp hi)).1, (hr i (mem_range.mp hi)).2,
      ht1 i (mem_range.mp hi), ht2 i (mem_range.mp hi)]
  · rw [sum_spos F.npix F.nlp hn]
    rw [Finset.sum_congr rfl (fun z hz => Finset.sum_congr rfl (fun y hy =>
      Finset.sum_congr rfl (fun x hx => by
        rw [hd z y x (mem_range.mp hz) (mem_range.mp hy) (mem_range.mp hx)])))]
    rw [shear_adjoint_core2 F.npix F.nlp F.ngal F.freqFactor F.fftFactor F.nfft F.lensKernel
      delta1 g1 g2]
    refine Finset.sum_congr rfl (fun i hi => ?_)
    rw [(hr i (mem_range.mp hi)).1, (hr i (mem_range.mp hi)).2,
      ht1 i (mem_range.mp hi), ht2 i (mem_range.mp hi)]

/-- The flexion coefficient of plane `z` after the plane's own iteration. -/
theorem adjoint_plane_flex_own (F : field K) (pre : Bool) (z : ℕ)
    (st : (ℕ → nfft_plan K) × (ℕ → Cplx K)) (y x : ℕ) (hfl : F.include_flexion = true)
    (hn : Even F.npix) (hy : y < F.npix) (hx : x < F.npix) :
    (adjoint_plane F pre z st).2 (F.nlp * F.npix * F.npix + spos F.npix z y x)
      = adj_hat (F.nfft z) F.ngal F.nlp z F.lensKernel F.res_f1 F.res_f2 (y * F.npix + x) := by
  rw [adjoint_plane_snd, if_pos hfl, spectral_scatter_hit _ _ _ _ _ y x hn hy hx]

/-- The flexion coefficients of plane `z` are not touched by the iteration of plane `j`. -/
theorem adjoint_plane_flex_other (F : field K) (pre : Bool) (j z : ℕ)
    (st : (ℕ → nfft_plan K) × (ℕ → Cplx K)) (y x : ℕ) (hn : Even F.npix)
    (hj : j < F.nlp) (hjz : j ≠ z) (hy : y < F.npix) (hx : x < F.npix) :
    (adjoint_plane F pre j st).2 (F.nlp * F.npix * F.npix + spos F.npix z y x)
      = st.2 (F.nlp * F.npix * F.npix + spos F.npix z y x) := by
  have h0 : 0 < F.npix := Nat.lt_of_le_of_lt (Nat.zero_le _) hx
  have h3 : 0 < F.npix * F.npix := Nat.mul_pos h0 h0
  have h2 := plane_le F.npix F.nlp j hj
  have h4 : (j + 1) * (F.npix * F.npix) = j * (F.npix * F.npix) + F.npix * F.npix := by ring
  have hA : ∀ fh : ℕ → Cplx K,
      Function.update (gamma_to_kappa F.npix F.freqFactor j fh st.2)
        (j * (F.npix * F.npix)) (0, 0) (F.nlp * F.npix * F.npix + spos F.npix z y x)
        = st.2 (F.nlp * F.npix * F.npix + spos F.npix z y x) := by
    intro fh
    rw [Function.update_noteq, gamma_to_kappa_miss]
    · intro y' x' hy' hx' _ h
      have h1 := spos_lt F.npix j y' x' hn hy' hx'
      omega
    · omega
  rw [adjoint_plane_snd]
  by_cases hfl : F.include_flexion = true
  · rw [if_pos hfl, spectral_scatter_miss _ _ _ _ _ _ (fun y' x' hy' hx' h => ?_)]
    · exact hA _
    · exact hjz (spos_inj F.npix _ _ _ _ _ _ hn hy' hx' hy hx (Nat.add_left_cancel h)).1
  · rw [if_neg hfl]
    exact hA _

/-- Closed form of the flexion block written by `adjoint_operator`. -/
theorem adjoint_operator_flex (F : field K) (delta : ℕ → Cplx K) (pre : Bool) (z y x : ℕ)
    (hfl : F.include_flexion = true) (hn : Even F.npix) (hz : z < F.nlp) (hy : y < F.npix)
    (hx : x < F.npix) :
    (adjoint_operator F delta pre).2 (F.nlp * F.npix * F.npix + spos F.npix z y x)
      = adj_hat (F.nfft z) F.ngal F.nlp z F.lensKernel F.res_f1 F.res_f2 (y * F.npix + x) := by
  unfold adjoint_operator
  exact forLoop_obs_hit
    (fun st : (ℕ → nfft_plan K) × (ℕ → Cplx K) =>
      st.2 (F.nlp * F.npix * F.npix + spos F.npix z y x)) F.nlp
    (adjoint_plane F pre) (F.ps, delta) z hz _
    (fun t => adjoint_plane_flex_own F pre z t y x hfl hn hy hx)
    (fun j hj hjl t => adjoint_plane_flex_other F pre j z t y x hn hjl (Nat.ne_of_gt hj) hy hx)

/-- One grid point of the flexion identity, real part (identity spectral mapping). -/
theorem flexion_term (L G : ℕ) (c : K) (E : ℕ → Cplx K) (q : ℕ → K) (fh : Cplx K)
    (b1 b2 : ℕ → K) (z : ℕ) (S : Cplx K)
    (hS : S = (∑ j in range G, ((E j).1 * (b1 j * q (j * L + z)) + (E j).2 * (b2 j * q (j * L + z))),
               ∑ j in range G, ((E j).1 * (b2 j * q (j * L + z)) - (E j).2 * (b1 j * q (j * L + z))))) :
    (fh.1 * S.1 + fh.2 * S.2) * c
    = ∑ i in range G, c * q (i * L + z) *
        (b1 i * ((E i).1 * fh.1 - (E i).2 * fh.2) + b2 i * ((E i).1 * fh.2 + (E i).2 * fh.1)) := by
  subst hS
  dsimp only
  rw [add_mul, mul_assoc, mul_assoc, Finset.sum_mul, Finset.sum_mul, Finset.mul_sum,
    Finset.mul_sum, ← Finset.sum_add_distrib]
  refine Finset.sum_congr rfl (fun i _ => ?_)
  ring

/-- One grid point of the flexion identity, rotated part. -/
theorem flexion_term2 (L G : ℕ) (c : K) (E : ℕ → Cplx K) (q : ℕ → K) (fh : Cplx K)
    (b1 b2 : ℕ → K) (z : ℕ) (S : Cplx K)
    (hS : S = (∑ j in range G, ((E j).1 * (b1 j * q (j * L + z)) + (E j).2 * (b2 j * q (j * L + z))),
               ∑ j in range G, ((E j).1 * (b2 j * q (j * L + z)) - (E j).2 * (b1 j * q (j * L + z))))) :
    (-fh.2 * S.1 + fh.1 * S.2) * c
    = ∑ i in range G, c * q (i * L + z) *
        (b2 i * ((E i).1 * fh.1 - (E i).2 * fh.2)
          + (-b1 i) * ((E i).1 * fh.2 + (E i).2 * fh.1)) := by
  subst hS
  dsimp only
  rw [add_mul, mul_assoc, mul_assoc, Finset.sum_mul, Finset.sum_mul, Finset.mul_sum,
    Finset.mul_sum, ← Finset.sum_add_distrib]
  refine Finset.sum_congr rfl (fun i _ => ?_)
  ring

/-- The algebraic core of the adjointness of the flexion operators, real part. -/
theorem flexion_adjoint_core (n L G : ℕ) (c : K) (E : ℕ → ℕ → ℕ → Cplx K) (q : ℕ → K)
    (fh : ℕ → ℕ → ℕ → Cplx K) (b1 b2 : ℕ → K) :
    ∑ z in range L, ∑ y in range n, ∑ x in range n,
      ((fh z y x).1 * (adj_hat (E z) G L z q b1 b2 (y * n + x)).1
        + (fh z y x).2 * (adj_hat (E z) G L z q b1 b2 (y * n + x)).2) * c
    = ∑ i in range G,
        (b1 i * (∑ z in range L, q (i * L + z) * (trafo_at (E z) n (fh z) i).1 * c)
          + b2 i * (∑ z in range L, q (i * L + z) * (trafo_at (E z) n (fh z) i).2 * c)) := by
  rw [Finset.sum_congr rfl (fun i _ => galaxy_side_expand n L c E q fh (b1 i) (b2 i) i),
    sum_comm4]
  refine Finset.sum_congr rfl (fun z _ => Finset.sum_congr rfl (fun y _ =>
    Finset.sum_congr rfl (fun x _ => ?_)))
  exact flexion_term L G c (fun i => E z i (y * n + x)) q (fh z y x) b1 b2 z _ rfl

/-- The algebraic core of the adjointness of the flexion operators, rotated part. -/
theorem flexion_adjoint_core2 (n L G : ℕ) (c : K) (E : ℕ → ℕ → ℕ → Cplx K) (q : ℕ → K)
    (fh : ℕ → ℕ → ℕ → Cplx K) (b1 b2 : ℕ → K) :
    ∑ z in range L, ∑ y in range n, ∑ x in range n,
      (-(fh z y x).2 * (adj_hat (E z) G L z q b1 b2 (y * n + x)).1
        + (fh z y x).1 * (adj_hat (E z) G L z q b1 b2 (y * n + x)).2) * c
    = ∑ i in range G,
        (b2 i * (∑ z in range L, q (i * L + z) * (trafo_at (E z) n (fh z) i).1 * c)
          - b1 i * (∑ z in range L, q (i * L + z) * (trafo_at (E z) n (fh z) i).2 * c)) := by
  have h : ∀ i ∈ range G,
      (b2 i * (∑ z in range L, q (i * L + z) * (trafo_at (E z) n (fh z) i).1 * c)
          - b1 i * (∑ z in range L, q (i * L + z) * (trafo_at (E z) n (fh z) i).2 * c))
      = ∑ z in range L, ∑ y in range n, ∑ x in range n, c * q (i * L + z) *
        (b2 i * ((E z i (y * n + x)).1 * (fh z y x).1 - (E z i (y * n + x)).2 * (fh z y x).2)
          + (-b1 i) * ((E z i (y * n + x)).1 * (fh z y x).2
              + (E z i (y * n + x)).2 * (fh z y x).1)) := by
    intro i _
    rw [← galaxy_side_expand n L c E q fh (b2 i) (-b1 i) i]
    ring
  rw [Finset.sum_congr rfl h, sum_comm4]
  refine Finset.sum_congr rfl (fun z _ => Finset.sum_congr rfl (fun y _ =>
    Finset.sum_congr rfl (fun x _ => ?_)))
  exact flexion_term2 L G c (fun i => E z i (y * n + x)) q (fh z y x) b1 b2 z _ rfl

theorem residual_loop4 (G : ℕ) (g1 g2 f1 f2 : ℕ → K)
    (r0 : ((ℕ → K) × (ℕ → K)) × ((ℕ → K) × (ℕ → K))) (j : ℕ) (hj : j < G) :
    (forLoop G (fun ind (r : ((ℕ → K) × (ℕ → K)) × ((ℕ → K) × (ℕ → K))) =>
      ((Function.update r.1.1 ind (g1 ind), Function.update r.1.2 ind (g2 ind)),
       (Function.update r.2.1 ind (f1 ind), Function.update r.2.2 ind (f2 ind)))) r0).1.1 j = g1 j
    ∧ (forLoop G (fun ind (r : ((ℕ → K) × (ℕ → K)) × ((ℕ → K) × (ℕ → K))) =>
      ((Function.update r.1.1 ind (g1 ind), Function.update r.1.2 ind (g2 ind)),
       (Function.update r.2.1 ind (f1 ind), Function.update r.2.2 ind (f2 ind)))) r0).1.2 j = g2 j
    ∧ (forLoop G (fun ind (r : ((ℕ → K) × (ℕ → K)) × ((ℕ → K) × (ℕ → K))) =>
      ((Function.update r.1.1 ind (g1 ind), Function.update r.1.2 ind (g2 ind)),
       (Function.update r.2.1 ind (f1 ind), Function.update r.2.2 ind (f2 ind)))) r0).2.1 j = f1 j
    ∧ (forLoop G (fun ind (r : ((ℕ → K) × (ℕ → K)) × ((ℕ → K) × (ℕ → K))) =>
      ((Function.update r.1.1 ind (g1 ind), Function.update r.1.2 ind (g2 ind)),
       (Function.update r.2.1 ind (f1 ind), Function.update r.2.2 ind (f2 ind)))) r0).2.2 j = f2 j := by
  refine ⟨?_, ?_, ?_, ?_⟩
  · refine forLoop_obs_hit
      (fun b : ((ℕ → K) × (ℕ → K)) × ((ℕ → K) × (ℕ → K)) => b.1.1 j) G _ r0 j hj _ ?_ ?_
    · intro t
      exact Function.update_same _ _ _
    · intro i hi _ t
      exact Function.update_noteq (Nat.ne_of_lt hi) _ _
  · refine forLoop_obs_hit
      (fun b : ((ℕ → K) × (ℕ → K)) × ((ℕ → K) × (ℕ → K)) => b.1.2 j) G _ r0 j hj _ ?_ ?_
    · intro t
      exact Function.update_same _ _ _
    · intro i hi _ t
      exact Function.update_noteq (Nat.ne_of_lt hi) _ _
  · refine forLoop_obs_hit
      (fun b : ((ℕ → K) × (ℕ → K)) × ((ℕ → K) × (ℕ → K)) => b.2.1 j) G _ r0 j hj _ ?_ ?_
    · intro t
      exact Function.update_same _ _ _
    · intro i hi _ t
      exact Function.update_noteq (Nat.ne_of_lt hi) _ _
  · refine forLoop_obs_hit
      (fun b : ((ℕ → K) × (ℕ → K)) × ((ℕ → K) × (ℕ → K)) => b.2.2 j) G _ r0 j hj _ ?_ ?_
    · intro t
      exact Function.update_same _ _ _
    · intro i hi _ t
      exact Function.update_noteq (Nat.ne_of_lt hi) _ _

theorem mul_sum3 (c : K) (L n : ℕ) (t : ℕ → ℕ → ℕ → K) :
    c * ∑ z in range L, ∑ y in range n, ∑ x in range n, t z y x
      = ∑ z in range L, ∑ y in range n, ∑ x in range n, t z y x * c := by
  simp only [Finset.mul_sum]
  refine Finset.sum_congr rfl (fun z _ => Finset.sum_congr rfl (fun y _ =>
    Finset.sum_congr rfl (fun x _ => ?_)))
  ring

/-- The sums of the flexion branch of `check_adjoint`, for any arrays with the closed forms
of the forward and adjoint outputs. -/
theorem flexion_check_core (n L G : ℕ) (ff c : K) (E : ℕ → ℕ → ℕ → Cplx K) (q : ℕ → K)
    (a d2 : ℕ → Cplx K) (g1 g2 f1 f2 r1 r2 r3 r4 t1 t2 t3 t4 : ℕ → K) (hn : Even n)
    (hd1 : ∀ z y x, z < L → y < n → x < n → d2 (spos n z y x)
      = kappa_hat n ff (adj_hat (E z) G L z q g1 g2 (y * n + x)) y x)
    (hd2 : ∀ z y x, z < L → y < n → x < n → d2 (n * n * L + spos n z y x)
      = adj_hat (E z) G L z q f1 f2 (y * n + x))
    (hr : ∀ i, i < G → r1 i = g1 i ∧ r2 i = g2 i ∧ r3 i = f1 i ∧ r4 i = f2 i)
    (ht1 : ∀ i, i < G → t1 i = ∑ z in range L, q (i * L + z)
      * (trafo_at (E z) n (gamma_hat n ff a z) i).1 * c)
    (ht2 : ∀ i, i < G → t2 i = ∑ z in range L, q (i * L + z)
      * (trafo_at (E z) n (gamma_hat n ff a z) i).2 * c)
    (ht3 : ∀ i, i < G → t3 i = ∑ z in range L, q (i * L + z)
      * (trafo_at (E z) n (fun y x => a (n * n * L + spos n z y x)) i).1 * c)
    (ht4 : ∀ i, i < G → t4 i = ∑ z in range L, q (i * L + z)
      * (trafo_at (E z) n (fun y x => a (n * n * L + spos n z y x)) i).2 * c) :
    ∑ ind in range G, (r1 ind * t1 ind + r2 ind * t2 ind + r3 ind * t3 ind + r4 ind * t4 ind)
      = c * ∑ ind in range (n * n * L * 2), ((a ind).1 * (d2 ind).1 + (a ind).2 * (d2 ind).2)
    ∧ ∑ ind in range G, (r2 ind * t1 ind - r1 ind * t2 ind + r4 ind * t3 ind - r3 ind * t4 ind)
      = c * ∑ ind in range (n * n * L * 2), (-(a ind).2 * (d2 ind).1 + (a ind).1 * (d2 ind).2) := by
  have e1 : ∑ z in range L, ∑ y in range n, ∑ x in range n,
      ((a (spos n z y x)).1 * (d2 (spos n z y x)).1 + (a (spos n z y x)).2 * (d2 (spos n z y x)).2) * c
      = ∑ i in range G, (g1 i * t1 i + g2 i * t2 i) := by
    refine Eq.trans ?_ (Finset.sum_congr rfl (fun i hi => by
      rw [ht1 i (mem_range.mp hi), ht2 i (mem_range.mp hi)]))
    rw [← shear_adjoint_core n L G ff c E q a g1 g2]
    refine Finset.sum_congr rfl (fun z hz => Finset.sum_congr rfl (fun y hy =>
      Finset.sum_congr rfl (fun x hx => ?_)))
    rw [hd1 z y x (mem_range.mp hz) (mem_range.mp hy) (mem_range.mp hx)]
    ring
  have e2 : ∑ z in range L, ∑ y in range n, ∑ x in range n,
      ((a (n * n * L + spos n z y x)).1 * (d2 (n * n * L + spos n z y x)).1
        + (a (n * n * L + spos n z y x)).2 * (d2 (n * n * L + spos n z y x)).2) * c
      = ∑ i in range G, (f1 i * t3 i + f2 i * t4 i) := by
    refine Eq.trans ?_ (Finset.sum_congr rfl (fun i hi => by
      rw [ht3 i (mem_range.mp hi), ht4 i (mem_range.mp hi)]))
    rw [← flexion_adjoint_core n L G c E q (fun z y x => a (n * n * L + spos n z y x)) f1 f2]
    refine Finset.sum_congr rfl (fun z hz => Finset.sum_congr rfl (fun y hy =>
      Finset.sum_congr rfl (fun x hx => ?_)))
    rw [hd2 z y x (mem_range.mp hz) (mem_range.mp hy) (mem_range.mp hx)]
  have e3 : ∑ z in range L, ∑ y in range n, ∑ x in range n,
      (-(a (spos n z y x)).2 * (d2 (spos n z y x)).1
        + (a (spos n z y x)).1 * (d2 (spos n z y x)).2) * c
      = ∑ i in range G, (g2 i * t1 i - g1 i * t2 i) := by
    refine Eq.trans ?_ (Finset.sum_congr rfl (fun i hi => by
      rw [ht1 i (mem_range.mp hi), ht2 i (mem_range.mp hi)]))
    rw [← shear_adjoint_core2 n L G ff c E q a g1 g2]
    refine Finset.sum_congr rfl (fun z hz => Finset.sum_congr rfl (fun y hy =>
      Finset.sum_congr rfl (fun x hx => ?_)))
    rw [hd1 z y x (mem_range.mp hz) (mem_range.mp hy) (mem_range.mp hx)]
    ring
  have e4 : ∑ z in range L, ∑ y in range n, ∑ x in range n,
      (-(a (n * n * L + spos n z y x)).2 * (d2 (n * n * L + spos n z y x)).1
        + (a (n * n * L + spos n z y x)).1 * (d2 (n * n * L + spos n z y x)).2) * c
      = ∑ i in range G, (f2 i * t3 i - f1 i * t4 i) := by
    refine Eq.trans ?_ (Finset.sum_congr rfl (fun i hi => by
      rw [ht3 i (mem_range.mp hi), ht4 i (mem_range.mp hi)]))
    rw [← flexion_adjoint_core2 n L G c E q (fun z y x => a (n * n * L + spos n z y x)) f1 f2]
    refine Finset.sum_congr rfl (fun z hz => Finset.sum_congr rfl (fun y hy =>
      Finset.sum_congr rfl (fun x hx => ?_)))
    rw [hd2 z y x (mem_range.mp hz) (mem_range.mp hy) (mem_range.mp hx)]
  constructor
  · rw [Nat.mul_two, Finset.sum_range_add, sum_spos n L hn, sum_spos n L hn, mul_add,
      mul_sum3, mul_sum3, e1, e2, ← Finset.sum_add_distrib]
    refine Finset.sum_congr rfl (fun i hi => ?_)
    obtain ⟨h1, h2, h3, h4⟩ := hr i (mem_range.mp hi)
    rw [h1, h2, h3, h4]
    ring
  · rw [Nat.mul_two, Finset.sum_range_add, sum_spos n L hn, sum_spos n L hn, mul_add,
      mul_sum3, mul_sum3, e3, e4, ← Finset.sum_add_distrib]
    refine Finset.sum_congr rfl (fun i hi => ?_)
    obtain ⟨h1, h2, h3, h4⟩ := hr i (mem_range.mp hi)
    rw [h1, h2, h3, h4]
    ring

/-- In the flexion branch of `check_adjoint` the galaxy-side sums are `fftFactor` times the
spectral-side sums: the branch omits the factor that the shear-only branch applies. -/
theorem check_adjoint_flexion_scaled (F : field K) (delta1 delta2 : ℕ → Cplx K)
    (g1 g2 f1 f2 : ℕ → K) (hfl : F.include_flexion = true) (hn : Even F.npix)
    (hff : F.freqFactor ≠ 0) :
    (check_adjoint F delta1 delta2 g1 g2 f1 f2).result_backward
        = F.fftFactor * (check_adjoint F delta1 delta2 g1 g2 f1 f2).result_forward
    ∧ (check_adjoint F delta1 delta2 g1 g2 f1 f2).result_backward2
        = F.fftFactor * (check_adjoint F delta1 delta2 g1 g2 f1 f2).result_forward2 := by
  have hidx : F.npix * F.npix * F.nlp = F.nlp * F.npix * F.npix := by ring
  have hF := forward_operator_flexion F delta1 hfl
  unfold check_adjoint
  rw [if_pos hfl]
  dsimp only
  refine flexion_check_core F.npix F.nlp F.ngal F.freqFactor F.fftFactor F.nfft F.lensKernel
    delta1 _ g1 g2 f1 f2 _ _ _ _ _ _ _ _ hn ?_ ?_
    (fun i hi => residual_loop4 F.ngal g1 g2 f1 f2 _ i hi) ?_ ?_ ?_ ?_
  · intro z y x hz hy hx
    rw [← adj_hat_congr (F.nfft z) F.ngal F.nlp z F.lensKernel _ _ g1 g2 (y * F.npix + x)
      (fun j hj => (residual_loop4 F.ngal g1 g2 f1 f2 _ j hj).1)
      (fun j hj => (residual_loop4 F.ngal g1 g2 f1 f2 _ j hj).2.1)]
    rw [hF]
    exact adjoint_operator_shear _ delta2 true z y x hn hff hz hy hx
  · intro z y x hz hy hx
    rw [← adj_hat_congr (F.nfft z) F.ngal F.nlp z F.lensKernel _ _ f1 f2 (y * F.npix + x)
      (fun j hj => (residual_loop4 F.ngal g1 g2 f1 f2 _ j hj).2.2.1)
      (fun j hj => (residual_loop4 F.ngal g1 g2 f1 f2 _ j hj).2.2.2)]
    rw [hidx, hF]
    exact adjoint_operator_flex _ delta2 true z y x hfl hn hz hy hx
  · intro i hi
    rw [hF]
    exact forward_shear_res1 F delta1 i hi
  · intro i hi
    rw [hF]
    exact forward_shear_res2 F delta1 i hi
  · intro i hi
    rw [hidx, hF]
    exact forward_flexion_res1 (forward_shear F delta1) delta1 i hi
  · intro i hi
    rw [hidx, hF]
    exact forward_flexion_res2 (forward_shear F delta1) delta1 i hi

/-- Closed form of the coefficient that `combine_components` writes at grid point `(y, x)`. -/
theorem combine_components_apply (F : field K) (delta dc0 : ℕ → Cplx K) (z y x : ℕ)
    (hn : Even F.npix) (hz : z < F.nlp) (hy : y < F.npix) (hx : x < F.npix)
    (hp : spos F.npix z y x ≠ 0) :
    combine_components F delta dc0 (spos F.npix z y x) =
      if F.include_flexion then
        (((delta (F.nlp * F.npix * F.npix + spos F.npix z y x)).1 * kfreq F.npix F.freqFactor y
            - (delta (F.nlp * F.npix * F.npix + spos F.npix z y x)).2
              * kfreq F.npix F.freqFactor x)
            * (1 / (kfreq F.npix F.freqFactor x * kfreq F.npix F.freqFactor x
                + kfreq F.npix F.freqFactor y * kfreq F.npix F.freqFactor y + F.sig_frac))
          + 1 / (kfreq F.npix F.freqFactor x * kfreq F.npix F.freqFactor x
                + kfreq F.npix F.freqFactor y * kfreq F.npix F.freqFactor y + F.sig_frac)
            * F.sig_frac * (delta (spos F.npix z y x)).1,
         ((delta (F.nlp * F.npix * F.npix + spos F.npix z y x)).1 * kfreq F.npix F.freqFactor x
            + (delta (F.nlp * F.npix * F.npix + spos F.npix z y x)).2
              * kfreq F.npix F.freqFactor y)
            * (1 / (kfreq F.npix F.freqFactor x * kfreq F.npix F.freqFactor x
                + kfreq F.npix F.freqFactor y * kfreq F.npix F.freqFactor y + F.sig_frac))
          + 1 / (kfreq F.npix F.freqFactor x * kfreq F.npix F.freqFactor x
                + kfreq F.npix F.freqFactor y * kfreq F.npix F.freqFactor y + F.sig_frac)
            * F.sig_frac * (delta (spos F.npix z y x)).2)
      else delta (spos F.npix z y x) := by
  unfold combine_components
  refine forLoop_obs_hit (fun b : ℕ → Cplx K => b (spos F.npix z y x)) F.nlp _ dc0 z hz _ ?_ ?_
  · intro t
    dsimp only
    rw [Function.update_noteq hp]
    refine forLoop2_obs_hit (fun b : ℕ → Cplx K => b (spos F.npix z y x)) F.npix F.npix _ t
      y x hy hx _ ?_ ?_
    · intro u
      dsimp only
      split_ifs
      · exact Function.update_same _ _ _
      · exact Function.update_same _ _ _
    · intro y' x' hy' hx' hne u
      have hidx : spos F.npix z y x ≠ spos F.npix z y' x' := by
        intro h
        obtain ⟨_, h1, h2⟩ := spos_inj F.npix _ _ _ _ _ _ hn hy hx hy' hx' h
        rcases hne with h3 | h3
        · exact h3 h1.symm
        · exact h3 h2.symm
      dsimp only
      split_ifs
      · exact Function.update_noteq hidx _ _
      · exact Function.update_noteq hidx _ _
  · intro j hj _ t
    dsimp only
    rw [Function.update_noteq hp]
    refine forLoop2_obs_inv (fun b : ℕ → Cplx K => b (spos F.npix z y x)) F.npix F.npix _ t ?_
    intro y' x' hy' hx' u
    have hidx : spos F.npix z y x ≠ spos F.npix j y' x' := by
      intro h
      exact (Nat.ne_of_lt hj) (spos_inj F.npix _ _ _ _ _ _ hn hy hx hy' hx' h).1
    dsimp only
    split_ifs
    · exact Function.update_noteq hidx _ _
    · exact Function.update_noteq hidx _ _

/-- The entry `delta_comb[0]` is zero after `combine_components` as soon as there is a plane. -/
theorem combine_components_zero (F : field K) (delta dc0 : ℕ → Cplx K) (h : 0 < F.nlp) :
    combine_components F delta dc0 0 = (0, 0) := by
  obtain ⟨k, hk⟩ := Nat.exists_eq_succ_of_ne_zero (Nat.pos_iff_ne_zero.mp h)
  unfold combine_components
  rw [hk, forLoop_succ]
  exact Function.update_same _ _ _

/-- Closed form of the convergence block written by `combine_components_inverse`. -/
theorem combine_components_inverse_apply (F : field K) (dc d0 : ℕ → Cplx K) (z y x : ℕ)
    (hn : Even F.npix) (hz : z < F.nlp) (hy : y < F.npix) (hx : x < F.npix) :
    combine_components_inverse F dc d0 (spos F.npix z y x) = dc (spos F.npix z y x) := by
  have hoff : ∀ j y' x', F.nlp * F.npix * F.npix + spos F.npix j y' x' ≠ spos F.npix z y x := by
    intro j y' x'
    have h1 := spos_lt F.npix z y x hn hy hx
    have h2 := plane_le F.npix F.nlp z hz
    omega
  unfold combine_components_inverse
  refine forLoop_obs_hit (fun b : ℕ → Cplx K => b (spos F.npix z y x)) F.nlp _ d0 z hz _ ?_ ?_
  · intro t
    refine forLoop2_obs_hit (fun b : ℕ → Cplx K => b (spos F.npix z y x)) F.npix F.npix _ t
      y x hy hx _ ?_ ?_
    · intro u
      dsimp only
      split_ifs
      · exact Function.update_same _ _ _
      · exact Function.update_same _ _ _
    · intro y' x' hy' hx' hne u
      have hidx : spos F.npix z y x ≠ spos F.npix z y' x' := by
        intro h
        obtain ⟨_, h1, h2⟩ := spos_inj F.npix _ _ _ _ _ _ hn hy hx hy' hx' h
        rcases hne with h3 | h3
        · exact h3 h1.symm
        · exact h3 h2.symm
      dsimp only
      split_ifs
      · exact (Function.update_noteq hidx _ _).trans (Function.update_noteq (hoff z y' x').symm _ _)
      · exact Function.update_noteq hidx _ _
  · intro j hj _ t
    refine forLoop2_obs_inv (fun b : ℕ → Cplx K => b (spos F.npix z y x)) F.npix F.npix _ t ?_
    intro y' x' hy' hx' u
    have hidx : spos F.npix z y x ≠ spos F.npix j y' x' := by
      intro h
      exact (Nat.ne_of_lt hj) (spos_inj F.npix _ _ _ _ _ _ hn hy hx hy' hx' h).1
    dsimp only
    split_ifs
    · exact (Function.update_noteq hidx _ _).trans (Function.update_noteq (hoff j y' x').symm _ _)
    · exact Function.update_noteq hidx _ _

/-- Every coefficient index below `npix * npix * nlp` is the index of one grid point. -/
theorem spos_surj (n L p : ℕ) (hn : Even n) (hp : p < n * n * L) :
    ∃ z y x, z < L ∧ y < n ∧ x < n ∧ spos n z y x = p := by
  have hN : 0 < n * n := by
    rcases Nat.eq_zero_or_pos (n * n) with h | h
    · rw [h, Nat.zero_mul] at hp
      exact absurd hp (Nat.not_lt_zero _)
    · exact h
  have h0 : 0 < n := Nat.pos_of_mul_pos_left hN
  have hr : p % (n * n) < n * n := Nat.mod_lt _ hN
  have hky : p % (n * n) / n < n := Nat.div_lt_of_lt_mul hr
  have hkx : p % (n * n) % n < n := Nat.mod_lt _ h0
  refine ⟨p / (n * n), kshift n (p % (n * n) / n), kshift n (p % (n * n) % n), ?_,
    kshift_lt n _ hn hky, kshift_lt n _ hn hkx, ?_⟩
  · exact Nat.div_lt_of_lt_mul hp
  · unfold spos
    rw [kshift_kshift n _ hn hky, kshift_kshift n _ hn hkx]
    have h1 := Nat.div_add_mod (p % (n * n)) n
    have h2 := Nat.div_add_mod p (n * n)
    have h3 : p % (n * n) / n * n = n * (p % (n * n) / n) := Nat.mul_comm _ _
    have h4 : p / (n * n) * (n * n) = n * n * (p / (n * n)) := Nat.mul_comm _ _
    omega

/-- A row-major fill `a[i * m + z] = v i z` over `i < n`, `z < m`. -/
theorem fill_rows_apply (n m : ℕ) (v : ℕ → ℕ → K) (a0 : ℕ → K) (i z : ℕ) (hi : i < n)
    (hz : z < m) :
    forLoop n (fun i a => forLoop m (fun z a => Function.update a (i * m + z) (v i z)) a) a0
      (i * m + z) = v i z := by
  refine forLoop2_obs_hit (fun b : ℕ → K => b (i * m + z)) n m _ a0 i z hi hz _ ?_ ?_
  · intro t
    exact Function.update_same _ _ _
  · intro i' z' _ hz' hne t
    have hidx : i * m + z ≠ i' * m + z' := by
      intro h
      obtain ⟨h1, h2⟩ := grid_index_inj m _ _ _ _ hz hz' h
      rcases hne with h3 | h3
      · exact h3 h1.symm
      · exact h3 h2.symm
    exact Function.update_noteq hidx _ _

/-- The un-preconditioned kernel after `compute_3D_lensing_kernel`. -/
theorem compute_3D_lensKernelTrue (N : numerics K) (F : field K)
    (redshift : ℕ → redshift_distribution K) (i z : ℕ) (hi : i < F.ngal) (hz : z < F.nlp) :
    (compute_3D_lensing_kernel N F redshift).lensKernelTrue (i * F.nlp + z)
      = max (marginalise N (redshift i) z) 0 := by
  unfold compute_3D_lensing_kernel
  dsimp only
  rw [fill_rows_apply F.ngal F.nlp _ _ i z hi hz, fill_rows_apply F.ngal F.nlp _ _ i z hi hz]

/-- The matrix `V * diagmat(s) * V.t()` is symmetric. -/
theorem precond_symm (n : ℕ) (V : ℕ → ℕ → K) (s : ℕ → K) (a b : ℕ) :
    mat_mul n (mat_mul n V (diagmat s)) (mat_t V) a b
      = mat_mul n (mat_mul n V (diagmat s)) (mat_t V) b a := by
  have h : ∀ c j, j ∈ range n → mat_mul n V (diagmat s) c j = V c j * s j := by
    intro c j hj
    unfold mat_mul diagmat
    rw [Finset.sum_eq_single j]
    · rw [if_pos rfl]
    · intro l _ hl
      rw [if_neg hl, mul_zero]
    · intro hj'
      exact absurd hj hj'
  unfold mat_mul mat_t
  refine Finset.sum_congr rfl (fun j hj => ?_)
  have h1 := h a j hj
  have h2 := h b j hj
  unfold mat_mul at h1 h2
  rw [h1, h2]
  ring

/-- The preconditioned kernel after `compute_3D_lensing_kernel` is `A * Pr`. -/
theorem compute_3D_lensKernel (N : numerics K) (F : field K)
    (redshift : ℕ → redshift_distribution K) (i z : ℕ) (hi : i < F.ngal) (hz : z < F.nlp) :
    (compute_3D_lensing_kernel N F redshift).lensKernel (i * F.nlp + z)
      = ∑ k in range F.nlp,
          (compute_3D_lensing_kernel N F redshift).lensKernelTrue (i * F.nlp + k)
            * (compute_3D_lensing_kernel N F redshift).P (k * F.nlp + z) := by
  have hT : ∀ k, k < F.nlp →
      (compute_3D_lensing_kernel N F redshift).lensKernelTrue (i * F.nlp + k)
        = forLoop F.ngal (fun i lensKernel =>
            forLoop F.nlp (fun z lensKernel =>
              Function.update lensKernel (i * F.nlp + z) (max (marginalise N (redshift i) z) 0))
              lensKernel) F.lensKernel (i * F.nlp + k) := by
    intro k hk
    unfold compute_3D_lensing_kernel
    dsimp only
    rw [fill_rows_apply F.ngal F.nlp _ _ i k hi hk]
  have hP : ∀ k, k < F.nlp →
      (compute_3D_lensing_kernel N F redshift).P (k * F.nlp + z)
        = mat_mul F.nlp (mat_mul F.nlp
            (N.svd (min F.ngal 20000) F.nlp (fun ind z =>
              forLoop F.ngal (fun i lensKernel =>
                forLoop F.nlp (fun z lensKernel =>
                  Function.update lensKernel (i * F.nlp + z)
                    (max (marginalise N (redshift i) z) 0))
                  lensKernel) F.lensKernel (N.indices ind * F.nlp + z))).2
            (diagmat (regularise F.nlp (min F.ngal 20000) F.r_cond
              (N.svd (min F.ngal 20000) F.nlp (fun ind z =>
                forLoop F.ngal (fun i lensKernel =>
                  forLoop F.nlp (fun z lensKernel =>
                    Function.update lensKernel (i * F.nlp + z)
                      (max (marginalise N (redshift i) z) 0))
                    lensKernel) F.lensKernel (N.indices ind * F.nlp + z))).1)))
            (mat_t (N.svd (min F.ngal 20000) F.nlp (fun ind z =>
              forLoop F.ngal (fun i lensKernel =>
                forLoop F.nlp (fun z lensKernel =>
                  Function.update lensKernel (i * F.nlp + z)
                    (max (marginalise N (redshift i) z) 0))
                  lensKernel) F.lensKernel (N.indices ind * F.nlp + z))).2) z k := by
    intro k hk
    unfold compute_3D_lensing_kernel
    dsimp only
    refine forLoop2_obs_hit (fun st : (ℕ → K) × (ℕ → K) × (ℕ → K) => st.1 (k * F.nlp + z))
      F.nlp F.nlp _ _ z k hz hk _ ?_ ?_
    · intro t
      exact Function.update_same _ _ _
    · intro z1 z2 hz1 _ hne t
      have hidx : k * F.nlp + z ≠ z2 * F.nlp + z1 := by
        intro h
        obtain ⟨h1, h2⟩ := grid_index_inj F.nlp _ _ _ _ hz hz1 h
        rcases hne with h3 | h3
        · exact h3 h2.symm
        · exact h3 h1.symm
      exact Function.update_noteq hidx _ _
  rw [Finset.sum_congr rfl (fun k hk => by
    rw [hT k (mem_range.mp hk), hP k (mem_range.mp hk), precond_symm])]
  unfold compute_3D_lensing_kernel
  dsimp only
  rw [fill_rows_apply F.ngal F.nlp _ _ i z hi hz]
  rfl

/-- The unit-weight branch of the constructor (`nlp == 1`, `zlens <= 0`). -/
theorem init_lensing_kernel_unit (N : numerics K) (F : field K)
    (redshift : ℕ → redshift_distribution K) (hnlp : F.nlp = 1) (hz : F.zlens ≤ 0) :
    (∀ i, i < F.ngal → (init_lensing_kernel N F redshift).lensKernel i = 1)
    ∧ (init_lensing_kernel N F redshift).P 0 = 1
    ∧ (init_lensing_kernel N F redshift).PP 0 = 1
    ∧ (init_lensing_kernel N F redshift).iP 0 = 1 := by
  unfold init_lensing_kernel
  rw [if_pos hnlp]
  dsimp only
  rw [if_pos hz]
  refine ⟨?_, Function.update_same _ _ _, Function.update_same _ _ _, Function.update_same _ _ _⟩
  intro i hi
  have hi' : i < F.ngal * F.nlp := by
    rw [hnlp, Nat.mul_one]
    exact hi
  refine forLoop_obs_hit (fun b : ℕ → K => b i) (F.ngal * F.nlp) _ F.lensKernel i hi' _ ?_ ?_
  · intro t
    exact Function.update_same _ _ _
  · intro j hj _ t
    exact Function.update_noteq (Nat.ne_of_lt hj) _ _

/-- The integrated branch of `compute_surface_lensing_kernel` stores the quadrature result. -/
theorem surface_kernel_integrated (N : numerics K) (F : field K)
    (redshift : ℕ → redshift_distribution K) (i : ℕ) (hi : i < F.ngal)
    (hs : (redshift i).specz = none) :
    (compute_surface_lensing_kernel N F redshift).lensKernel i
      = (N.qags (int_for_sigma N (N.w (1 / (1 + F.zlens))) (N.w (1 / (1 + N.Z_INF))) (redshift i))
          (max (max N.a_min (1 / (1 + N.Z_INF))) (1 / ((redshift i).get_zmax + 1)))
          (min (1 / (1 + F.zlens)) (1 / ((redshift i).get_zmin + 1))) 0 (1 / 100000) 1024).2 := by
  unfold compute_surface_lensing_kernel
  dsimp only
  refine forLoop_obs_hit (fun st : (ℕ → K) × (ℕ → K) => st.1 i) F.ngal _ _ i hi _ ?_ ?_
  · intro t
    dsimp only
    rw [hs]
    exact Function.update_same _ _ _
  · intro j hj _ t
    dsimp only
    cases (redshift j).specz with
    | none => exact Function.update_noteq (Nat.ne_of_lt hj) _ _
    | some zs =>
      dsimp only
      split_ifs
      · exact Function.update_noteq (Nat.ne_of_lt hj) _ _
      · exact Function.update_noteq (Nat.ne_of_lt hj) _ _

/-- The covariance factor written by `update_covariance` for galaxy `i`. -/
theorem update_covariance_cov (F : field K) (delta : ℕ → Cplx K) (i : ℕ) (hi : i < F.ngal) :
    (update_covariance F delta).cov i
      = 1 / (max (1 - (update_covariance F delta).res_conv i) (3 / 10)
              * max (1 - (update_covariance F delta).res_conv i) (3 / 10)) := by
  unfold update_covariance
  dsimp only
  refine forLoop_obs_hit (fun b : ℕ → K => b i) _ _ _ i hi _ ?_ ?_
  · intro t
    exact Function.update_same _ _ _
  · intro j hj _ t
    exact Function.update_noteq (Nat.ne_of_lt hj) _ _

/-- C1 (adjointness, shear only).  With flexion disabled, `npix` even and a non-zero pixel
frequency, for every spectral vector `delta1`, every drawn residual pair `g1, g2`, every kernel
and every prior content `delta2` of the output buffer, the two pairs of sums that
`check_adjoint` compares are equal: `fftFactor * <a, adjoint(b)> = <forward(a), b>` in the
real part and in the rotated part. -/
theorem adjointness_shear_only (F : field K) (delta1 delta2 : ℕ → Cplx K)
    (g1 g2 f1 f2 : ℕ → K) (hfl : F.include_flexion = false) (hn : Even F.npix)
    (hff : F.freqFactor ≠ 0) :
    (check_adjoint F delta1 delta2 g1 g2 f1 f2).result_forward
        = (check_adjoint F delta1 delta2 g1 g2 f1 f2).result_backward
    ∧ (check_adjoint F delta1 delta2 g1 g2 f1 f2).result_forward2
        = (check_adjoint F delta1 delta2 g1 g2 f1 f2).result_backward2 :=
  check_adjoint_shear_sums F delta1 delta2 g1 g2 f1 f2 hfl hn hff

/-- The shear-only adjointness identity on a concrete `2 x 2` field with one galaxy. -/
theorem adjointness_shear_only_witness :
    (example_field 1 false (-1)).include_flexion = false
    ∧ Even (example_field 1 false (-1)).npix
    ∧ (example_field 1 false (-1)).freqFactor ≠ 0
    ∧ ((check_adjoint (example_field 1 false (-1)) (fun p => ((p : ℚ) + 1, 2))
          (fun _ => (5, 7)) (fun _ => 1) (fun _ => 3) (fun _ => 0) (fun _ => 0)).result_forward
        = (check_adjoint (example_field 1 false (-1)) (fun p => ((p : ℚ) + 1, 2))
          (fun _ => (5, 7)) (fun _ => 1) (fun _ => 3) (fun _ => 0) (fun _ => 0)).result_backward
      ∧ (check_adjoint (example_field 1 false (-1)) (fun p => ((p : ℚ) + 1, 2))
          (fun _ => (5, 7)) (fun _ => 1) (fun _ => 3) (fun _ => 0) (fun _ => 0)).result_forward2
        = (check_adjoint (example_field 1 false (-1)) (fun p => ((p : ℚ) + 1, 2))
          (fun _ => (5, 7)) (fun _ => 1) (fun _ => 3) (fun _ => 0) (fun _ => 0)).result_backward2) :=
  ⟨rfl, ⟨1, rfl⟩, one_ne_zero,
    adjointness_shear_only (example_field 1 false (-1)) (fun p => ((p : ℚ) + 1, 2))
      (fun _ => (5, 7)) (fun _ => 1) (fun _ => 3) (fun _ => 0) (fun _ => 0)
      rfl ⟨1, rfl⟩ one_ne_zero⟩

set_option maxHeartbeats 4000000 in
set_option maxRecDepth 100000 in
/-- C2 (adjointness, with flexion), evaluated on a `2 x 2` grid with one galaxy: for the
spectral vector whose only non-zero coefficient is the first flexion coefficient and the
residual draw `res_f1 = 1`, the flexion branch of `check_adjoint` computes
`result_forward = 1` but `result_backward = 1/4`: the two compared quantities differ by the
factor `fftFactor = 1/npix^2` that only the shear-only branch applies. -/
theorem adjointness_flexion_mismatch :
    (check_adjoint (example_field 1 true (-1)) (fun p => if p = 4 then (1, 0) else (0, 0))
        (fun _ => (0, 0)) (fun _ => 0) (fun _ => 0) (fun _ => 1) (fun _ => 0)).result_forward = 1
    ∧ (check_adjoint (example_field 1 true (-1)) (fun p => if p = 4 then (1, 0) else (0, 0))
        (fun _ => (0, 0)) (fun _ => 0) (fun _ => 0) (fun _ => 1) (fun _ => 0)).result_backward
          = 1 / 4 := by
  constructor
  · simp [check_adjoint, example_field, forward_operator, forward_shear, forward_flexion,
      convergence_at_galaxies, combine_components, apply_kernel, kappa_to_gamma, spectral_gather,
      nfft_trafo_2d, forLoop, List.range_succ, Finset.sum_range_succ, Function.update_apply,
      kshift, kfreq, field.fftFactor, adjoint_operator, adjoint_plane, scatter_residuals,
      nfft_adjoint_2d, gamma_to_kappa, spectral_scatter]
  · simp [check_adjoint, example_field, forward_operator, forward_shear, forward_flexion,
      convergence_at_galaxies, combine_components, apply_kernel, kappa_to_gamma, spectral_gather,
      nfft_trafo_2d, forLoop, List.range_succ, Finset.sum_range_succ, Function.update_apply,
      kshift, kfreq, field.fftFactor]
    norm_num

/-! ## Zero frequency -/

/-- C3 (zero-mode removal by the adjoint).  For every plane `z < nlp`, every residuals,
kernels, kernel choice and prior content of `delta`, the coefficient `delta[z * npix^2]` is
`(0, 0)` after `adjoint_operator`; for even `npix > 0` this index is the spectral index of
the grid point `x = y = npix/2`, whose wave numbers are zero. -/
theorem adjoint_zero_mode (F : field K) (delta : ℕ → Cplx K) (pre : Bool) (z : ℕ)
    (hz : z < F.nlp) :
    (adjoint_operator F delta pre).2 (z * (F.npix * F.npix)) = (0, 0)
    ∧ (Even F.npix → 0 < F.npix →
        spos F.npix z (F.npix / 2) (F.npix / 2) = z * (F.npix * F.npix)
        ∧ kfreq F.npix F.freqFactor (F.npix / 2) = 0) := by
  refine ⟨adjoint_operator_plane_zero F delta pre z hz, fun hn h0 => ⟨spos_half F.npix z hn h0, ?_⟩⟩
  unfold kfreq
  simp

/-- The zero-mode statement for plane 1 of a concrete two-plane field with flexion. -/
theorem adjoint_zero_mode_witness :
    0 < (example_field 2 true (-1)).nlp
    ∧ ((adjoint_operator (example_field 2 true (-1)) (fun _ => (5, 7)) false).2
          (1 * ((example_field 2 true (-1)).npix * (example_field 2 true (-1)).npix)) = (0, 0)
      ∧ (Even (example_field 2 true (-1)).npix → 0 < (example_field 2 true (-1)).npix →
          spos (example_field 2 true (-1)).npix 1 ((example_field 2 true (-1)).npix / 2)
              ((example_field 2 true (-1)).npix / 2)
            = 1 * ((example_field 2 true (-1)).npix * (example_field 2 true (-1)).npix)
          ∧ kfreq (example_field 2 true (-1)).npix (example_field 2 true (-1)).freqFactor
              ((example_field 2 true (-1)).npix / 2) = 0)) :=
  ⟨by decide, adjoint_zero_mode (example_field 2 true (-1)) (fun _ => (5, 7)) false 1 (by decide)⟩

set_option maxHeartbeats 4000000 in
set_option maxRecDepth 100000 in
/-- C4 (zero frequency of `combine_components`), evaluated with two planes on a `2 x 2` grid,
flexion disabled: for the input whose only non-zero coefficient is the zero-frequency
coefficient of plane 1, `delta[1 * npix^2] = (1, 0)`, the output keeps
`delta_comb[1 * npix^2] = (1, 0)`; only `delta_comb[0]` is zeroed. -/
theorem combine_components_plane_one :
    combine_components (example_field 2 false (-1))
        (fun p => if p = 4 then (1, 0) else (0, 0)) (fun _ => (0, 0)) (1 * (2 * 2)) = (1, 0)
    ∧ combine_components (example_field 2 false (-1))
        (fun p => if p = 4 then (1, 0) else (0, 0)) (fun _ => (0, 0)) 0 = (0, 0) := by
  constructor
  · simp [combine_components, forLoop, List.range_succ, Function.update_apply,
      kshift, kfreq, example_field]
  · exact combine_components_zero _ _ _ (by decide)

/-! ## Round trips of `combine_components` -/

/-- A grid point of non-zero frequency never has spectral index 0. -/
theorem not_zero_frequency (n z y x : ℕ) (hn : Even n) (hy : y < n) (hx : x < n)
    (hnz : ¬ (x = n / 2 ∧ y = n / 2)) : spos n z y x ≠ 0 := by
  intro h
  have h1 := spos_ge n z y x
  have h2 : z * (n * n) = 0 := by omega
  exact hnz ((spos_eq_plane_iff n z y x hn hy hx).mp (by rw [h, h2]))

set_option maxHeartbeats 4000000 in
set_option maxRecDepth 100000 in
/-- C5, counterexample: on a `2 x 2` grid with one plane and flexion disabled, the round trip
of the constant field `x = (1, 0)` returns `(0, 0)` at coefficient 0, not `x[0] = (1, 0)`. -/
theorem roundtrip_shear_fails_at_zero :
    combine_components_inverse (example_field 1 false (-1))
        (combine_components (example_field 1 false (-1)) (fun _ => (1, 0)) (fun _ => (0, 0)))
        (fun _ => (0, 0)) 0 = (0, 0)
    ∧ combine_components_inverse (example_field 1 false (-1))
        (combine_components (example_field 1 false (-1)) (fun _ => (1, 0)) (fun _ => (0, 0)))
        (fun _ => (0, 0)) 0 ≠ (fun _ => ((1 : ℚ), (0 : ℚ))) 0 := by
  have h : combine_components_inverse (example_field 1 false (-1))
      (combine_components (example_field 1 false (-1)) (fun _ => (1, 0)) (fun _ => (0, 0)))
      (fun _ => (0, 0)) 0 = (0, 0) := by
    simp [combine_components, combine_components_inverse, forLoop, List.range_succ,
      Function.update_apply, kshift, kfreq, example_field]
  refine ⟨h, ?_⟩
  rw [h]
  intro h2
  have h3 := congrArg Prod.fst h2
  norm_num at h3

/-- C5 as amended (round trip, flexion disabled).  For even `npix`, the round trip
`combine_components_inverse(combine_components(x))` returns `x[p]` at every coefficient
`p < npix^2 * nlp` that is not a zero-frequency coefficient `z * npix^2`, and returns
`(0, 0)` at coefficient 0, whatever the prior contents of the two output buffers. -/
theorem combine_roundtrip_shear (F : field K) (xf dc0 d0 : ℕ → Cplx K)
    (hfl : F.include_flexion = false) (hn : Even F.npix) :
    (∀ p, p < F.npix * F.npix * F.nlp → (∀ z, p ≠ z * (F.npix * F.npix)) →
        combine_components_inverse F (combine_components F xf dc0) d0 p = xf p)
    ∧ (0 < F.npix → 0 < F.nlp →
        combine_components_inverse F (combine_components F xf dc0) d0 0 = (0, 0)) := by
  have hnf : ¬ (F.include_flexion = true) := by rw [hfl]; decide
  constructor
  · intro p hp hne
    obtain ⟨z, y, x, hz, hy, hx, rfl⟩ := spos_surj F.npix F.nlp p hn hp
    have hp0 : spos F.npix z y x ≠ 0 := by
      have := hne 0
      rwa [Nat.zero_mul] at this
    rw [combine_components_inverse_apply F _ d0 z y x hn hz hy hx,
      combine_components_apply F xf dc0 z y x hn hz hy hx hp0, if_neg hnf]
  · intro h0 hL
    have hh : F.npix / 2 < F.npix := Nat.div_lt_self h0 (by decide)
    have h := combine_components_inverse_apply F (combine_components F xf dc0) d0 0
      (F.npix / 2) (F.npix / 2) hn hL hh hh
    rw [spos_half F.npix 0 hn h0, Nat.zero_mul] at h
    rw [h, combine_components_zero F xf dc0 hL]

/-- The shear-only round trip on a concrete two-plane field. -/
theorem combine_roundtrip_shear_witness :
    (example_field 2 false (-1)).include_flexion = false
    ∧ Even (example_field 2 false (-1)).npix
    ∧ ((∀ p, p < (example_field 2 false (-1)).npix * (example_field 2 false (-1)).npix
            * (example_field 2 false (-1)).nlp →
          (∀ z, p ≠ z * ((example_field 2 false (-1)).npix * (example_field 2 false (-1)).npix)) →
          combine_components_inverse (example_field 2 false (-1))
            (combine_components (example_field 2 false (-1)) (fun p => ((p : ℚ), 1))
              (fun _ => (5, 7))) (fun _ => (3, 4)) p = ((p : ℚ), 1))
      ∧ (0 < (example_field 2 false (-1)).npix → 0 < (example_field 2 false (-1)).nlp →
          combine_components_inverse (example_field 2 false (-1))
            (combine_components (example_field 2 false (-1)) (fun p => ((p : ℚ), 1))
              (fun _ => (5, 7))) (fun _ => (3, 4)) 0 = (0, 0))) :=
  ⟨rfl, ⟨1, rfl⟩,
    combine_roundtrip_shear (example_field 2 false (-1)) (fun p => ((p : ℚ), 1))
      (fun _ => (5, 7)) (fun _ => (3, 4)) rfl ⟨1, rfl⟩⟩

set_option maxHeartbeats 4000000 in
set_option maxRecDepth 100000 in
/-- C6, counterexample: on a `2 x 2` grid with one plane, flexion enabled and `sig_frac = 1`,
for the field whose only non-zero coefficient is the convergence coefficient `x[3] = (1, 0)`
the round trip returns `(1/3, 0)` in the convergence block at coefficient 3. -/
theorem roundtrip_flexion_changes_convergence :
    0 < (example_field 1 true (-1)).sig_frac
    ∧ combine_components_inverse (example_field 1 true (-1))
        (combine_components (example_field 1 true (-1))
          (fun p => if p = 3 then (1, 0) else (0, 0)) (fun _ => (0, 0))) (fun _ => (0, 0)) 3
        = (1 / 3, 0)
    ∧ combine_components_inverse (example_field 1 true (-1))
        (combine_components (example_field 1 true (-1))
          (fun p => if p = 3 then (1, 0) else (0, 0)) (fun _ => (0, 0))) (fun _ => (0, 0)) 3
        ≠ (fun p => if p = 3 then ((1 : ℚ), (0 : ℚ)) else (0, 0)) 3 := by
  have h : combine_components_inverse (example_field 1 true (-1))
      (combine_components (example_field 1 true (-1))
        (fun p => if p = 3 then (1, 0) else (0, 0)) (fun _ => (0, 0))) (fun _ => (0, 0)) 3
      = (1 / 3, 0) := by
    simp [combine_components, combine_components_inverse, forLoop, List.range_succ,
      Function.update_apply, kshift, kfreq, example_field]
    norm_num
  refine ⟨by norm_num [example_field], h, ?_⟩
  rw [h]
  intro h2
  have h3 := congrArg Prod.fst h2
  norm_num at h3

/-- C6 as amended (round trip, flexion enabled).  For even `npix`, at every grid point
`(y, x)` of non-zero frequency of every plane, the convergence block of
`combine_components_inverse(combine_components(x))` is the combined coefficient
`((k2 + i k1) * flex + sig_frac * conv) / (k1^2 + k2^2 + sig_frac)` of the convergence
coefficient `conv = x[pos]` and the flexion coefficient `flex = x[nlp * npix^2 + pos]`;
it equals `conv` when `sig_frac > 0` and the flexion coefficient is `(k2 - i k1) * conv`. -/
theorem combine_roundtrip_flexion (F : field K) (xf dc0 d0 : ℕ → Cplx K) (z y x : ℕ)
    (hfl : F.include_flexion = true) (hn : Even F.npix) (hz : z < F.nlp) (hy : y < F.npix)
    (hx : x < F.npix) (hnz : ¬ (x = F.npix / 2 ∧ y = F.npix / 2)) :
    combine_components_inverse F (combine_components F xf dc0) d0 (spos F.npix z y x)
      = combined_coefficient F.sig_frac (kfreq F.npix F.freqFactor x)
          (kfreq F.npix F.freqFactor y) (xf (spos F.npix z y x))
          (xf (F.nlp * F.npix * F.npix + spos F.npix z y x))
    ∧ (0 < F.sig_frac →
        xf (F.nlp * F.npix * F.npix + spos F.npix z y x)
          = flexion_of_combined (kfreq F.npix F.freqFactor x) (kfreq F.npix F.freqFactor y)
              (xf (spos F.npix z y x)) →
        combine_components_inverse F (combine_components F xf dc0) d0 (spos F.npix z y x)
          = xf (spos F.npix z y x)) := by
  have hp0 := not_zero_frequency F.npix z y x hn hy hx hnz
  have hval := combine_components_apply F xf dc0 z y x hn hz hy hx hp0
  rw [if_pos hfl] at hval
  rw [combine_components_inverse_apply F _ d0 z y x hn hz hy hx, hval]
  refine ⟨rfl, fun hs hF => ?_⟩
  have hden : kfreq F.npix F.freqFactor x * kfreq F.npix F.freqFactor x
      + kfreq F.npix F.freqFactor y * kfreq F.npix F.freqFactor y + F.sig_frac ≠ 0 := by
    have h1 := mul_self_nonneg (kfreq F.npix F.freqFactor x)
    have h2 := mul_self_nonneg (kfreq F.npix F.freqFactor y)
    exact ne_of_gt (by linarith)
  rw [hF]
  unfold flexion_of_combined
  refine Prod.ext ?_ ?_
  · dsimp only
    field_simp
    ring
  · dsimp only
    field_simp
    ring

/-- The flexion round trip at grid point `(0, 0)` of a concrete field. -/
theorem combine_roundtrip_flexion_witness :
    (example_field 1 true (-1)).include_flexion = true
    ∧ Even 2 ∧ 0 < 1 ∧ 0 < 2 ∧ ¬ (0 = 2 / 2 ∧ 0 = 2 / 2)
    ∧ (combine_components_inverse (example_field 1 true (-1))
          (combine_components (example_field 1 true (-1))
            (fun p => if p = 3 then (1, 0) else (0, 0)) (fun _ => (0, 0))) (fun _ => (0, 0))
          (spos 2 0 0 0)
        = combined_coefficient 1 (kfreq 2 1 0) (kfreq 2 1 0)
            ((fun p => if p = 3 then ((1 : ℚ), (0 : ℚ)) else (0, 0)) (spos 2 0 0 0))
            ((fun p => if p = 3 then ((1 : ℚ), (0 : ℚ)) else (0, 0)) (1 * 2 * 2 + spos 2 0 0 0))
      ∧ ((0 : ℚ) < 1 →
          (fun p => if p = 3 then ((1 : ℚ), (0 : ℚ)) else (0, 0)) (1 * 2 * 2 + spos 2 0 0 0)
            = flexion_of_combined (kfreq 2 1 0) (kfreq 2 1 0)
                ((fun p => if p = 3 then ((1 : ℚ), (0 : ℚ)) else (0, 0)) (spos 2 0 0 0)) →
          combine_components_inverse (example_field 1 true (-1))
            (combine_components (example_field 1 true (-1))
              (fun p => if p = 3 then (1, 0) else (0, 0)) (fun _ => (0, 0))) (fun _ => (0, 0))
            (spos 2 0 0 0)
          = (fun p => if p = 3 then ((1 : ℚ), (0 : ℚ)) else (0, 0)) (spos 2 0 0 0))) :=
  ⟨rfl, ⟨1, rfl⟩, by decide, by decide, by decide,
    combine_roundtrip_flexion (example_field 1 true (-1))
      (fun p => if p = 3 then (1, 0) else (0, 0)) (fun _ => (0, 0)) (fun _ => (0, 0)) 0 0 0
      rfl ⟨1, rfl⟩ (by decide) (by decide) (by decide) (by decide)⟩

/-! ## Lensing kernels and preconditioner -/

/-- C7 (preconditioner consistency).  After `compute_3D_lensing_kernel`, whatever `svd` and
`inv` return, for every galaxy `i < ngal` and plane `z < nlp`:
`lensKernel[i*nlp+z] = sum_k lensKernelTrue[i*nlp+k] * P[k*nlp+z]`, with `P` the stored array
(`P[z2*nlp+z1] = Pr(z1,z2)`, `Pr = V * diagmat(s) * V.t()` symmetric). -/
theorem preconditioner_consistency (N : numerics K) (F : field K)
    (redshift : ℕ → redshift_distribution K) (i z : ℕ) (hi : i < F.ngal) (hz : z < F.nlp) :
    (compute_3D_lensing_kernel N F redshift).lensKernel (i * F.nlp + z)
      = ∑ k in range F.nlp,
          (compute_3D_lensing_kernel N F redshift).lensKernelTrue (i * F.nlp + k)
            * (compute_3D_lensing_kernel N F redshift).P (k * F.nlp + z) :=
  compute_3D_lensKernel N F redshift i z hi hz

set_option maxHeartbeats 4000000 in
set_option maxRecDepth 100000 in
/-- The preconditioner identity for galaxy 0 and plane 1 of a two-plane field whose kernel row is `[3, 4]`: `4/5 = 3 * (-48/125) + 4 * (61/125)`. -/
theorem preconditioner_consistency_witness :
    0 < 1 ∧ 1 < 2
    ∧ (compute_3D_lensing_kernel pythagorean_numerics (example_field 2 false (-1))
          (fun _ => point_redshift 1)).lensKernel (0 * 2 + 1)
      = ∑ k in range 2,
          (compute_3D_lensing_kernel pythagorean_numerics (example_field 2 false (-1))
            (fun _ => point_redshift 1)).lensKernelTrue (0 * 2 + k)
          * (compute_3D_lensing_kernel pythagorean_numerics (example_field 2 false (-1))
            (fun _ => point_redshift 1)).P (k * 2 + 1)
    ∧ (compute_3D_lensing_kernel pythagorean_numerics (example_field 2 false (-1))
          (fun _ => point_redshift 1)).lensKernelTrue (0 * 2 + 0) = 3
    ∧ (compute_3D_lensing_kernel pythagorean_numerics (example_field 2 false (-1))
          (fun _ => point_redshift 1)).lensKernelTrue (0 * 2 + 1) = 4
    ∧ (compute_3D_lensing_kernel pythagorean_numerics (example_field 2 false (-1))
          (fun _ => point_redshift 1)).P (0 * 2 + 1) = -48 / 125
    ∧ (compute_3D_lensing_kernel pythagorean_numerics (example_field 2 false (-1))
          (fun _ => point_redshift 1)).P (1 * 2 + 1) = 61 / 125
    ∧ (compute_3D_lensing_kernel pythagorean_numerics (example_field 2 false (-1))
          (fun _ => point_redshift 1)).lensKernel (0 * 2 + 1) = 4 / 5 := by
  refine ⟨by decide, by decide,
    preconditioner_consistency pythagorean_numerics (example_field 2 false (-1))
      (fun _ => point_redshift 1) 0 1 (by decide) (by decide), ?_, ?_, ?_, ?_, ?_⟩
  · simp [compute_3D_lensing_kernel, marginalise, int_for_marginalisation, regularise, mat_mul,
      diagmat, mat_t, forLoop, List.range_succ, Finset.sum_range_succ, Function.update_apply,
      pythagorean_numerics, example_numerics, point_redshift, example_field]
  · simp [compute_3D_lensing_kernel, marginalise, int_for_marginalisation, regularise, mat_mul,
      diagmat, mat_t, forLoop, List.range_succ, Finset.sum_range_succ, Function.update_apply,
      pythagorean_numerics, example_numerics, point_redshift, example_field]
  · simp [compute_3D_lensing_kernel, marginalise, int_for_marginalisation, regularise, mat_mul,
      diagmat, mat_t, forLoop, List.range_succ, Finset.sum_range_succ, Function.update_apply,
      pythagorean_numerics, example_numerics, point_redshift, example_field]
    norm_num
  · simp [compute_3D_lensing_kernel, marginalise, int_for_marginalisation, regularise, mat_mul,
      diagmat, mat_t, forLoop, List.range_succ, Finset.sum_range_succ, Function.update_apply,
      pythagorean_numerics, example_numerics, point_redshift, example_field]
    norm_num
  · simp [compute_3D_lensing_kernel, marginalise, int_for_marginalisation, regularise, mat_mul,
      diagmat, mat_t, forLoop, List.range_succ, Finset.sum_range_succ, Function.update_apply,
      pythagorean_numerics, example_numerics, point_redshift, example_field]
    norm_num

/-- C8 (single-plane identity).  When the field has `nlp = 1` and `zlens <= 0`, the
constructor leaves `lensKernel[i] = 1` for every galaxy and `P[0] = PP[0] = iP[0] = 1`,
whatever the redshift distributions and the prior content of the arrays. -/
theorem single_plane_identity (N : numerics K) (F : field K)
    (redshift : ℕ → redshift_distribution K) (hnlp : F.nlp = 1) (hz : F.zlens ≤ 0) :
    (∀ i, i < F.ngal → (init_lensing_kernel N F redshift).lensKernel i = 1)
    ∧ (init_lensing_kernel N F redshift).P 0 = 1
    ∧ (init_lensing_kernel N F redshift).PP 0 = 1
    ∧ (init_lensing_kernel N F redshift).iP 0 = 1 :=
  init_lensing_kernel_unit N F redshift hnlp hz

/-- The unit-weight branch on a concrete field with `zlens = -1`. -/
theorem single_plane_identity_witness :
    (example_field 1 false (-1)).nlp = 1 ∧ (example_field 1 false (-1)).zlens ≤ 0
    ∧ ((∀ i, i < (example_field 1 false (-1)).ngal →
          (init_lensing_kernel example_numerics (example_field 1 false (-1))
            (fun _ => negative_redshift)).lensKernel i = 1)
      ∧ (init_lensing_kernel example_numerics (example_field 1 false (-1))
            (fun _ => negative_redshift)).P 0 = 1
      ∧ (init_lensing_kernel example_numerics (example_field 1 false (-1))
            (fun _ => negative_redshift)).PP 0 = 1
      ∧ (init_lensing_kernel example_numerics (example_field 1 false (-1))
            (fun _ => negative_redshift)).iP 0 = 1) :=
  ⟨rfl, by norm_num [example_field],
    single_plane_identity example_numerics (example_field 1 false (-1))
      (fun _ => negative_redshift) rfl (by norm_num [example_field])⟩

/-- In tomographic mode the retained kernel `lensKernelTrue` is non-negative, whatever the
quadrature returns: it is `max(result, 0)`. -/
theorem kernel_3D_nonneg (N : numerics K) (F : field K)
    (redshift : ℕ → redshift_distribution K) (i z : ℕ) (hi : i < F.ngal) (hz : z < F.nlp) :
    0 ≤ (compute_3D_lensing_kernel N F redshift).lensKernelTrue (i * F.nlp + z) := by
  rw [compute_3D_lensKernelTrue N F redshift i z hi hz]
  exact le_max_right _ _

set_option maxHeartbeats 4000000 in
set_option maxRecDepth 100000 in
/-- C9 (kernel non-negativity), evaluated in single-plane surface-density mode (`nlp = 1`,
`zlens = 1`) for one galaxy with a general redshift distribution on `[1, 3]` of density `-1`,
the quadrature being the midpoint rule: the constructor stores the unclamped quadrature
result `lensKernel[0] = lensKernelTrue[0] = -4/5 < 0`. -/
theorem surface_kernel_negative :
    (init_lensing_kernel example_numerics (example_field 1 false 1)
        (fun _ => negative_redshift)).lensKernel 0 = -4 / 5
    ∧ (init_lensing_kernel example_numerics (example_field 1 false 1)
        (fun _ => negative_redshift)).lensKernelTrue 0 = -4 / 5
    ∧ (init_lensing_kernel example_numerics (example_field 1 false 1)
        (fun _ => negative_redshift)).lensKernel 0 < 0 := by
  have h1 : (init_lensing_kernel example_numerics (example_field 1 false 1)
      (fun _ => negative_redshift)).lensKernel 0 = -4 / 5 := by
    simp [init_lensing_kernel, compute_surface_lensing_kernel, example_field, example_numerics,
      negative_redshift, int_for_sigma, forLoop, List.range_succ, Function.update_apply]
    norm_num
  have h2 : (init_lensing_kernel example_numerics (example_field 1 false 1)
      (fun _ => negative_redshift)).lensKernelTrue 0 = -4 / 5 := by
    simp [init_lensing_kernel, compute_surface_lensing_kernel, example_field, example_numerics,
      negative_redshift, int_for_sigma, forLoop, List.range_succ, Function.update_apply]
    norm_num
  refine ⟨h1, h2, ?_⟩
  rw [h1]
  norm_num

/-! ## Covariance update -/

set_option maxHeartbeats 4000000 in
set_option maxRecDepth 100000 in
/-- The coincidence of exact arithmetic that the converse part of the covariance statement
below excludes: on a `2 x 2` grid with one galaxy, for the spectral field whose only non-zero
coefficient is `delta[1] = (26/5, 0)`, the convergence is exactly `kappa = 13/10`, so that
`(1 - kappa)^2 = (3/10)^2` and `cov[0] = 100/9 = 1 / (1 - kappa)^2` although `kappa > 7/10`.
In the program `1.0 - res_conv[i]` is a `double`: for `res_conv[i]` between `1` and `2` it is
a multiple of `2^-52`, which the `double` nearest to `0.3` is not, so the coincidence does
not occur there. -/
theorem covariance_coincidence_exact :
    (update_covariance (example_field 1 false (-1))
        (fun p => if p = 1 then (26 / 5, 0) else (0, 0))).res_conv 0 = 13 / 10
    ∧ (update_covariance (example_field 1 false (-1))
        (fun p => if p = 1 then (26 / 5, 0) else (0, 0))).cov 0
      = 1 / (1 - (update_covariance (example_field 1 false (-1))
        (fun p => if p = 1 then (26 / 5, 0) else (0, 0))).res_conv 0) ^ 2
    ∧ ¬ ((update_covariance (example_field 1 false (-1))
        (fun p => if p = 1 then (26 / 5, 0) else (0, 0))).res_conv 0 ≤ 7 / 10) := by
  have h1 : (update_covariance (example_field 1 false (-1))
      (fun p => if p = 1 then (26 / 5, 0) else (0, 0))).res_conv 0 = 13 / 10 := by
    simp [update_covariance, convergence_at_galaxies, combine_components, spectral_gather,
      nfft_trafo_2d, forLoop, List.range_succ, Finset.sum_range_succ, Function.update_apply,
      kshift, kfreq, field.fftFactor, example_field]
    norm_num
  have h2 := update_covariance_cov (example_field 1 false (-1))
    (fun p => if p = 1 then (26 / 5, 0) else (0, 0)) 0 (by decide)
  rw [h1] at h2
  rw [h2, h1]
  refine ⟨rfl, ?_, by norm_num⟩
  rw [max_eq_right (by norm_num)]
  norm_num

/-- The C++ remainder `n % 2` is `0` for even `n`, `1` for odd `n >= 0`, `-1` for odd `n < 0`. -/
theorem tmod_two (n : ℤ) :
    (n % 2 = 0 → Int.tmod n 2 = 0) ∧ (n % 2 = 1 → 0 ≤ n → Int.tmod n 2 = 1)
    ∧ (n % 2 = 1 → n < 0 → Int.tmod n 2 = -1) := by
  cases n with
  | ofNat m =>
    have h : Int.tmod (Int.ofNat m) 2 = ((m % 2 : ℕ) : ℤ) := rfl
    rw [h]
    refine ⟨fun h1 => ?_, fun h1 _ => ?_, fun _ h2 => ?_⟩
    · simp only [Int.ofNat_eq_coe] at h1
      omega
    · simp only [Int.ofNat_eq_coe] at h1
      omega
    · simp only [Int.ofNat_eq_coe] at h2
      omega
  | negSucc m =>
    have h : Int.tmod (Int.negSucc m) 2 = -(((m + 1) % 2 : ℕ) : ℤ) := rfl
    rw [h]
    refine ⟨fun h1 => ?_, fun _ h2 => ?_, fun h1 _ => ?_⟩
    · rw [Int.negSucc_eq] at h1
      omega
    · rw [Int.negSucc_eq] at h2
      omega
    · rw [Int.negSucc_eq] at h1
      omega

/-- C13 (grid size).  For every `n0 = (int) (survey_size / pixel_size)` and every padding
`p` (non-negative or not), the constructor's `npix = n0 + (n0 % 2) + 2 * p` (C++ remainder)
is even, and for `n0 >= 0` the unpadded part `npix - 2 * p` is the smallest even integer
`>= n0`. -/
theorem constructor_npix_even (n0 p : ℤ) :
    Even (constructor_npix n0 p)
    ∧ (0 ≤ n0 →
        Even (constructor_npix n0 p - 2 * p) ∧ n0 ≤ constructor_npix n0 p - 2 * p
        ∧ ∀ m : ℤ, Even m → n0 ≤ m → constructor_npix n0 p - 2 * p ≤ m) := by
  obtain ⟨h0, h1, h2⟩ := tmod_two n0
  unfold constructor_npix
  dsimp only
  rcases Int.emod_two_eq n0 with he | ho
  · rw [h0 he]
    refine ⟨?_, fun _ => ⟨?_, ?_, ?_⟩⟩
    · rw [Int.even_iff]
      omega
    · rw [Int.even_iff]
      omega
    · omega
    · intro m hm hle
      rw [Int.even_iff] at hm
      omega
  · refine ⟨?_, fun hn => ⟨?_, ?_, ?_⟩⟩
    · rcases lt_or_le n0 0 with hneg | hpos
      · rw [h2 ho hneg, Int.even_iff]
        omega
      · rw [h1 ho hpos, Int.even_iff]
        omega
    · rw [h1 ho hn, Int.even_iff]
      omega
    · rw [h1 ho hn]
      omega
    · intro m hm hle
      rw [h1 ho hn]
      rw [Int.even_iff] at hm
      omega

/-- The grid size for `n0 = 7` pixels and a padding of `3`: `npix = 14`. -/
theorem constructor_npix_even_witness :
    Even (constructor_npix 7 3)
    ∧ ((0 : ℤ) ≤ 7 →
        Even (constructor_npix 7 3 - 2 * 3) ∧ 7 ≤ constructor_npix 7 3 - 2 * 3
        ∧ ∀ m : ℤ, Even m → 7 ≤ m → constructor_npix 7 3 - 2 * 3 ≤ m) :=
  constructor_npix_even 7 3

/-- C14 (node coordinates).  With `size > 0`, the node coordinate stored by the constructor
(`val = -0.5 + X / size`, then `val + 1` if `val < -0.5`) lies in `[-0.5, 0.5)` if and only if
`-size <= X < size`; in particular it does whenever `|X| <= size / 2`. -/
theorem node_coordinate_range (X size : K) (hs : 0 < size) :
    ((-(1 / 2) ≤ node_coordinate X size ∧ node_coordinate X size < 1 / 2)
        ↔ (-size ≤ X ∧ X < size))
    ∧ (|X| ≤ size / 2 →
        -(1 / 2) ≤ node_coordinate X size ∧ node_coordinate X size < 1 / 2) := by
  have hiff : ((-(1 / 2) ≤ node_coordinate X size ∧ node_coordinate X size < 1 / 2)
        ↔ (-size ≤ X ∧ X < size)) := by
    have h1 : -size ≤ X ↔ -1 ≤ X / size := by
      rw [le_div_iff₀ hs]
      constructor <;> intro h <;> linarith
    have h2 : X < size ↔ X / size < 1 := by
      rw [div_lt_iff₀ hs]
      constructor <;> intro h <;> linarith
    rw [h1, h2]
    unfold node_coordinate
    dsimp only
    generalize X / size = t
    by_cases ht : -(1 / 2) + t < -(1 / 2)
    · rw [if_pos ht]
      constructor
      · rintro ⟨a, b⟩
        constructor <;> linarith
      · rintro ⟨a, b⟩
        constructor <;> linarith
    · rw [if_neg ht]
      constructor
      · rintro ⟨a, b⟩
        constructor <;> linarith
      · rintro ⟨a, b⟩
        constructor <;> linarith
  refine ⟨hiff, fun habs => hiff.2 ?_⟩
  have h := abs_le.1 habs
  constructor <;> linarith [h.1, h.2]

/-- The node coordinate of the offset `X = -1/4` on a field of width `1` is `1/4`. -/
theorem node_coordinate_range_witness :
    (0 : ℚ) < 1
    ∧ (((-(1 / 2) ≤ node_coordinate (-(1 / 4) : ℚ) 1 ∧ node_coordinate (-(1 / 4) : ℚ) 1 < 1 / 2)
        ↔ (-1 ≤ (-(1 / 4) : ℚ) ∧ (-(1 / 4) : ℚ) < 1))
      ∧ (|(-(1 / 4) : ℚ)| ≤ 1 / 2 →
        -(1 / 2) ≤ node_coordinate (-(1 / 4) : ℚ) 1 ∧ node_coordinate (-(1 / 4) : ℚ) 1 < 1 / 2)) :=
  ⟨by norm_num, node_coordinate_range (-(1 / 4) : ℚ) 1 (by norm_num)⟩

/-! ## Spectral index map -/

/-- The spectral index map.  For every even `npix > 0`: the shift
`x -> (x < npix/2 ? x + npix/2 : x - npix/2)` maps `{0..npix-1}` into itself, is its own
inverse and sends `npix/2` to `0`; the index `pos = ky*npix + kx + z*npix^2` of `(z, y, x)`,
`z < nlp`, `y, x < npix`, lies below `nlp * npix^2` and inside the range
`[z*npix^2, (z+1)*npix^2)` of its plane, the map `(z, y, x) -> pos` is injective, and every
index below `nlp * npix^2` is the `pos` of some `(z, y, x)`. -/
theorem spectral_index_bijection (npix nlp : ℕ) (hn : Even npix) (h0 : 0 < npix) :
    (∀ x, x < npix → kshift npix x < npix ∧ kshift npix (kshift npix x) = x)
    ∧ kshift npix (npix / 2) = 0
    ∧ (∀ z y x, z < nlp → y < npix → x < npix →
        spos npix z y x < nlp * (npix * npix)
        ∧ z * (npix * npix) ≤ spos npix z y x
        ∧ spos npix z y x < (z + 1) * (npix * npix))
    ∧ (∀ z y x z' y' x', y < npix → x < npix → y' < npix → x' < npix →
        spos npix z y x = spos npix z' y' x' → z = z' ∧ y = y' ∧ x = x')
    ∧ (∀ p, p < nlp * (npix * npix) →
        ∃ z y x, z < nlp ∧ y < npix ∧ x < npix ∧ spos npix z y x = p) := by
  refine ⟨fun x hx => ⟨kshift_lt npix x hn hx, kshift_kshift npix x hn hx⟩, ?_, ?_, ?_, ?_⟩
  · exact (kshift_eq_zero_iff npix (npix / 2) hn (Nat.div_lt_self h0 (by decide))).2 rfl
  · intro z y x hz hy hx
    have h1 := spos_lt npix z y x hn hy hx
    refine ⟨lt_of_lt_of_le h1 (Nat.mul_le_mul_right _ hz), spos_ge npix z y x, h1⟩
  · intro z y x z' y' x' hy hx hy' hx' h
    exact spos_inj npix z y x z' y' x' hn hy hx hy' hx' h
  · intro p hp
    exact spos_surj npix nlp p hn (by rw [Nat.mul_comm]; exact hp)

/-- The index map of a `2 x 2` grid with three planes. -/
theorem spectral_index_bijection_witness :
    Even 2 ∧ 0 < 2
    ∧ ((∀ x, x < 2 → kshift 2 x < 2 ∧ kshift 2 (kshift 2 x) = x)
      ∧ kshift 2 (2 / 2) = 0
      ∧ (∀ z y x, z < 3 → y < 2 → x < 2 →
          spos 2 z y x < 3 * (2 * 2)
          ∧ z * (2 * 2) ≤ spos 2 z y x
          ∧ spos 2 z y x < (z + 1) * (2 * 2))
      ∧ (∀ z y x z' y' x', y < 2 → x < 2 → y' < 2 → x' < 2 →
          spos 2 z y x = spos 2 z' y' x' → z = z' ∧ y = y' ∧ x = x')
      ∧ (∀ p, p < 3 * (2 * 2) →
          ∃ z y x, z < 3 ∧ y < 2 ∧ x < 2 ∧ spos 2 z y x = p)) :=
  ⟨by decide, by decide, spectral_index_bijection 2 3 (by decide) (by decide)⟩

/-- A loop on a pair whose first component evolves by its own body. -/
theorem forLoop_fst {σ τ : Type} (n : ℕ) (body : ℕ → σ → σ) (body2 : ℕ → σ × τ → σ × τ)
    (h : ∀ i st, (body2 i st).1 = body i st.1) (st : σ × τ) :
    (forLoop n body2 st).1 = forLoop n body st.1 := by
  induction n with
  | zero => rfl
  | succ n ih => rw [forLoop_succ, forLoop_succ, h, ih]

/-- The first component of `combine_components_logged` is `combine_components`. -/
theorem combine_components_logged_fst (F : field K) (delta : ℕ → Cplx K)
    (st : (ℕ → Cplx K) × List ℕ) :
    (combine_components_logged F delta st).1 = combine_components F delta st.1 := by
  unfold combine_components_logged combine_components
  dsimp only
  refine forLoop_fst _ _ _ (fun z st => ?_) st
  dsimp only
  refine congrArg (fun b : ℕ → Cplx K => Function.update b 0 (0, 0)) ?_
  refine forLoop_fst _ _ _ (fun y st => ?_) st
  refine forLoop_fst _ _ _ (fun x st => ?_) st
  dsimp only
  split_ifs <;> rfl

/-- C19 (spectral index map and plane ranges), evaluated for `combine_components` on a
`2 x 2` grid with two planes (flexion off), for every input field and prior buffer: the
indices of `delta_comb` are assigned in the order `3, 2, 1, 0, 0, 7, 6, 5, 4, 0`.  Coefficient
`0` is assigned three times, by the loop of plane `0`, by the statement `delta_comb[0] = 0`
that ends the iteration of plane `0`, and again by the same statement at the end of the
iteration of plane `1`, whose index range is `[4, 8)`. -/
theorem combine_components_rewrites_index_zero (delta dc : ℕ → Cplx ℚ) :
    (combine_components_logged (example_field 2 false (-1)) delta (dc, [])).2
        = [3, 2, 1, 0, 0, 7, 6, 5, 4, 0]
    ∧ List.count 0
        (combine_components_logged (example_field 2 false (-1)) delta (dc, [])).2 = 3
    ∧ ¬ (1 * (2 * 2) ≤ 0) := by
  have h : (combine_components_logged (example_field 2 false (-1)) delta (dc, [])).2
      = [3, 2, 1, 0, 0, 7, 6, 5, 4, 0] := by
    simp [combine_components_logged, forLoop, List.range_succ, kshift, example_field]
  rw [h]
  exact ⟨rfl, by decide, by decide⟩

/-! ## Singular-value regularisation -/

/-- A loop whose iteration `i` rewrites entry `i` of an array from its own old value, and
touches no other entry, maps every entry below the bound by its own rule. -/
theorem forLoop_own_index {σ β : Type} (obs : σ → ℕ → β) (n : ℕ) (body : ℕ → σ → σ)
    (v : ℕ → β → β)
    (hown : ∀ i t, obs (body i t) i = v i (obs t i))
    (hother : ∀ i t j, j ≠ i → obs (body i t) j = obs t j) (s : σ) (j : ℕ) :
    obs (forLoop n body s) j = if j < n then v j (obs s j) else obs s j := by
  induction n with
  | zero => simp [forLoop]
  | succ n ih =>
    rw [forLoop_succ]
    by_cases hj : j = n
    · subst hj
      rw [hown, ih, if_neg (lt_irrefl _), if_pos (Nat.lt_succ_self _)]
    · rw [hother n _ j hj, ih]
      by_cases hlt : j < n
      · rw [if_pos hlt, if_pos (Nat.lt_succ_of_lt hlt)]
      · rw [if_neg hlt, if_neg (by omega)]

/-- Closed form of the regularised singular values. -/
theorem regularise_apply (nlp nsmall : ℕ) (r_cond : K) (s : ℕ → K) (i : ℕ) (hi : i < nlp) :
    regularise nlp nsmall r_cond s i
      = if nsmall ≤ i then 1
        else if s i > r_cond * s 0 then 1 / s i else 1 / (r_cond * s 0) := by
  unfold regularise
  dsimp only
  have h := forLoop_own_index (fun b : ℕ → K => b) nlp
    (fun i s' =>
      if i ≥ nsmall then
        Function.update
          (if s' i > r_cond * s 0 then Function.update s' i (1 / s' i)
            else Function.update s' i (1 / (r_cond * s 0))) i 1
      else
        (if s' i > r_cond * s 0 then Function.update s' i (1 / s' i)
          else Function.update s' i (1 / (r_cond * s 0))))
    (fun i a => if nsmall ≤ i then 1
        else if a > r_cond * s 0 then 1 / a else 1 / (r_cond * s 0))
    (by
      intro i t
      dsimp only
      by_cases h1 : i ≥ nsmall
      · rw [if_pos h1, if_pos h1, Function.update_same]
      · rw [if_neg h1, if_neg h1]
        by_cases h2 : t i > r_cond * s 0
        · rw [if_pos h2, if_pos h2, Function.update_same]
        · rw [if_neg h2, if_neg h2, Function.update_same])
    (by
      intro i t j hj
      dsimp only
      by_cases h1 : i ≥ nsmall
      · rw [if_pos h1, Function.update_noteq hj]
        by_cases h2 : t i > r_cond * s 0
        · rw [if_pos h2, Function.update_noteq hj]
        · rw [if_neg h2, Function.update_noteq hj]
      · rw [if_neg h1]
        by_cases h2 : t i > r_cond * s 0
        · rw [if_pos h2, Function.update_noteq hj]
        · rw [if_neg h2, Function.update_noteq hj])
    s i
  rw [if_pos hi] at h
  exact h

/-- C17 (singular-value regularisation).  With `maxS = s(0) > 0`, `r_cond > 0` and
`i < nlp`: the regularised entry is `1` if `i >= nsmall`; otherwise it is `1 / s(i)` when
`s(i) > r_cond * maxS` and `1 / (r_cond * maxS)` when `s(i) <= r_cond * maxS`; hence for
`i < nsmall` it is positive and at most `1 / (r_cond * maxS)`. -/
theorem regularise_entries (nlp nsmall : ℕ) (r_cond : K) (s : ℕ → K) (i : ℕ)
    (hmax : 0 < s 0) (hr : 0 < r_cond) (hi : i < nlp) :
    (nsmall ≤ i → regularise nlp nsmall r_cond s i = 1)
    ∧ (i < nsmall → r_cond * s 0 < s i → regularise nlp nsmall r_cond s i = 1 / s i)
    ∧ (i < nsmall → s i ≤ r_cond * s 0 →
        regularise nlp nsmall r_cond s i = 1 / (r_cond * s 0))
    ∧ (i < nsmall →
        0 < regularise nlp nsmall r_cond s i
        ∧ regularise nlp nsmall r_cond s i ≤ 1 / (r_cond * s 0)) := by
  have hpos : 0 < r_cond * s 0 := mul_pos hr hmax
  rw [regularise_apply nlp nsmall r_cond s i hi]
  refine ⟨fun h => if_pos h, fun h1 h2 => ?_, fun h1 h2 => ?_, fun h1 => ?_⟩
  · rw [if_neg (not_le.2 h1), if_pos h2]
  · rw [if_neg (not_le.2 h1), if_neg (not_lt.2 h2)]
  · rw [if_neg (not_le.2 h1)]
    by_cases h2 : s i > r_cond * s 0
    · rw [if_pos h2]
      have hsi : 0 < s i := lt_trans hpos h2
      exact ⟨one_div_pos.2 hsi, one_div_le_one_div_of_le hpos (le_of_lt h2)⟩
    · rw [if_neg h2]
      exact ⟨one_div_pos.2 hpos, le_refl _⟩

/-- The regularisation of the singular values `(4, 1/5, 3)` with `r_cond = 1/10` and
`nsmall = 2`, at entry `1`. -/
theorem regularise_entries_witness :
    (0 : ℚ) < 4 ∧ (0 : ℚ) < 1 / 10 ∧ 1 < 3
    ∧ ((2 ≤ 1 → regularise 3 2 (1 / 10 : ℚ)
            (fun i => if i = 0 then 4 else if i = 1 then 1 / 5 else 3) 1 = 1)
      ∧ (1 < 2 → (1 / 10 : ℚ) * 4 < 1 / 5 →
          regularise 3 2 (1 / 10 : ℚ)
            (fun i => if i = 0 then 4 else if i = 1 then 1 / 5 else 3) 1 = 1 / (1 / 5))
      ∧ (1 < 2 → (1 / 5 : ℚ) ≤ 1 / 10 * 4 →
          regularise 3 2 (1 / 10 : ℚ)
            (fun i => if i = 0 then 4 else if i = 1 then 1 / 5 else 3) 1 = 1 / (1 / 10 * 4))
      ∧ (1 < 2 →
          0 < regularise 3 2 (1 / 10 : ℚ)
            (fun i => if i = 0 then 4 else if i = 1 then 1 / 5 else 3) 1
          ∧ regularise 3 2 (1 / 10 : ℚ)
            (fun i => if i = 0 then 4 else if i = 1 then 1 / 5 else 3) 1 ≤ 1 / (1 / 10 * 4))) :=
  ⟨by norm_num, by norm_num, by decide,
    regularise_entries 3 2 (1 / 10 : ℚ)
      (fun i => if i = 0 then 4 else if i = 1 then 1 / 5 else 3) 1
      (by norm_num) (by norm_num) (by decide)⟩

/-! ## Marginalisation over the redshift distribution -/

/-- An accumulation loop `acc += g(it)` is the sum of the terms. -/
theorem forLoop_accumulate {M : Type} [AddCommMonoid M] (n : ℕ) (g : ℕ → M) (s : M) :
    forLoop n (fun it acc => acc + g it) s = s + ∑ it in range n, g it := by
  induction n with
  | zero => simp [forLoop]
  | succ n ih => rw [forLoop_succ, ih, Finset.sum_range_succ, add_assoc]

/-- The trapezoid fallback of `marginalise` (lines 870-881): when the support has positive
width and `qags` returns an error code, the result is `h/2` times the sum of
`f(x1) + f(x2)` over the subintervals `it = 0, ..., 1022`, with `h = (b - a) / 1024`. -/
theorem marginalise_fallback (N : numerics K) (redshift : redshift_distribution K) (z : ℕ)
    (hw : redshift.get_zmax ≠ redshift.get_zmin)
    (hfail : (N.qags (int_for_marginalisation redshift (N.interp_eval z))
      (max 0 redshift.get_zmin) (min ZMAX redshift.get_zmax) 0 (1 / 10000) 1024).1 ≠ 0) :
    marginalise N redshift z
      = (∑ it in range 1023,
          (int_for_marginalisation redshift (N.interp_eval z)
              ((it : K) * ((min ZMAX redshift.get_zmax - max 0 redshift.get_zmin) / 1024)
                + max 0 redshift.get_zmin)
            + int_for_marginalisation redshift (N.interp_eval z)
              (((it : K) + 1) * ((min ZMAX redshift.get_zmax - max 0 redshift.get_zmin) / 1024)
                + max 0 redshift.get_zmin)))
        * ((min ZMAX redshift.get_zmax - max 0 redshift.get_zmin) / 1024 / 2) := by
  unfold marginalise
  rw [if_neg hw]
  dsimp only
  rw [if_pos hfail, forLoop_accumulate, zero_add]
  norm_num

/-- C16 (trapezoid fallback), evaluated where the adaptive quadrature fails, for the uniform
redshift distribution on `[0, 1]` and a constant efficiency `E_z = 1`, so that the integrand
is the constant `1` and `a = 0`, `b = 1`: the code returns `1023/1024`, while the composite
trapezoid rule over all `1024` subintervals gives `c * (b - a) = 1`.  The loop
`for (it = 0; it < n - 1; it++)` visits `1023` subintervals only. -/
theorem trapezoid_fallback_misses_last_interval :
    marginalise failing_numerics flat_redshift 0 = 1023 / 1024
    ∧ trapezoid_1024 (int_for_marginalisation flat_redshift (failing_numerics.interp_eval 0))
        (max 0 flat_redshift.get_zmin) (min ZMAX flat_redshift.get_zmax) = 1
    ∧ marginalise failing_numerics flat_redshift 0
        ≠ trapezoid_1024 (int_for_marginalisation flat_redshift (failing_numerics.interp_eval 0))
            (max 0 flat_redshift.get_zmin) (min ZMAX flat_redshift.get_zmax) := by
  have h1 : marginalise failing_numerics flat_redshift 0 = 1023 / 1024 := by
    rw [marginalise_fallback failing_numerics flat_redshift 0
      (by norm_num [flat_redshift]) (by simp [failing_numerics])]
    simp [int_for_marginalisation, flat_redshift, failing_numerics, ZMAX]
    norm_num
  have h2 : trapezoid_1024
      (int_for_marginalisation flat_redshift (failing_numerics.interp_eval 0))
      (max 0 flat_redshift.get_zmin) (min ZMAX flat_redshift.get_zmax) = 1 := by
    simp [trapezoid_1024, int_for_marginalisation, flat_redshift, failing_numerics, ZMAX]
    norm_num
  refine ⟨h1, h2, ?_⟩
  rw [h1, h2]
  norm_num

/-- The spectroscopic shortcut of `marginalise` (lines 862-863): for a zero-width support the
result is the integrand `pdf * E_z` at the point redshift. -/
theorem marginalise_point (N : numerics K) (redshift : redshift_distribution K) (z : ℕ)
    (hw : redshift.get_zmax = redshift.get_zmin) :
    marginalise N redshift z
      = redshift.pdf redshift.get_zmin * N.interp_eval z redshift.get_zmin := by
  unfold marginalise
  rw [if_pos hw, hw]
  have h : 1 / 2 * (redshift.get_zmin + redshift.get_zmin) = redshift.get_zmin := by ring
  rw [h]
  rfl

/-- C18, counterexample: two zero-width redshift distributions at the same point `z0 = 2`,
one with `pdf = 1` and one with `pdf = 2`, on a field with two planes whose efficiency is
`E_z(z0) = z0`: the kernel entries are `2` and `4`; the second one is not `max(E_z(z0), 0)`
and the entry depends on the value of `pdf`. -/
theorem spectroscopic_entry_depends_on_pdf :
    (compute_3D_lensing_kernel example_numerics (example_field 2 false (-1))
        (fun _ => point_redshift 1)).lensKernelTrue (0 * 2 + 1) = 2
    ∧ (compute_3D_lensing_kernel example_numerics (example_field 2 false (-1))
        (fun _ => point_redshift 2)).lensKernelTrue (0 * 2 + 1) = 4
    ∧ max (example_numerics.interp_eval 1 (point_redshift 2).get_zmin) 0 = 2 := by
  have h1 := compute_3D_lensKernelTrue example_numerics (example_field 2 false (-1))
    (fun _ => point_redshift 1) 0 1 (by decide) (by decide)
  have h2 := compute_3D_lensKernelTrue example_numerics (example_field 2 false (-1))
    (fun _ => point_redshift 2) 0 1 (by decide) (by decide)
  rw [marginalise_point _ _ _ rfl] at h1 h2
  refine ⟨h1.trans ?_, h2.trans ?_, ?_⟩
  · norm_num [point_redshift, example_numerics]
  · norm_num [point_redshift, example_numerics]
  · norm_num [point_redshift, example_numerics]

/-- C18 as amended (`compute_3D_lensing_kernel`).  For a galaxy `i < ngal` whose redshift
distribution has `zmin == zmax = z0` and every plane `z < nlp`, the un-preconditioned kernel
entry is `max(pdf(z0) * E_z(z0), 0)`; it equals `max(E_z(z0), 0)` when `pdf(z0) = 1`. -/
theorem spectroscopic_kernel_entry (N : numerics K) (F : field K)
    (redshift : ℕ → redshift_distribution K) (i z : ℕ) (hi : i < F.ngal) (hz : z < F.nlp)
    (hw : (redshift i).get_zmax = (redshift i).get_zmin) :
    (compute_3D_lensing_kernel N F redshift).lensKernelTrue (i * F.nlp + z)
        = max ((redshift i).pdf (redshift i).get_zmin
                * N.interp_eval z (redshift i).get_zmin) 0
    ∧ ((redshift i).pdf (redshift i).get_zmin = 1 →
        (compute_3D_lensing_kernel N F redshift).lensKernelTrue (i * F.nlp + z)
          = max (N.interp_eval z (redshift i).get_zmin) 0) := by
  rw [compute_3D_lensKernelTrue N F redshift i z hi hz, marginalise_point N (redshift i) z hw]
  refine ⟨rfl, fun h => ?_⟩
  rw [h, one_mul]

/-- The amended spectroscopic entry for plane 1 of a concrete two-plane field. -/
theorem spectroscopic_kernel_entry_witness :
    0 < 1 ∧ 1 < 2 ∧ (point_redshift 1).get_zmax = (point_redshift 1).get_zmin
    ∧ ((compute_3D_lensing_kernel example_numerics (example_field 2 false (-1))
          (fun _ => point_redshift 1)).lensKernelTrue (0 * 2 + 1)
        = max ((point_redshift 1).pdf (point_redshift 1).get_zmin
                * example_numerics.interp_eval 1 (point_redshift 1).get_zmin) 0
      ∧ ((point_redshift 1).pdf (point_redshift 1).get_zmin = 1 →
          (compute_3D_lensing_kernel example_numerics (example_field 2 false (-1))
            (fun _ => point_redshift 1)).lensKernelTrue (0 * 2 + 1)
          = max (example_numerics.interp_eval 1 (point_redshift 1).get_zmin) 0)) :=
  ⟨by decide, by decide, rfl,
    spectroscopic_kernel_entry example_numerics (example_field 2 false (-1))
      (fun _ => point_redshift 1) 0 1 (by decide) (by decide) rfl⟩

/-! ## Unit-weight mode -/

/-- The unit-weight branch of the constructor does not write `lensKernelTrue`: the array
keeps the content it had when it was allocated. -/
theorem init_lensing_kernel_unit_true (N : numerics K) (F : field K)
    (redshift : ℕ → redshift_distribution K) (hnlp : F.nlp = 1) (hz : F.zlens ≤ 0) :
    (init_lensing_kernel N F redshift).lensKernelTrue = F.lensKernelTrue := by
  unfold init_lensing_kernel
  rw [if_pos hnlp]
  dsimp only
  rw [if_pos hz]

set_option maxHeartbeats 4000000 in
set_option maxRecDepth 100000 in
/-- C20 (unit-weight mode), evaluated for `nlp = 1`, `zlens = -1` and one galaxy, when the
memory allocated for `lensKernelTrue` holds `7`: after construction `lensKernel[0] = 1` but
`lensKernelTrue[0] = 7`, and `update_covariance` on the spectral field whose only non-zero
coefficient is `delta[1] = (26/5, 0)` computes `res_conv[0] = 91/10`, seven times the value
`13/10` that a unit kernel gives. -/
theorem unit_weight_true_kernel_unset :
    (init_lensing_kernel example_numerics stale_kernel_field
        (fun _ => negative_redshift)).lensKernel 0 = 1
    ∧ (init_lensing_kernel example_numerics stale_kernel_field
        (fun _ => negative_redshift)).lensKernelTrue 0 = 7
    ∧ (update_covariance (init_lensing_kernel example_numerics stale_kernel_field
          (fun _ => negative_redshift))
        (fun p => if p = 1 then (26 / 5, 0) else (0, 0))).res_conv 0 = 91 / 10 := by
  have hz : stale_kernel_field.zlens ≤ 0 := by norm_num [stale_kernel_field, example_field]
  refine ⟨?_, ?_, ?_⟩
  · exact (init_lensing_kernel_unit example_numerics stale_kernel_field
      (fun _ => negative_redshift) rfl hz).1 0 (by decide)
  · rw [init_lensing_kernel_unit_true example_numerics stale_kernel_field
      (fun _ => negative_redshift) rfl hz]
    rfl
  · simp [update_covariance, convergence_at_galaxies, combine_components, spectral_gather,
      nfft_trafo_2d, forLoop, List.range_succ, Finset.sum_range_succ, Function.update_apply,
      kshift, kfreq, field.fftFactor, example_field, stale_kernel_field, init_lensing_kernel]
    norm_num

/-! ## Kernel used by the adjoint operator -/

set_option maxHeartbeats 4000000 in
set_option maxRecDepth 100000 in
/-- The kernels that the constructor leaves in `tomographic_field`: the un-preconditioned
`lensKernelTrue = [3, 4]` and the preconditioned `lensKernel = [3/5, 4/5]`. -/
theorem tomographic_field_kernels :
    tomographic_field.lensKernelTrue (0 * 2 + 0) = 3
    ∧ tomographic_field.lensKernelTrue (0 * 2 + 1) = 4
    ∧ tomographic_field.lensKernel (0 * 2 + 0) = 3 / 5
    ∧ tomographic_field.lensKernel (0 * 2 + 1) = 4 / 5 := by
  refine ⟨?_, ?_, ?_, ?_⟩
  · simp [tomographic_field, init_lensing_kernel, compute_3D_lensing_kernel, marginalise,
      int_for_marginalisation, regularise, mat_mul, diagmat, mat_t, forLoop, List.range_succ,
      Finset.sum_range_succ, Function.update_apply, pythagorean_numerics, example_numerics,
      point_redshift, example_field]
  · simp [tomographic_field, init_lensing_kernel, compute_3D_lensing_kernel, marginalise,
      int_for_marginalisation, regularise, mat_mul, diagmat, mat_t, forLoop, List.range_succ,
      Finset.sum_range_succ, Function.update_apply, pythagorean_numerics, example_numerics,
      point_redshift, example_field]
  · simp [tomographic_field, init_lensing_kernel, compute_3D_lensing_kernel, marginalise,
      int_for_marginalisation, regularise, mat_mul, diagmat, mat_t, forLoop, List.range_succ,
      Finset.sum_range_succ, Function.update_apply, pythagorean_numerics, example_numerics,
      point_redshift, example_field]
    norm_num
  · simp [tomographic_field, init_lensing_kernel, compute_3D_lensing_kernel, marginalise,
      int_for_marginalisation, regularise, mat_mul, diagmat, mat_t, forLoop, List.range_succ,
      Finset.sum_range_succ, Function.update_apply, pythagorean_numerics, example_numerics,
      point_redshift, example_field]
    norm_num

set_option maxHeartbeats 4000000 in
set_option maxRecDepth 100000 in
/-- C15 (kernel of the adjoint), evaluated through `gradient_noise` (which calls
`adjoint_operator(delta, false)`) on the state `tomographic_field` that the constructor builds
in tomographic mode: two planes, a `2 x 2` grid with flexion, one galaxy with
`lensKernelTrue = [3, 4]`, `lensKernel = [3/5, 4/5]`, `cov = w_f = 1`, `flexion_f1 = 1`, and
drawn angles `0` (cosine `1`, sine `0`; the square root is only taken of `cov = 1`, where it
is the identity).  The flexion residual is `res_f1 = 1`; on plane `0` it is scattered into
`ps[0]->f[0]` as `(3/5, 0)` and on plane `1` into `ps[1]->f[0]` as `(4/5, 0)`, that is
multiplied by `lensKernel`, not by `lensKernelTrue` (which would give `(3, 0)` and `(4, 0)`),
and the flexion block of the result holds `(3/5, 0)` at the first coefficient of plane `0`. -/
theorem adjoint_flexion_ignores_kernel_choice :
    (gradient_noise (fun c => c) tomographic_field (fun _ => 1) (fun _ => 0) (fun _ => 1)
        (fun _ => 0) (fun _ => (0, 0))).1.res_f1 0 = 1
    ∧ ((gradient_noise (fun c => c) tomographic_field (fun _ => 1) (fun _ => 0) (fun _ => 1)
        (fun _ => 0) (fun _ => (0, 0))).1.ps 0).f 0 = (3 / 5, 0)
    ∧ ((gradient_noise (fun c => c) tomographic_field (fun _ => 1) (fun _ => 0) (fun _ => 1)
        (fun _ => 0) (fun _ => (0, 0))).1.ps 1).f 0 = (4 / 5, 0)
    ∧ (gradient_noise (fun c => c) tomographic_field (fun _ => 1) (fun _ => 0) (fun _ => 1)
        (fun _ => 0) (fun _ => (0, 0))).2 (2 * 2 * 2 + 0) = (3 / 5, 0)
    ∧ tomographic_field.lensKernelTrue (0 * 2 + 0) = 3
    ∧ tomographic_field.lensKernelTrue (0 * 2 + 1) = 4 := by
  obtain ⟨h1, h2, h3, h4⟩ := tomographic_field_kernels
  have hn : tomographic_field.npix = 2 := rfl
  have hl : tomographic_field.nlp = 2 := rfl
  have hg : tomographic_field.ngal = 1 := rfl
  have hfl : tomographic_field.include_flexion = true := rfl
  have hcov : tomographic_field.cov = fun _ => 1 := rfl
  have hwf : tomographic_field.w_f = fun _ => 1 := rfl
  have hf1 : tomographic_field.flexion_f1 = fun _ => 1 := rfl
  have hf2 : tomographic_field.flexion_f2 = fun _ => 0 := rfl
  have hE : tomographic_field.nfft = fun _ _ _ => (1, 0) := rfl
  have hff : tomographic_field.freqFactor = 1 := rfl
  have hwe : tomographic_field.w_e = fun _ => 1 := rfl
  have hs1 : tomographic_field.shear_gamma1 = fun _ => 0 := rfl
  have hs2 : tomographic_field.shear_gamma2 = fun _ => 0 := rfl
  simp only [Nat.zero_mul, Nat.zero_add] at h1 h2 h3 h4
  refine ⟨?_, ?_, ?_, ?_, ?_, ?_⟩
  · simp [gradient_noise, adjoint_operator, adjoint_plane, forLoop, List.range_succ,
      Function.update_apply, hn, hl, hg, hfl, hcov, hwf, hf1, hf2]
  · simp [gradient_noise, adjoint_operator, adjoint_plane, scatter_residuals, nfft_adjoint_2d,
      forLoop, List.range_succ, Finset.sum_range_succ, Function.update_apply,
      hn, hl, hg, hfl, hcov, hwf, hf1, hf2, hE, h3]
  · simp [gradient_noise, adjoint_operator, adjoint_plane, scatter_residuals, nfft_adjoint_2d,
      forLoop, List.range_succ, Finset.sum_range_succ, Function.update_apply,
      hn, hl, hg, hfl, hcov, hwf, hf1, hf2, hE, h4]
  · simp [gradient_noise, adjoint_operator, adjoint_plane, scatter_residuals, nfft_adjoint_2d,
      gamma_to_kappa, spectral_scatter, forLoop, List.range_succ, Finset.sum_range_succ,
      Function.update_apply, kshift, kfreq, hn, hl, hg, hfl, hcov, hwf, hf1, hf2, hE, hff, hwe,
      hs1, hs2, h3, h4]
  · simpa using h1
  · simpa using h2

/-! ## Gradient of a zero field with zero data -/

/-- A property kept by every iteration of a loop holds after the loop. -/
theorem forLoop_pred_inv {σ : Type} (P : σ → Prop) (n : ℕ) (body : ℕ → σ → σ) (s : σ)
    (h : ∀ i, i < n → ∀ t, P t → P (body i t)) (hs : P s) : P (forLoop n body s) := by
  induction n with
  | zero => simpa [forLoop] using hs
  | succ n ih =>
    rw [forLoop_succ]
    exact h n (Nat.lt_succ_self n) _ (ih (fun i hi => h i (Nat.lt_succ_of_lt hi)))

/-- The residual loops of `gradient`, `gradient_noise` and `get_spectral_norm`: iteration `i`
rewrites entry `i` of the shear residuals, and of the flexion residuals when flexion is
enabled, from its own old value. -/
theorem residual_update_loop (G : ℕ) (fl : Bool) (v1 v2 v3 v4 : ℕ → K → K)
    (r0 : ((ℕ → K) × (ℕ → K)) × ((ℕ → K) × (ℕ → K))) (j : ℕ) (hj : j < G) :
    (forLoop G (fun i (r : ((ℕ → K) × (ℕ → K)) × ((ℕ → K) × (ℕ → K))) =>
        if fl = true then
          ((Function.update r.1.1 i (v1 i (r.1.1 i)), Function.update r.1.2 i (v2 i (r.1.2 i))),
           (Function.update r.2.1 i (v3 i (r.2.1 i)), Function.update r.2.2 i (v4 i (r.2.2 i))))
        else
          ((Function.update r.1.1 i (v1 i (r.1.1 i)), Function.update r.1.2 i (v2 i (r.1.2 i))),
           r.2)) r0).1.1 j = v1 j (r0.1.1 j)
    ∧ (forLoop G (fun i (r : ((ℕ → K) × (ℕ → K)) × ((ℕ → K) × (ℕ → K))) =>
        if fl = true then
          ((Function.update r.1.1 i (v1 i (r.1.1 i)), Function.update r.1.2 i (v2 i (r.1.2 i))),
           (Function.update r.2.1 i (v3 i (r.2.1 i)), Function.update r.2.2 i (v4 i (r.2.2 i))))
        else
          ((Function.update r.1.1 i (v1 i (r.1.1 i)), Function.update r.1.2 i (v2 i (r.1.2 i))),
           r.2)) r0).1.2 j = v2 j (r0.1.2 j) := by
  constructor
  · have h := forLoop_own_index
      (fun (r : ((ℕ → K) × (ℕ → K)) × ((ℕ → K) × (ℕ → K))) => r.1.1) G
      (fun i (r : ((ℕ → K) × (ℕ → K)) × ((ℕ → K) × (ℕ → K))) =>
        if fl = true then
          ((Function.update r.1.1 i (v1 i (r.1.1 i)), Function.update r.1.2 i (v2 i (r.1.2 i))),
           (Function.update r.2.1 i (v3 i (r.2.1 i)), Function.update r.2.2 i (v4 i (r.2.2 i))))
        else
          ((Function.update r.1.1 i (v1 i (r.1.1 i)), Function.update r.1.2 i (v2 i (r.1.2 i))),
           r.2)) v1
      (by intro i t; cases fl <;> simp)
      (by intro i t k hk; cases fl <;> simp [Function.update_noteq hk]) r0 j
    rw [if_pos hj] at h
    exact h
  · have h := forLoop_own_index
      (fun (r : ((ℕ → K) × (ℕ → K)) × ((ℕ → K) × (ℕ → K))) => r.1.2) G
      (fun i (r : ((ℕ → K) × (ℕ → K)) × ((ℕ → K) × (ℕ → K))) =>
        if fl = true then
          ((Function.update r.1.1 i (v1 i (r.1.1 i)), Function.update r.1.2 i (v2 i (r.1.2 i))),
           (Function.update r.2.1 i (v3 i (r.2.1 i)), Function.update r.2.2 i (v4 i (r.2.2 i))))
        else
          ((Function.update r.1.1 i (v1 i (r.1.1 i)), Function.update r.1.2 i (v2 i (r.1.2 i))),
           r.2)) v2
      (by intro i t; cases fl <;> simp)
      (by intro i t k hk; cases fl <;> simp [Function.update_noteq hk]) r0 j
    rw [if_pos hj] at h
    exact h

/-- The closed form of the shear coefficient of the zero field is zero. -/
theorem gamma_hat_zero (n : ℕ) (ff : K) (z y x : ℕ) :
    gamma_hat n ff (fun _ => ((0 : K), (0 : K))) z y x = (0, 0) := by
  unfold gamma_hat
  split_ifs <;> simp

/-- The NFFT of the zero grid is zero at every galaxy. -/
theorem trafo_at_zero (E : ℕ → ℕ → Cplx K) (n : ℕ) (fh : ℕ → ℕ → Cplx K) (i : ℕ)
    (h : ∀ y x, fh y x = (0, 0)) : trafo_at E n fh i = (0, 0) := by
  unfold trafo_at
  simp [h]

/-- The adjoint NFFT of zero residuals is zero. -/
theorem adj_hat_zero (E : ℕ → ℕ → Cplx K) (G L z : ℕ) (q r1 r2 : ℕ → K) (k : ℕ)
    (h1 : ∀ j, j < G → r1 j = 0) (h2 : ∀ j, j < G → r2 j = 0) :
    adj_hat E G L z q r1 r2 k = (0, 0) := by
  rw [adj_hat_congr E G L z q r1 r2 (fun _ => 0) (fun _ => 0) k h1 h2]
  unfold adj_hat
  simp

/-- The forward operator (shear only) maps the zero field to zero shear at every galaxy. -/
theorem forward_operator_zero (F : field K) (hfl : F.include_flexion = false) (i : ℕ)
    (hi : i < F.ngal) :
    (forward_operator F (fun _ => ((0 : K), (0 : K)))).res_gamma1 i = 0
    ∧ (forward_operator F (fun _ => ((0 : K), (0 : K)))).res_gamma2 i = 0 := by
  rw [forward_operator_shear_only F _ hfl]
  have hz : ∀ z, trafo_at (F.nfft z) F.npix
      (gamma_hat F.npix F.freqFactor (fun _ => ((0 : K), (0 : K))) z) i = (0, 0) :=
    fun z => trafo_at_zero _ _ _ _ (fun y x => gamma_hat_zero _ _ z y x)
  constructor
  · show (forward_shear F _).res_gamma1 i = 0
    rw [forward_shear_res1 F _ i hi]
    refine Finset.sum_eq_zero (fun z _ => ?_)
    rw [hz z]
    simp
  · show (forward_shear F _).res_gamma2 i = 0
    rw [forward_shear_res2 F _ i hi]
    refine Finset.sum_eq_zero (fun z _ => ?_)
    rw [hz z]
    simp

/-- The loops gamma-to-kappa write zeros when the transformed residuals are zero. -/
theorem gamma_to_kappa_zero (n : ℕ) (ff : K) (z : ℕ) (fh d : ℕ → Cplx K)
    (hfh : ∀ k, fh k = (0, 0)) (hd : ∀ p, d p = (0, 0)) (p : ℕ) :
    gamma_to_kappa n ff z fh d p = (0, 0) := by
  unfold gamma_to_kappa
  refine forLoop_pred_inv (fun t : ℕ → Cplx K => ∀ p, t p = (0, 0)) n _ d ?_ hd p
  intro y _ t ht
  refine forLoop_pred_inv (fun t : ℕ → Cplx K => ∀ p, t p = (0, 0)) n _ t ?_ ht
  intro x _ t ht q
  dsimp only
  split_ifs
  · exact ht q
  · rw [Function.update_apply]
    split_ifs
    · simp [hfh]
    · exact ht q

/-- With flexion disabled, the adjoint operator maps zero shear residuals and a zero buffer
to the zero spectral field, for both kernels. -/
theorem adjoint_operator_zero (F : field K) (pre : Bool) (hfl : F.include_flexion = false)
    (h1 : ∀ j, j < F.ngal → F.res_gamma1 j = 0) (h2 : ∀ j, j < F.ngal → F.res_gamma2 j = 0)
    (p : ℕ) :
    (adjoint_operator F (fun _ => ((0 : K), (0 : K))) pre).2 p = (0, 0) := by
  unfold adjoint_operator
  dsimp only
  refine forLoop_pred_inv
    (fun st : (ℕ → nfft_plan K) × (ℕ → Cplx K) => ∀ p, st.2 p = (0, 0)) F.nlp _ _ ?_
    (fun _ => rfl) p
  intro z _ st hst q
  rw [adjoint_plane_snd, if_neg (by rw [hfl]; decide), Function.update_apply]
  by_cases hq : q = z * (F.npix * F.npix)
  · rw [if_pos hq]
  · rw [if_neg hq]
    exact gamma_to_kappa_zero _ _ _ _ _
      (fun k => adj_hat_zero _ _ _ _ _ _ _ k h1 h2) hst q

/-- C12 (zero data, zero field).  With flexion disabled, if the observed shear
`(gamma1, gamma2)` of every galaxy is `0`, then `gradient` applied to the all-zero spectral
field leaves the all-zero spectral field in `delta`, for every shear weight, covariance
factor, kernel and NFFT matrix (and every grid size and pixel frequency). -/
theorem gradient_zero (F : field K) (hfl : F.include_flexion = false)
    (hdata : ∀ i, i < F.ngal → F.shear_gamma1 i = 0 ∧ F.shear_gamma2 i = 0) (p : ℕ) :
    (gradient F (fun _ => ((0 : K), (0 : K)))).2 p = (0, 0) := by
  unfold gradient
  dsimp only
  refine adjoint_operator_zero _ true ?_ ?_ ?_ p
  · rw [forward_operator_shear_only F _ hfl]
    exact hfl
  · intro j hj
    have hj' : j < F.ngal := by
      rw [forward_operator_shear_only F _ hfl] at hj
      exact hj
    have h := (residual_update_loop F.ngal F.include_flexion
      (fun i a => F.cov i * F.w_e i
        * (max (1 - (forward_operator F (fun _ => ((0 : K), (0 : K)))).res_conv i) 0
            * F.shear_gamma1 i - a))
      (fun i a => F.cov i * F.w_e i
        * (max (1 - (forward_operator F (fun _ => ((0 : K), (0 : K)))).res_conv i) 0
            * F.shear_gamma2 i - a))
      (fun i a => F.cov i * F.w_f i
        * (max (1 - (forward_operator F (fun _ => ((0 : K), (0 : K)))).res_conv i) 0
            * F.flexion_f1 i - a))
      (fun i a => F.cov i * F.w_f i
        * (max (1 - (forward_operator F (fun _ => ((0 : K), (0 : K)))).res_conv i) 0
            * F.flexion_f2 i - a))
      (((forward_operator F (fun _ => ((0 : K), (0 : K)))).res_gamma1,
        (forward_operator F (fun _ => ((0 : K), (0 : K)))).res_gamma2),
       ((forward_operator F (fun _ => ((0 : K), (0 : K)))).res_f1,
        (forward_operator F (fun _ => ((0 : K), (0 : K)))).res_f2)) j hj').1
    refine Eq.trans ?_ (h.trans ?_)
    · rfl
    · dsimp only
      rw [(forward_operator_zero F hfl j hj').1, (hdata j hj').1]
      ring
  · intro j hj
    have hj' : j < F.ngal := by
      rw [forward_operator_shear_only F _ hfl] at hj
      exact hj
    have h := (residual_update_loop F.ngal F.include_flexion
      (fun i a => F.cov i * F.w_e i
        * (max (1 - (forward_operator F (fun _ => ((0 : K), (0 : K)))).res_conv i) 0
            * F.shear_gamma1 i - a))
      (fun i a => F.cov i * F.w_e i
        * (max (1 - (forward_operator F (fun _ => ((0 : K), (0 : K)))).res_conv i) 0
            * F.shear_gamma2 i - a))
      (fun i a => F.cov i * F.w_f i
        * (max (1 - (forward_operator F (fun _ => ((0 : K), (0 : K)))).res_conv i) 0
            * F.flexion_f1 i - a))
      (fun i a => F.cov i * F.w_f i
        * (max (1 - (forward_operator F (fun _ => ((0 : K), (0 : K)))).res_conv i) 0
            * F.flexion_f2 i - a))
      (((forward_operator F (fun _ => ((0 : K), (0 : K)))).res_gamma1,
        (forward_operator F (fun _ => ((0 : K), (0 : K)))).res_gamma2),
       ((forward_operator F (fun _ => ((0 : K), (0 : K)))).res_f1,
        (forward_operator F (fun _ => ((0 : K), (0 : K)))).res_f2)) j hj').2
    refine Eq.trans ?_ (h.trans ?_)
    · rfl
    · dsimp only
      rw [(forward_operator_zero F hfl j hj').2, (hdata j hj').2]
      ring

/-- The gradient of the zero field on a concrete `2 x 2` field without measured shear. -/
theorem gradient_zero_witness :
    (example_field 1 false (-1)).include_flexion = false
    ∧ (∀ i, i < (example_field 1 false (-1)).ngal →
        (example_field 1 false (-1)).shear_gamma1 i = 0
        ∧ (example_field 1 false (-1)).shear_gamma2 i = 0)
    ∧ (gradient (example_field 1 false (-1)) (fun _ => ((0 : ℚ), (0 : ℚ)))).2 3 = (0, 0) :=
  ⟨rfl, fun _ _ => ⟨rfl, rfl⟩,
    gradient_zero (example_field 1 false (-1)) rfl (fun _ _ => ⟨rfl, rfl⟩) 3⟩

/-! ## The operator iterated by `get_spectral_norm` -/

/-- The closed form of the NFFT depends on the grid coefficients only. -/
theorem trafo_at_congr (E : ℕ → ℕ → Cplx K) (n : ℕ) (fh fh' : ℕ → ℕ → Cplx K) (i : ℕ)
    (h : ∀ y x, y < n → x < n → fh y x = fh' y x) : trafo_at E n fh i = trafo_at E n fh' i := by
  unfold trafo_at
  refine Prod.ext ?_ ?_
  · dsimp only
    refine Finset.sum_congr rfl (fun y hy => Finset.sum_congr rfl (fun x hx => ?_))
    rw [h y x (mem_range.mp hy) (mem_range.mp hx)]
  · dsimp only
    refine Finset.sum_congr rfl (fun y hy => Finset.sum_congr rfl (fun x hx => ?_))
    rw [h y x (mem_range.mp hy) (mem_range.mp hx)]

/-- With flexion disabled, the shear coefficients of `combine_components(kap)` are those of
`kap`: the only coefficient that may differ is the zero frequency, which is not read. -/
theorem gamma_hat_combine (F : field K) (kap kap_tmp : ℕ → Cplx K) (z y x : ℕ)
    (hfl : F.include_flexion = false) (hn : Even F.npix) (hff : F.freqFactor ≠ 0)
    (hz : z < F.nlp) (hy : y < F.npix) (hx : x < F.npix) :
    gamma_hat F.npix F.freqFactor (combine_components F kap kap_tmp) z y x
      = gamma_hat F.npix F.freqFactor kap z y x := by
  unfold gamma_hat
  by_cases h0 : kfreq F.npix F.freqFactor x = 0 ∧ kfreq F.npix F.freqFactor y = 0
  · rw [if_pos h0, if_pos h0]
  · rw [if_neg h0, if_neg h0]
    have hnz : ¬ (x = F.npix / 2 ∧ y = F.npix / 2) := by
      intro h
      exact h0 ⟨(kfreq_eq_zero_iff F.npix F.freqFactor hff x).2 h.1,
        (kfreq_eq_zero_iff F.npix F.freqFactor hff y).2 h.2⟩
    have hp := not_zero_frequency F.npix z y x hn hy hx hnz
    rw [combine_components_apply F kap kap_tmp z y x hn hz hy hx hp,
      if_neg (by rw [hfl]; decide)]

/-- With flexion disabled, `forward_operator(combine_components(kap))` leaves the closed form
`forward_closed` in the shear residuals. -/
theorem forward_combined (F : field K) (kap kap_tmp : ℕ → Cplx K) (i : ℕ)
    (hfl : F.include_flexion = false) (hn : Even F.npix) (hff : F.freqFactor ≠ 0)
    (hi : i < F.ngal) :
    (forward_operator F (combine_components F kap kap_tmp)).res_gamma1 i
        = (forward_closed F kap i).1
    ∧ (forward_operator F (combine_components F kap kap_tmp)).res_gamma2 i
        = (forward_closed F kap i).2 := by
  rw [forward_operator_shear_only F _ hfl]
  have hc : ∀ z, z ∈ range F.nlp →
      trafo_at (F.nfft z) F.npix
          (gamma_hat F.npix F.freqFactor (combine_components F kap kap_tmp) z) i
        = trafo_at (F.nfft z) F.npix (gamma_hat F.npix F.freqFactor kap z) i := by
    intro z hz
    exact trafo_at_congr _ _ _ _ i
      (fun y x hy hx => gamma_hat_combine F kap kap_tmp z y x hfl hn hff (mem_range.mp hz) hy hx)
  constructor
  · show (forward_shear F _).res_gamma1 i = _
    rw [forward_shear_res1 F _ i hi]
    unfold forward_closed
    dsimp only
    refine Finset.sum_congr rfl (fun z hz => ?_)
    rw [hc z hz]
  · show (forward_shear F _).res_gamma2 i = _
    rw [forward_shear_res2 F _ i hi]
    unfold forward_closed
    dsimp only
    refine Finset.sum_congr rfl (fun z hz => ?_)
    rw [hc z hz]

/-- One pass of the loop of `get_spectral_norm`, flexion disabled: `kap[pos]` holds the closed
form `normal_closed` at every grid point. -/
theorem apply_normal_operator_kap (F : field K) (kap kap_tmp : ℕ → Cplx K) (z y x : ℕ)
    (hfl : F.include_flexion = false) (hn : Even F.npix) (hff : F.freqFactor ≠ 0)
    (hz : z < F.nlp) (hy : y < F.npix) (hx : x < F.npix) :
    (apply_normal_operator F kap kap_tmp).2.1 (spos F.npix z y x)
      = normal_closed F kap z y x := by
  have hr := residual_update_loop F.ngal F.include_flexion
      (fun i a => F.cov i * F.w_e i * a) (fun i a => F.cov i * F.w_e i * a)
      (fun i a => F.cov i * F.w_f i * a) (fun i a => F.cov i * F.w_f i * a)
      (((forward_operator F (combine_components F kap kap_tmp)).res_gamma1,
        (forward_operator F (combine_components F kap kap_tmp)).res_gamma2),
       ((forward_operator F (combine_components F kap kap_tmp)).res_f1,
        (forward_operator F (combine_components F kap kap_tmp)).res_f2))
  have hf := forward_combined F kap kap_tmp
  unfold apply_normal_operator
  dsimp only
  rw [combine_components_inverse_apply F _ kap z y x hn hz hy hx]
  unfold normal_closed
  rw [← adj_hat_congr (F.nfft z) F.ngal F.nlp z F.lensKernel _ _ _ _ (y * F.npix + x)
    (fun j hj => ((hr j hj).1.trans (by dsimp only; rw [(hf j hfl hn hff hj).1])))
    (fun j hj => ((hr j hj).2.trans (by dsimp only; rw [(hf j hfl hn hff hj).2])))]
  rw [forward_operator_shear_only F _ hfl]
  exact adjoint_operator_shear _ _ true z y x hn hff hz hy hx

/-- One pass of the loop of `get_spectral_norm` changes no member that the operators read. -/
theorem apply_normal_operator_setup (F : field K) (kap kap_tmp : ℕ → Cplx K)
    (hfl : F.include_flexion = false) :
    same_setup (apply_normal_operator F kap kap_tmp).1 F := by
  unfold apply_normal_operator
  dsimp only
  rw [forward_operator_shear_only F _ hfl]
  exact ⟨rfl, rfl, rfl, rfl, rfl, rfl, rfl, rfl, rfl⟩

/-- The closed forms only depend on the members that the operators read. -/
theorem normal_closed_congr (F G : field K) (h : same_setup F G) (a : ℕ → Cplx K)
    (z y x : ℕ) : normal_closed F a z y x = normal_closed G a z y x := by
  obtain ⟨h1, h2, h3, _, h5, h6, h7, h8, h9⟩ := h
  unfold normal_closed forward_closed field.fftFactor
  rw [h1, h2, h3, h5, h6, h7, h8, h9]

/-- The number of coefficients only depends on the members that the operators read. -/
theorem ncoeff_congr (F G : field K) (h : same_setup F G) : ncoeff F = ncoeff G := by
  obtain ⟨h1, h2, _, h4, _⟩ := h
  unfold ncoeff
  rw [h1, h2, h4]

/-- The operator iterated by `get_spectral_norm` is symmetric for the real inner product
of spectral fields, on grid coordinates. -/
theorem normal_closed_symm (F : field K) (a b : ℕ → Cplx K) (h0 : 0 < F.npix) :
    ∑ z in range F.nlp, ∑ y in range F.npix, ∑ x in range F.npix,
      ((b (spos F.npix z y x)).1 * (normal_closed F a z y x).1
        + (b (spos F.npix z y x)).2 * (normal_closed F a z y x).2)
    = ∑ z in range F.nlp, ∑ y in range F.npix, ∑ x in range F.npix,
      ((a (spos F.npix z y x)).1 * (normal_closed F b z y x).1
        + (a (spos F.npix z y x)).2 * (normal_closed F b z y x).2) := by
  have hc : F.fftFactor ≠ 0 := by
    unfold field.fftFactor
    have : (F.npix : K) ≠ 0 := Nat.cast_ne_zero.2 (Nat.pos_iff_ne_zero.1 h0)
    exact one_div_ne_zero (mul_ne_zero this this)
  have key : ∀ u v : ℕ → Cplx K,
      (∑ z in range F.nlp, ∑ y in range F.npix, ∑ x in range F.npix,
        ((v (spos F.npix z y x)).1 * (normal_closed F u z y x).1
          + (v (spos F.npix z y x)).2 * (normal_closed F u z y x).2)) * F.fftFactor
      = ∑ i in range F.ngal,
          (F.cov i * F.w_e i * (forward_closed F u i).1 * (forward_closed F v i).1
            + F.cov i * F.w_e i * (forward_closed F u i).2 * (forward_closed F v i).2) := by
    intro u v
    have hcore := shear_adjoint_core F.npix F.nlp F.ngal F.freqFactor F.fftFactor F.nfft
      F.lensKernel v (fun i => F.cov i * F.w_e i * (forward_closed F u i).1)
      (fun i => F.cov i * F.w_e i * (forward_closed F u i).2)
    refine Eq.trans ?_ hcore
    rw [Finset.sum_mul]
    refine Finset.sum_congr rfl (fun z _ => ?_)
    rw [Finset.sum_mul]
    refine Finset.sum_congr rfl (fun y _ => ?_)
    rw [Finset.sum_mul]
    refine Finset.sum_congr rfl (fun x _ => ?_)
    unfold normal_closed
    ring
  have h1 := key a b
  have h2 := key b a
  have h3 : (∑ i in range F.ngal,
          (F.cov i * F.w_e i * (forward_closed F a i).1 * (forward_closed F b i).1
            + F.cov i * F.w_e i * (forward_closed F a i).2 * (forward_closed F b i).2))
      = ∑ i in range F.ngal,
          (F.cov i * F.w_e i * (forward_closed F b i).1 * (forward_closed F a i).1
            + F.cov i * F.w_e i * (forward_closed F b i).2 * (forward_closed F a i).2) := by
    refine Finset.sum_congr rfl (fun i _ => ?_)
    ring
  exact mul_right_cancel₀ hc (h1.trans (h3.trans h2.symm))

/-- The Cauchy-Schwarz inequality for the real inner product of two complex arrays. -/
theorem inner_sq_le (N : ℕ) (u v : ℕ → Cplx K) :
    (∑ p in range N, ((u p).1 * (v p).1 + (u p).2 * (v p).2)) ^ 2
      ≤ sum_of_squares N u * sum_of_squares N v := by
  have h := Finset.sum_mul_sq_le_sq_mul_sq ((range N).disjSum (range N))
    (Sum.elim (fun p => (u p).1) (fun p => (u p).2))
    (Sum.elim (fun p => (v p).1) (fun p => (v p).2))
  simp only [Finset.sum_disj_sum, Sum.elim_inl, Sum.elim_inr] at h
  unfold sum_of_squares
  simp only [Finset.sum_add_distrib]
  simp only [pow_two] at h ⊢
  exact h

/-- A sum of squares is non-negative. -/
theorem sum_of_squares_nonneg (N : ℕ) (u : ℕ → Cplx K) : 0 ≤ sum_of_squares N u := by
  unfold sum_of_squares
  exact Finset.sum_nonneg (fun p _ => add_nonneg (mul_self_nonneg _) (mul_self_nonneg _))

/-- Closed form of the normalisation loop. -/
theorem normalise_apply (N : ℕ) (norm : K) (kap : ℕ → Cplx K) (p : ℕ) (hp : p < N) :
    normalise N norm kap p = ((kap p).1 / norm, (kap p).2 / norm) := by
  unfold normalise
  have h := forLoop_own_index (fun b : ℕ → Cplx K => b) N
    (fun ind kap => Function.update kap ind ((kap ind).1 / norm, (kap ind).2 / norm))
    (fun _ c => (c.1 / norm, c.2 / norm))
    (fun i t => Function.update_same _ _ _)
    (fun i t j hj => Function.update_noteq hj _ _) kap p
  rw [if_pos hp] at h
  exact h

/-- The sum of squares of a normalised array. -/
theorem sum_of_squares_normalise (N : ℕ) (norm : K) (kap : ℕ → Cplx K) :
    sum_of_squares N (normalise N norm kap) = sum_of_squares N kap / (norm * norm) := by
  unfold sum_of_squares
  rw [Finset.sum_div]
  refine Finset.sum_congr rfl (fun p hp => ?_)
  rw [normalise_apply N norm kap p (mem_range.mp hp)]
  dsimp only
  rw [div_mul_div_comm, div_mul_div_comm, add_div]

/-- Dividing by a square root of the sum of squares leaves a sum of squares at most one. -/
theorem sum_of_squares_normalise_le (sqrt : K → K)
    (hsqrt : ∀ c, 0 ≤ c → 0 ≤ sqrt c ∧ sqrt c * sqrt c = c) (N : ℕ) (kap : ℕ → Cplx K) :
    sum_of_squares N (normalise N (sqrt (sum_of_squares N kap)) kap) ≤ 1 := by
  rw [sum_of_squares_normalise, (hsqrt _ (sum_of_squares_nonneg N kap)).2]
  exact div_self_le_one _

/-! ## Power iteration of `get_spectral_norm` -/

/-- Agreement on the read-only members is transitive. -/
theorem same_setup_trans (F G H : field K) (h1 : same_setup F G) (h2 : same_setup G H) :
    same_setup F H := by
  obtain ⟨a1, a2, a3, a4, a5, a6, a7, a8, a9⟩ := h1
  obtain ⟨b1, b2, b3, b4, b5, b6, b7, b8, b9⟩ := h2
  exact ⟨a1.trans b1, a2.trans b2, a3.trans b3, a4.trans b4, a5.trans b5, a6.trans b6,
    a7.trans b7, a8.trans b8, a9.trans b9⟩

/-- The state after `j + 1` passes is the loop body applied to the state after `j` passes. -/
theorem spectral_norm_loop_succ (sqrt : K → K) (F : field K) (j : ℕ) (tol : K)
    (kap kap_tmp : ℕ → Cplx K) :
    spectral_norm_loop sqrt F (j + 1) tol kap kap_tmp
      = spectral_norm_step sqrt tol j (spectral_norm_loop sqrt F j tol kap kap_tmp) := by
  unfold spectral_norm_loop
  rw [forLoop_succ]

/-- The value of `norm` after a pass that is executed. -/
theorem spectral_norm_step_norm (sqrt : K → K) (tol : K) (k : ℕ) (s : power_state K)
    (hs : s.stopped = false) :
    (spectral_norm_step sqrt tol k s).norm
      = sqrt (sum_of_squares (ncoeff s.F) (apply_normal_operator s.F s.kap s.kap_tmp).2.1) := by
  unfold spectral_norm_step
  rw [if_neg (by rw [hs]; decide)]
  dsimp only
  split_ifs <;> rfl

/-- The field after a pass that is executed. -/
theorem spectral_norm_step_field (sqrt : K → K) (tol : K) (k : ℕ) (s : power_state K)
    (hs : s.stopped = false) :
    (spectral_norm_step sqrt tol k s).F = (apply_normal_operator s.F s.kap s.kap_tmp).1 := by
  unfold spectral_norm_step
  rw [if_neg (by rw [hs]; decide)]
  dsimp only
  split_ifs <;> rfl

/-- If the loop has not stopped after a pass, the pass was executed without `break` and has
normalised `kap`. -/
theorem spectral_norm_step_running (sqrt : K → K) (tol : K) (k : ℕ) (s : power_state K)
    (h : (spectral_norm_step sqrt tol k s).stopped = false) :
    s.stopped = false
    ∧ (spectral_norm_step sqrt tol k s).kap
        = normalise (ncoeff s.F)
            (sqrt (sum_of_squares (ncoeff s.F) (apply_normal_operator s.F s.kap s.kap_tmp).2.1))
            (apply_normal_operator s.F s.kap s.kap_tmp).2.1
    ∧ (spectral_norm_step sqrt tol k s).kap_tmp
        = (apply_normal_operator s.F s.kap s.kap_tmp).2.2 := by
  unfold spectral_norm_step at h ⊢
  by_cases hs : s.stopped = true
  · rw [if_pos hs] at h
    rw [h] at hs
    exact absurd hs (by decide)
  · rw [if_neg hs] at h ⊢
    dsimp only at h ⊢
    by_cases hb : |sqrt (sum_of_squares (ncoeff s.F)
        (apply_normal_operator s.F s.kap s.kap_tmp).2.1) - s.norm_old|
        / sqrt (sum_of_squares (ncoeff s.F) (apply_normal_operator s.F s.kap s.kap_tmp).2.1)
        ≤ tol
    · rw [if_pos hb] at h
      exact Bool.noConfusion h
    · rw [if_neg hb]
      refine ⟨?_, rfl, rfl⟩
      cases hst : s.stopped
      · rfl
      · exact absurd hst hs

/-- With a negative tolerance the loop never takes the `break`. -/
theorem spectral_norm_step_continues (sqrt : K → K)
    (hsqrt : ∀ c, 0 ≤ c → 0 ≤ sqrt c ∧ sqrt c * sqrt c = c) (tol : K) (htol : tol < 0)
    (k : ℕ) (s : power_state K) (hs : s.stopped = false) :
    (spectral_norm_step sqrt tol k s).stopped = false := by
  unfold spectral_norm_step
  rw [if_neg (by rw [hs]; decide)]
  dsimp only
  rw [if_neg]
  intro h
  have h1 := (hsqrt _ (sum_of_squares_nonneg (ncoeff s.F)
    (apply_normal_operator s.F s.kap s.kap_tmp).2.1)).1
  have h2 := div_nonneg (abs_nonneg (sqrt (sum_of_squares (ncoeff s.F)
    (apply_normal_operator s.F s.kap s.kap_tmp).2.1) - s.norm_old)) h1
  linarith

/-- Along the loop of `get_spectral_norm` (flexion disabled) the read-only members stay
those of the initial field, and while the loop runs the sum of squares of `kap` is at most
one. -/
theorem spectral_norm_loop_inv (sqrt : K → K)
    (hsqrt : ∀ c, 0 ≤ c → 0 ≤ sqrt c ∧ sqrt c * sqrt c = c) (F : field K) (tol : K)
    (kap kap_tmp : ℕ → Cplx K) (hfl : F.include_flexion = false) (j : ℕ) :
    same_setup (spectral_norm_loop sqrt F j tol kap kap_tmp).F F
    ∧ ((spectral_norm_loop sqrt F j tol kap kap_tmp).stopped = false →
        sum_of_squares (ncoeff F) (spectral_norm_loop sqrt F j tol kap kap_tmp).kap ≤ 1) := by
  induction j with
  | zero =>
    refine ⟨⟨rfl, rfl, rfl, rfl, rfl, rfl, rfl, rfl, rfl⟩, fun _ => ?_⟩
    exact sum_of_squares_normalise_le sqrt hsqrt (ncoeff F) kap
  | succ j ih =>
    rw [spectral_norm_loop_succ]
    obtain ⟨ih1, _⟩ := ih
    have hfl' : (spectral_norm_loop sqrt F j tol kap kap_tmp).F.include_flexion = false :=
      ih1.2.2.2.1.trans hfl
    constructor
    · cases hs : (spectral_norm_loop sqrt F j tol kap kap_tmp).stopped
      · rw [spectral_norm_step_field sqrt tol j _ hs]
        exact same_setup_trans _ _ _ (apply_normal_operator_setup _ _ _ hfl') ih1
      · unfold spectral_norm_step
        rw [if_pos hs]
        exact ih1
    · intro h
      obtain ⟨_, hk, _⟩ := spectral_norm_step_running sqrt tol j _ h
      rw [hk, ncoeff_congr _ F ih1]
      exact sum_of_squares_normalise_le sqrt hsqrt (ncoeff F) _

/-- One step of the power iteration on arrays: if `y` holds the operator applied to `x`,
`x` has sum of squares at most one, and `y'` holds the operator applied to `y` divided by
its norm, then the norm of `y` is at most the norm of `y'`. -/
theorem power_step_monotone (sqrt : K → K)
    (hsqrt : ∀ c, 0 ≤ c → 0 ≤ sqrt c ∧ sqrt c * sqrt c = c) (F : field K)
    (hn : Even F.npix) (x y y' : ℕ → Cplx K)
    (hx : sum_of_squares (F.npix * F.npix * F.nlp) x ≤ 1)
    (hy : ∀ z a b, z < F.nlp → a < F.npix → b < F.npix →
      y (spos F.npix z a b) = normal_closed F x z a b)
    (hy' : ∀ z a b, z < F.nlp → a < F.npix → b < F.npix →
      y' (spos F.npix z a b)
        = normal_closed F (normalise (F.npix * F.npix * F.nlp)
            (sqrt (sum_of_squares (F.npix * F.npix * F.nlp) y)) y) z a b)
    (hnorm : sqrt (sum_of_squares (F.npix * F.npix * F.nlp) y) ≠ 0) :
    sqrt (sum_of_squares (F.npix * F.npix * F.nlp) y)
      ≤ sqrt (sum_of_squares (F.npix * F.npix * F.nlp) y') := by
  obtain ⟨hν0, hνν⟩ := hsqrt _ (sum_of_squares_nonneg (F.npix * F.npix * F.nlp) y)
  obtain ⟨hν0', hνν'⟩ := hsqrt _ (sum_of_squares_nonneg (F.npix * F.npix * F.nlp) y')
  have h0 : 0 < F.npix := by
    rcases Nat.eq_zero_or_pos F.npix with h | h
    · exfalso
      apply hnorm
      have hS : sum_of_squares (F.npix * F.npix * F.nlp) y = 0 := by
        unfold sum_of_squares
        rw [h]
        simp
      rw [hS] at hνν ⊢
      exact mul_self_eq_zero.1 hνν
    · exact h
  generalize hνdef : sqrt (sum_of_squares (F.npix * F.npix * F.nlp) y) = ν at *
  generalize hνdef' : sqrt (sum_of_squares (F.npix * F.npix * F.nlp) y') = ν' at *
  -- symmetry of the operator
  have hsym : ∑ p in range (F.npix * F.npix * F.nlp),
        ((normalise (F.npix * F.npix * F.nlp) ν y p).1 * (y p).1
          + (normalise (F.npix * F.npix * F.nlp) ν y p).2 * (y p).2)
      = ∑ p in range (F.npix * F.npix * F.nlp), ((x p).1 * (y' p).1 + (x p).2 * (y' p).2) := by
    rw [sum_spos F.npix F.nlp hn, sum_spos F.npix F.nlp hn]
    refine Eq.trans ?_ ((normal_closed_symm F x
      (normalise (F.npix * F.npix * F.nlp) ν y) h0).trans ?_)
    · refine Finset.sum_congr rfl (fun z hz => Finset.sum_congr rfl (fun a ha =>
        Finset.sum_congr rfl (fun b hb => ?_)))
      rw [hy z a b (mem_range.mp hz) (mem_range.mp ha) (mem_range.mp hb)]
    · refine Finset.sum_congr rfl (fun z hz => Finset.sum_congr rfl (fun a ha =>
        Finset.sum_congr rfl (fun b hb => ?_)))
      rw [hy' z a b (mem_range.mp hz) (mem_range.mp ha) (mem_range.mp hb)]
  -- the left-hand side is the norm
  have hD : ∑ p in range (F.npix * F.npix * F.nlp),
        ((normalise (F.npix * F.npix * F.nlp) ν y p).1 * (y p).1
          + (normalise (F.npix * F.npix * F.nlp) ν y p).2 * (y p).2) = ν := by
    have h1 : ∑ p in range (F.npix * F.npix * F.nlp),
        ((normalise (F.npix * F.npix * F.nlp) ν y p).1 * (y p).1
          + (normalise (F.npix * F.npix * F.nlp) ν y p).2 * (y p).2)
        = sum_of_squares (F.npix * F.npix * F.nlp) y / ν := by
      unfold sum_of_squares
      rw [Finset.sum_div]
      refine Finset.sum_congr rfl (fun p hp => ?_)
      rw [normalise_apply _ ν y p (mem_range.mp hp)]
      dsimp only
      ring
    rw [h1, ← hνν, mul_div_assoc, div_self hnorm, mul_one]
  -- Cauchy-Schwarz
  have hcs := inner_sq_le (F.npix * F.npix * F.nlp) x y'
  rw [← hsym, hD, ← hνν'] at hcs
  have hle : ν ^ 2 ≤ ν' * ν' := by
    refine le_trans hcs ?_
    have := mul_le_mul_of_nonneg_right hx (mul_self_nonneg ν')
    rw [one_mul] at this
    exact this
  by_contra hlt
  rw [not_le] at hlt
  have := mul_lt_mul'' hlt hlt hν0' hν0'
  rw [pow_two] at hle
  linarith

/-- With flexion disabled, `ncoeff` is `npix * npix * nlp`. -/
theorem ncoeff_shear (F G : field K) (h : same_setup G F) (hfl : F.include_flexion = false) :
    ncoeff G = F.npix * F.npix * F.nlp := by
  rw [ncoeff_congr G F h]
  unfold ncoeff
  rw [if_neg (by rw [hfl]; decide)]

/-- One pass of the loop from a state that agrees with `F` on the read-only members:
`kap` holds the closed form of the operator of `F`. -/
theorem apply_normal_operator_state (F G : field K) (h : same_setup G F)
    (kap kap_tmp : ℕ → Cplx K) (hfl : F.include_flexion = false) (hn : Even F.npix)
    (hff : F.freqFactor ≠ 0) (z a b : ℕ) (hz : z < F.nlp) (ha : a < F.npix) (hb : b < F.npix) :
    (apply_normal_operator G kap kap_tmp).2.1 (spos F.npix z a b)
      = normal_closed F kap z a b := by
  have hh := h
  obtain ⟨e1, e2, _, e4, e5, _⟩ := hh
  have key := apply_normal_operator_kap G kap kap_tmp z a b (e4.trans hfl)
    (by rw [e1]; exact hn) (by rw [e5]; exact hff) (by rw [e2]; exact hz)
    (by rw [e1]; exact ha) (by rw [e1]; exact hb)
  rw [e1, normal_closed_congr G F h] at key
  exact key

/-- Two consecutive passes of the loop of `get_spectral_norm`: the second norm is at least
the first. -/
theorem spectral_norm_two_steps (sqrt : K → K)
    (hsqrt : ∀ c, 0 ≤ c → 0 ≤ sqrt c ∧ sqrt c * sqrt c = c) (F : field K) (tol : K)
    (hfl : F.include_flexion = false) (hn : Even F.npix) (hff : F.freqFactor ≠ 0)
    (k k' : ℕ) (s : power_state K) (hset : same_setup s.F F)
    (hx : s.stopped = false → sum_of_squares (ncoeff F) s.kap ≤ 1)
    (hrun : (spectral_norm_step sqrt tol k s).stopped = false)
    (hnorm : (spectral_norm_step sqrt tol k s).norm ≠ 0) :
    (spectral_norm_step sqrt tol k s).norm
      ≤ (spectral_norm_step sqrt tol k' (spectral_norm_step sqrt tol k s)).norm := by
  obtain ⟨hs, hk, _⟩ := spectral_norm_step_running sqrt tol k s hrun
  have hset1 : same_setup (spectral_norm_step sqrt tol k s).F F := by
    rw [spectral_norm_step_field sqrt tol k s hs]
    exact same_setup_trans _ _ _
      (apply_normal_operator_setup _ _ _ (hset.2.2.2.1.trans hfl)) hset
  have hN : ncoeff s.F = F.npix * F.npix * F.nlp := ncoeff_shear F s.F hset hfl
  have hN1 : ncoeff (spectral_norm_step sqrt tol k s).F = F.npix * F.npix * F.nlp :=
    ncoeff_shear F _ hset1 hfl
  have hNF : ncoeff F = F.npix * F.npix * F.nlp :=
    ncoeff_shear F F ⟨rfl, rfl, rfl, rfl, rfl, rfl, rfl, rfl, rfl⟩ hfl
  rw [spectral_norm_step_norm sqrt tol k' _ hrun, hN1]
  rw [spectral_norm_step_norm sqrt tol k s hs, hN] at hnorm ⊢
  rw [hN] at hk
  have hx' := hx hs
  rw [hNF] at hx'
  refine power_step_monotone sqrt hsqrt F hn s.kap _ _ hx' ?_ ?_ hnorm
  · intro z a b hz ha hb
    exact apply_normal_operator_state F s.F hset s.kap s.kap_tmp hfl hn hff z a b hz ha hb
  · intro z a b hz ha hb
    rw [← hk]
    exact apply_normal_operator_state F _ hset1 _ _ hfl hn hff z a b hz ha hb

/-- C11 (spectral-norm monotonicity).  Exact arithmetic, flexion disabled, `npix` even, a
finite pixel size (`freqFactor != 0`), `sqrt` a square root on the non-negative numbers;
for every field (kernels, weights `w_e`, factors `cov`, NFFT matrices), every tolerance, every
start vector `kap` and prior content of `kap_tmp`: if the loop of `get_spectral_norm` has not
stopped after pass `j` (so that passes `j` and `j + 1` both compute `norm`) and the `norm`
computed by pass `j` is non-zero, then the `norm` computed by pass `j + 1` is at least the
`norm` computed by pass `j`. -/
theorem spectral_norm_monotone (sqrt : K → K)
    (hsqrt : ∀ c, 0 ≤ c → 0 ≤ sqrt c ∧ sqrt c * sqrt c = c) (F : field K) (tol : K)
    (kap kap_tmp : ℕ → Cplx K) (hfl : F.include_flexion = false) (hn : Even F.npix)
    (hff : F.freqFactor ≠ 0) (j : ℕ)
    (hrun : (spectral_norm_loop sqrt F (j + 1) tol kap kap_tmp).stopped = false)
    (hnorm : (spectral_norm_loop sqrt F (j + 1) tol kap kap_tmp).norm ≠ 0) :
    (spectral_norm_loop sqrt F (j + 1) tol kap kap_tmp).norm
      ≤ (spectral_norm_loop sqrt F (j + 1 + 1) tol kap kap_tmp).norm := by
  have hinv := spectral_norm_loop_inv sqrt hsqrt F tol kap kap_tmp hfl j
  rw [spectral_norm_loop_succ sqrt F (j + 1), spectral_norm_loop_succ sqrt F j] at *
  exact spectral_norm_two_steps sqrt hsqrt F tol hfl hn hff j (j + 1) _ hinv.1 hinv.2 hrun hnorm

/-- Dividing by one changes nothing. -/
theorem normalise_one (N : ℕ) (kap : ℕ → Cplx K) : normalise N 1 kap = kap := by
  funext p
  unfold normalise
  have h := forLoop_own_index (fun b : ℕ → Cplx K => b) N
    (fun ind kap => Function.update kap ind ((kap ind).1 / 1, (kap ind).2 / 1))
    (fun _ c => (c.1 / 1, c.2 / 1))
    (fun i t => Function.update_same _ _ _)
    (fun i t j hj => Function.update_noteq hj _ _) kap p
  rw [h]
  split_ifs <;> simp

/-- A sum of squares with a non-zero entry is positive. -/
theorem sum_of_squares_pos (N : ℕ) (u : ℕ → Cplx K) (p : ℕ) (hp : p < N) (h : (u p).1 ≠ 0) :
    0 < sum_of_squares N u := by
  unfold sum_of_squares
  have h1 : 0 < (u p).1 * (u p).1 + (u p).2 * (u p).2 :=
    add_pos_of_pos_of_nonneg (mul_self_pos.2 h) (mul_self_nonneg _)
  exact lt_of_lt_of_le h1
    (Finset.single_le_sum
      (f := fun q => (u q).1 * (u q).1 + (u q).2 * (u q).2)
      (fun q _ => add_nonneg (mul_self_nonneg _) (mul_self_nonneg _)) (mem_range.2 hp))

/-- The real square root is a square root on the non-negative reals. -/
theorem real_sqrt_spec (c : ℝ) (hc : 0 ≤ c) : 0 ≤ Real.sqrt c ∧ Real.sqrt c * Real.sqrt c = c :=
  ⟨Real.sqrt_nonneg c, Real.mul_self_sqrt hc⟩

/-- On the unit grid with tolerance `-1` the loop of `get_spectral_norm` runs its first
pass to the end. -/
theorem unit_grid_running :
    (spectral_norm_loop Real.sqrt (unit_grid_field : field ℝ) (0 + 1) (-1) unit_start
      (fun _ => (0, 0))).stopped = false := by
  rw [spectral_norm_loop_succ]
  exact spectral_norm_step_continues Real.sqrt real_sqrt_spec (-1) (by norm_num) 0 _ rfl

set_option maxHeartbeats 4000000 in
set_option maxRecDepth 100000 in
/-- On the unit grid the first pass of `get_spectral_norm` from `unit_start` computes a
non-zero `norm`. -/
theorem unit_grid_norm_ne_zero :
    (spectral_norm_loop Real.sqrt (unit_grid_field : field ℝ) (0 + 1) (-1) unit_start
      (fun _ => (0, 0))).norm ≠ 0 := by
  rw [spectral_norm_loop_succ, spectral_norm_step_norm Real.sqrt (-1) 0 _ rfl]
  have hS : sum_of_squares (ncoeff (unit_grid_field : field ℝ)) (unit_start : ℕ → Cplx ℝ) = 1 := by
    simp [sum_of_squares, ncoeff, unit_grid_field, unit_start, Finset.sum_range_succ]
  have hstart : (spectral_norm_loop Real.sqrt (unit_grid_field : field ℝ) 0 (-1) unit_start
      (fun _ => (0, 0)))
      = power_state.mk unit_grid_field unit_start (fun _ => (0, 0)) 1 0 false := by
    unfold spectral_norm_loop spectral_norm_start
    rw [forLoop_zero]
    dsimp only
    rw [hS, Real.sqrt_one, normalise_one]
  rw [hstart]
  dsimp only
  rw [Real.sqrt_ne_zero']
  refine sum_of_squares_pos _ _ 2 (by decide) ?_
  have h2 : (2 : ℕ) = spos (unit_grid_field : field ℝ).npix 0 0 1 := by decide
  rw [h2, apply_normal_operator_kap (unit_grid_field : field ℝ) unit_start (fun _ => (0, 0))
    0 0 1 rfl ⟨1, rfl⟩ one_ne_zero (by decide) (by decide) (by decide)]
  simp [normal_closed, forward_closed, kappa_hat, adj_hat, trafo_at, gamma_hat, kfreq, spos,
    kshift, Finset.sum_range_succ, unit_grid_field, unit_start, field.fftFactor]

/-- The monotonicity of the norm on the unit grid over the reals, for the first two passes. -/
theorem spectral_norm_monotone_witness :
    (∀ c : ℝ, 0 ≤ c → 0 ≤ Real.sqrt c ∧ Real.sqrt c * Real.sqrt c = c)
    ∧ (unit_grid_field : field ℝ).include_flexion = false
    ∧ Even (unit_grid_field : field ℝ).npix
    ∧ (unit_grid_field : field ℝ).freqFactor ≠ 0
    ∧ (spectral_norm_loop Real.sqrt (unit_grid_field : field ℝ) (0 + 1) (-1) unit_start
        (fun _ => (0, 0))).stopped = false
    ∧ (spectral_norm_loop Real.sqrt (unit_grid_field : field ℝ) (0 + 1) (-1) unit_start
        (fun _ => (0, 0))).norm ≠ 0
    ∧ (spectral_norm_loop Real.sqrt (unit_grid_field : field ℝ) (0 + 1) (-1) unit_start
        (fun _ => (0, 0))).norm
      ≤ (spectral_norm_loop Real.sqrt (unit_grid_field : field ℝ) (0 + 1 + 1) (-1) unit_start
        (fun _ => (0, 0))).norm :=
  ⟨real_sqrt_spec, rfl, ⟨1, rfl⟩, one_ne_zero, unit_grid_running, unit_grid_norm_ne_zero,
    spectral_norm_monotone Real.sqrt real_sqrt_spec unit_grid_field (-1) unit_start
      (fun _ => (0, 0)) rfl ⟨1, rfl⟩ one_ne_zero 0 unit_grid_running unit_grid_norm_ne_zero⟩

/-! ## `combine_components` after `combine_components_inverse` -/

/-- Closed form of the flexion block written by `combine_components_inverse`. -/
theorem combine_components_inverse_flex (F : field K) (dc d0 : ℕ → Cplx K) (z y x : ℕ)
    (hfl : F.include_flexion = true) (hn : Even F.npix) (hz : z < F.nlp) (hy : y < F.npix)
    (hx : x < F.npix) :
    combine_components_inverse F dc d0 (F.nlp * F.npix * F.npix + spos F.npix z y x)
      = ((dc (spos F.npix z y x)).1 * kfreq F.npix F.freqFactor y
          + (dc (spos F.npix z y x)).2 * kfreq F.npix F.freqFactor x,
         -(dc (spos F.npix z y x)).1 * kfreq F.npix F.freqFactor x
          + (dc (spos F.npix z y x)).2 * kfreq F.npix F.freqFactor y) := by
  have hoff : ∀ j y' x', j < F.nlp → y' < F.npix → x' < F.npix →
      F.nlp * F.npix * F.npix + spos F.npix z y x ≠ spos F.npix j y' x' := by
    intro j y' x' hj hy' hx'
    have h1 := spos_lt F.npix j y' x' hn hy' hx'
    have h2 := plane_le F.npix F.nlp j hj
    omega
  unfold combine_components_inverse
  refine forLoop_obs_hit
    (fun b : ℕ → Cplx K => b (F.nlp * F.npix * F.npix + spos F.npix z y x)) F.nlp _ d0 z hz _
    ?_ ?_
  · intro t
    refine forLoop2_obs_hit
      (fun b : ℕ → Cplx K => b (F.nlp * F.npix * F.npix + spos F.npix z y x)) F.npix F.npix _ t
      y x hy hx _ ?_ ?_
    · intro u
      dsimp only
      rw [if_pos hfl]
      exact (Function.update_noteq (hoff z y x hz hy hx) _ _).trans (Function.update_same _ _ _)
    · intro y' x' hy' hx' hne u
      have hidx : F.nlp * F.npix * F.npix + spos F.npix z y x
          ≠ F.nlp * F.npix * F.npix + spos F.npix z y' x' := by
        intro h
        obtain ⟨_, h1, h2⟩ := spos_inj F.npix _ _ _ _ _ _ hn hy hx hy' hx' (Nat.add_left_cancel h)
        rcases hne with h3 | h3
        · exact h3 h1.symm
        · exact h3 h2.symm
      dsimp only
      rw [if_pos hfl]
      exact (Function.update_noteq (hoff z y' x' hz hy' hx') _ _).trans
        (Function.update_noteq hidx _ _)
  · intro j hj hjl t
    refine forLoop2_obs_inv
      (fun b : ℕ → Cplx K => b (F.nlp * F.npix * F.npix + spos F.npix z y x)) F.npix F.npix _ t ?_
    intro y' x' hy' hx' u
    have hidx : F.nlp * F.npix * F.npix + spos F.npix z y x
        ≠ F.nlp * F.npix * F.npix + spos F.npix j y' x' := by
      intro h
      exact (Nat.ne_of_lt hj)
        (spos_inj F.npix _ _ _ _ _ _ hn hy hx hy' hx' (Nat.add_left_cancel h)).1
    dsimp only
    rw [if_pos hfl]
    exact (Function.update_noteq (hoff j y' x' hjl hy' hx') _ _).trans
      (Function.update_noteq hidx _ _)

/-- C21 (`combine_components` is a left inverse of `combine_components_inverse`).  For even
`npix`, `sig_frac > 0` and every combined field `c` with `c[0] = 0`, with or without flexion:
`combine_components(combine_components_inverse(c))` equals `c` at every coefficient
`p < npix^2 * nlp`, whatever the prior content of the two output buffers. -/
theorem combine_left_inverse (F : field K) (c d0 dc0 : ℕ → Cplx K) (p : ℕ)
    (hn : Even F.npix) (hs : 0 < F.sig_frac) (hc : c 0 = (0, 0))
    (hp : p < F.npix * F.npix * F.nlp) :
    combine_components F (combine_components_inverse F c d0) dc0 p = c p := by
  obtain ⟨z, y, x, hz, hy, hx, rfl⟩ := spos_surj F.npix F.nlp p hn hp
  by_cases h0 : spos F.npix z y x = 0
  · rw [h0, combine_components_zero F _ dc0 (Nat.lt_of_le_of_lt (Nat.zero_le z) hz), hc]
  · rw [combine_components_apply F _ dc0 z y x hn hz hy hx h0]
    by_cases hfl : F.include_flexion = true
    · rw [if_pos hfl, combine_components_inverse_flex F c d0 z y x hfl hn hz hy hx,
        combine_components_inverse_apply F c d0 z y x hn hz hy hx]
      have hden : kfreq F.npix F.freqFactor x * kfreq F.npix F.freqFactor x
          + kfreq F.npix F.freqFactor y * kfreq F.npix F.freqFactor y + F.sig_frac ≠ 0 := by
        have h1 := mul_self_nonneg (kfreq F.npix F.freqFactor x)
        have h2 := mul_self_nonneg (kfreq F.npix F.freqFactor y)
        exact ne_of_gt (by linarith)
      refine Prod.ext ?_ ?_
      · dsimp only
        field_simp
        ring
      · dsimp only
        field_simp
        ring
    · rw [if_neg hfl, combine_components_inverse_apply F c d0 z y x hn hz hy hx]

/-- The left-inverse identity at coefficient `3` of a concrete `2 x 2` field with flexion. -/
theorem combine_left_inverse_witness :
    Even 2 ∧ (0 : ℚ) < 1
    ∧ (fun p : ℕ => if p = 0 then ((0 : ℚ), (0 : ℚ)) else ((p : ℚ), 1)) 0 = (0, 0)
    ∧ 3 < 2 * 2 * 1
    ∧ combine_components (example_field 1 true (-1))
        (combine_components_inverse (example_field 1 true (-1))
          (fun p : ℕ => if p = 0 then ((0 : ℚ), (0 : ℚ)) else ((p : ℚ), 1)) (fun _ => (0, 0)))
        (fun _ => (0, 0)) 3
      = (fun p : ℕ => if p = 0 then ((0 : ℚ), (0 : ℚ)) else ((p : ℚ), 1)) 3 :=
  ⟨by decide, by norm_num, rfl, by decide,
    combine_left_inverse (example_field 1 true (-1))
      (fun p : ℕ => if p = 0 then ((0 : ℚ), (0 : ℚ)) else ((p : ℚ), 1)) (fun _ => (0, 0))
      (fun _ => (0, 0)) 3 (by decide) (by norm_num [example_field]) rfl (by decide)⟩

/-! ## One pass of `get_spectral_norm`, with or without flexion -/

/-- The shear coefficients of `combine_components(kap)` in closed form: they do not depend on
the prior content of the output buffer. -/
theorem gamma_hat_combined (F : field K) (kap kap_tmp : ℕ → Cplx K) (z y x : ℕ)
    (hn : Even F.npix) (hff : F.freqFactor ≠ 0)
    (hz : z < F.nlp) (hy : y < F.npix) (hx : x < F.npix) :
    gamma_hat F.npix F.freqFactor (combine_components F kap kap_tmp) z y x
      = gamma_hat F.npix F.freqFactor (fun _ => combined_at F kap z y x) z y x := by
  unfold gamma_hat
  by_cases h0 : kfreq F.npix F.freqFactor x = 0 ∧ kfreq F.npix F.freqFactor y = 0
  · rw [if_pos h0, if_pos h0]
  · rw [if_neg h0, if_neg h0]
    have hnz : ¬ (x = F.npix / 2 ∧ y = F.npix / 2) := by
      intro h
      exact h0 ⟨(kfreq_eq_zero_iff F.npix F.freqFactor hff x).2 h.1,
        (kfreq_eq_zero_iff F.npix F.freqFactor hff y).2 h.2⟩
    have hp := not_zero_frequency F.npix z y x hn hy hx hnz
    rw [combine_components_apply F kap kap_tmp z y x hn hz hy hx hp]
    rfl

/-- The shear residuals after `forward_operator` are those of its shear part. -/
theorem forward_operator_res_gamma (F : field K) (a : ℕ → Cplx K) :
    (forward_operator F a).res_gamma1 = (forward_shear F a).res_gamma1
    ∧ (forward_operator F a).res_gamma2 = (forward_shear F a).res_gamma2 := by
  by_cases hfl : F.include_flexion = true
  · rw [forward_operator_flexion F a hfl]
    exact ⟨rfl, rfl⟩
  · have hfl' : F.include_flexion = false := by
      cases h : F.include_flexion
      · rfl
      · exact absurd h hfl
    rw [forward_operator_shear_only F a hfl']
    exact ⟨rfl, rfl⟩

/-- The forward operator changes no member that one pass of `get_spectral_norm` reads
without writing it first. -/
theorem forward_operator_operator (F : field K) (a : ℕ → Cplx K) :
    same_operator (forward_operator F a) F := by
  by_cases hfl : F.include_flexion = true
  · rw [forward_operator_flexion F a hfl]
    exact ⟨⟨rfl, rfl, rfl, rfl, rfl, rfl, rfl, rfl, rfl⟩, rfl⟩
  · have hfl' : F.include_flexion = false := by
      cases h : F.include_flexion
      · rfl
      · exact absurd h hfl
    rw [forward_operator_shear_only F a hfl']
    exact ⟨⟨rfl, rfl, rfl, rfl, rfl, rfl, rfl, rfl, rfl⟩, rfl⟩

/-- The shear residuals of `forward_operator(combine_components(kap))` in closed form. -/
theorem forward_of_combined_eq (F : field K) (kap kap_tmp : ℕ → Cplx K) (i : ℕ)
    (hn : Even F.npix) (hff : F.freqFactor ≠ 0) (hi : i < F.ngal) :
    (forward_operator F (combine_components F kap kap_tmp)).res_gamma1 i
        = (forward_of_combined F kap i).1
    ∧ (forward_operator F (combine_components F kap kap_tmp)).res_gamma2 i
        = (forward_of_combined F kap i).2 := by
  obtain ⟨h1, h2⟩ := forward_operator_res_gamma F (combine_components F kap kap_tmp)
  rw [h1, h2]
  have hc : ∀ z, z ∈ range F.nlp →
      trafo_at (F.nfft z) F.npix
          (gamma_hat F.npix F.freqFactor (combine_components F kap kap_tmp) z) i
        = trafo_at (F.nfft z) F.npix
          (fun y x => gamma_hat F.npix F.freqFactor (fun _ => combined_at F kap z y x) z y x)
          i := by
    intro z hz
    exact trafo_at_congr _ _ _ _ i
      (fun y x hy hx => gamma_hat_combined F kap kap_tmp z y x hn hff (mem_range.mp hz) hy hx)
  constructor
  · rw [forward_shear_res1 F _ i hi]
    unfold forward_of_combined
    dsimp only
    refine Finset.sum_congr rfl (fun z hz => ?_)
    rw [hc z hz]
  · rw [forward_shear_res2 F _ i hi]
    unfold forward_of_combined
    dsimp only
    refine Finset.sum_congr rfl (fun z hz => ?_)
    rw [hc z hz]

/-- One pass of the loop of `get_spectral_norm` changes no member that a pass reads without
writing it first. -/
theorem apply_normal_operator_operator (F : field K) (kap kap_tmp : ℕ → Cplx K) :
    same_operator (apply_normal_operator F kap kap_tmp).1 F :=
  forward_operator_operator F (combine_components F kap kap_tmp)

/-- The array `kap` after one pass is `combine_components_inverse` of the array `kap_tmp`
after the pass. -/
theorem apply_normal_operator_inverse (F : field K) (kap kap_tmp : ℕ → Cplx K) :
    (apply_normal_operator F kap kap_tmp).2.1
      = combine_components_inverse F (apply_normal_operator F kap kap_tmp).2.2 kap := rfl

/-- One pass of the loop of `get_spectral_norm`, with or without flexion: the convergence
block of `kap_tmp` holds the closed form `normal_of_combined`. -/
theorem apply_normal_operator_tmp (F : field K) (kap kap_tmp : ℕ → Cplx K) (z y x : ℕ)
    (hn : Even F.npix) (hff : F.freqFactor ≠ 0)
    (hz : z < F.nlp) (hy : y < F.npix) (hx : x < F.npix) :
    (apply_normal_operator F kap kap_tmp).2.2 (spos F.npix z y x)
      = normal_of_combined F kap z y x := by
  have hr := residual_update_loop F.ngal F.include_flexion
      (fun i a => F.cov i * F.w_e i * a) (fun i a => F.cov i * F.w_e i * a)
      (fun i a => F.cov i * F.w_f i * a) (fun i a => F.cov i * F.w_f i * a)
      (((forward_operator F (combine_components F kap kap_tmp)).res_gamma1,
        (forward_operator F (combine_components F kap kap_tmp)).res_gamma2),
       ((forward_operator F (combine_components F kap kap_tmp)).res_f1,
        (forward_operator F (combine_components F kap kap_tmp)).res_f2))
  have hf := forward_of_combined_eq F kap kap_tmp
  unfold apply_normal_operator
  dsimp only
  unfold normal_of_combined
  rw [← adj_hat_congr (F.nfft z) F.ngal F.nlp z F.lensKernel _ _ _ _ (y * F.npix + x)
    (fun j hj => ((hr j hj).1.trans (by dsimp only; rw [(hf j hn hff hj).1])))
    (fun j hj => ((hr j hj).2.trans (by dsimp only; rw [(hf j hn hff hj).2])))]
  by_cases hfl : F.include_flexion = true
  · rw [forward_operator_flexion F _ hfl]
    exact adjoint_operator_shear _ _ true z y x hn hff hz hy hx
  · have hfl' : F.include_flexion = false := by
      cases h : F.include_flexion
      · rfl
      · exact absurd h hfl
    rw [forward_operator_shear_only F _ hfl']
    exact adjoint_operator_shear _ _ true z y x hn hff hz hy hx

/-- Agreement on the members read by a pass is transitive. -/
theorem same_operator_trans (F G H : field K) (h1 : same_operator F G)
    (h2 : same_operator G H) : same_operator F H :=
  ⟨same_setup_trans F G H h1.1 h2.1, h1.2.trans h2.2⟩

/-- The closed form of a pass only depends on the members that the pass reads. -/
theorem normal_of_combined_field (F G : field K) (h : same_operator F G) (kap : ℕ → Cplx K)
    (z y x : ℕ) : normal_of_combined F kap z y x = normal_of_combined G kap z y x := by
  obtain ⟨⟨h1, h2, h3, h4, h5, h6, h7, h8, h9⟩, h10⟩ := h
  unfold normal_of_combined forward_of_combined combined_at field.fftFactor
  rw [h1, h2, h3, h4, h5, h6, h7, h8, h9, h10]

/-- Every grid index lies below `npix * npix * nlp`. -/
theorem spos_lt_total (n L z y x : ℕ) (hn : Even n) (hz : z < L) (hy : y < n) (hx : x < n) :
    spos n z y x < n * n * L := by
  have h1 := spos_lt n z y x hn hy hx
  have h2 := plane_le n L z hz
  have h3 : L * n * n = n * n * L := by ring
  omega

/-- The combined coefficient only reads `kap` below `ncoeff`. -/
theorem combined_at_kap (F : field K) (kap kap' : ℕ → Cplx K)
    (hk : ∀ p, p < ncoeff F → kap p = kap' p) (hn : Even F.npix) (z y x : ℕ)
    (hz : z < F.nlp) (hy : y < F.npix) (hx : x < F.npix) :
    combined_at F kap z y x = combined_at F kap' z y x := by
  have h1 := spos_lt_total F.npix F.nlp z y x hn hz hy hx
  have h3 : F.nlp * F.npix * F.npix = F.npix * F.npix * F.nlp := by ring
  unfold combined_at
  by_cases hfl : F.include_flexion = true
  · have hN : ncoeff F = F.npix * F.npix * F.nlp * 2 := by
      unfold ncoeff
      rw [if_pos hfl]
    rw [if_pos hfl, if_pos hfl, hk _ (by rw [hN]; omega), hk _ (by rw [hN, h3]; omega)]
  · have hN : ncoeff F = F.npix * F.npix * F.nlp := by
      unfold ncoeff
      rw [if_neg hfl]
    rw [if_neg hfl, if_neg hfl, hk _ (by rw [hN]; exact h1)]

/-- The closed form of a pass only reads `kap` below `ncoeff`. -/
theorem normal_of_combined_kap (F : field K) (kap kap' : ℕ → Cplx K)
    (hk : ∀ p, p < ncoeff F → kap p = kap' p) (hn : Even F.npix) (z y x : ℕ) :
    normal_of_combined F kap z y x = normal_of_combined F kap' z y x := by
  have hf : ∀ i, forward_of_combined F kap i = forward_of_combined F kap' i := by
    intro i
    have hc : ∀ z', z' ∈ range F.nlp →
        trafo_at (F.nfft z') F.npix
            (fun y x => gamma_hat F.npix F.freqFactor (fun _ => combined_at F kap z' y x) z' y x)
            i
          = trafo_at (F.nfft z') F.npix
            (fun y x => gamma_hat F.npix F.freqFactor (fun _ => combined_at F kap' z' y x) z' y x)
            i := by
      intro z' hz'
      refine trafo_at_congr _ _ _ _ i (fun y' x' hy' hx' => ?_)
      dsimp only
      rw [combined_at_kap F kap kap' hk hn z' y' x' (mem_range.mp hz') hy' hx']
    unfold forward_of_combined
    refine Prod.ext ?_ ?_
    · dsimp only
      refine Finset.sum_congr rfl (fun z' hz' => ?_)
      rw [hc z' hz']
    · dsimp only
      refine Finset.sum_congr rfl (fun z' hz' => ?_)
      rw [hc z' hz']
  unfold normal_of_combined
  rw [adj_hat_congr (F.nfft z) F.ngal F.nlp z F.lensKernel _ _
    (fun i => F.cov i * F.w_e i * (forward_of_combined F kap' i).1)
    (fun i => F.cov i * F.w_e i * (forward_of_combined F kap' i).2) (y * F.npix + x)
    (fun j _ => by dsimp only; rw [hf j]) (fun j _ => by dsimp only; rw [hf j])]

/-- One pass from a state that agrees with `F0` on the members read: the two blocks of `kap`
in closed form over `F0`. -/
theorem apply_normal_operator_closed (F0 F : field K) (h : same_operator F F0)
    (kap kap_tmp : ℕ → Cplx K) (hn : Even F0.npix) (hff : F0.freqFactor ≠ 0) (z y x : ℕ)
    (hz : z < F0.nlp) (hy : y < F0.npix) (hx : x < F0.npix) :
    (apply_normal_operator F kap kap_tmp).2.1 (spos F0.npix z y x)
        = normal_of_combined F0 kap z y x
    ∧ (F0.include_flexion = true →
        (apply_normal_operator F kap kap_tmp).2.1
            (F0.nlp * F0.npix * F0.npix + spos F0.npix z y x)
          = flexion_of_combined (kfreq F0.npix F0.freqFactor x) (kfreq F0.npix F0.freqFactor y)
              (normal_of_combined F0 kap z y x)) := by
  have hh := h
  obtain ⟨⟨e1, e2, _, e4, e5, _⟩, _⟩ := hh
  have hn' : Even F.npix := by rw [e1]; exact hn
  have hff' : F.freqFactor ≠ 0 := by rw [e5]; exact hff
  have hz' : z < F.nlp := by rw [e2]; exact hz
  have hy' : y < F.npix := by rw [e1]; exact hy
  have hx' : x < F.npix := by rw [e1]; exact hx
  have htmp := apply_normal_operator_tmp F kap kap_tmp z y x hn' hff' hz' hy' hx'
  rw [normal_of_combined_field F F0 h] at htmp
  constructor
  · have key := combine_components_inverse_apply F (apply_normal_operator F kap kap_tmp).2.2 kap
      z y x hn' hz' hy' hx'
    rw [htmp, ← apply_normal_operator_inverse, e1] at key
    exact key
  · intro hfl
    have key := combine_components_inverse_flex F (apply_normal_operator F kap kap_tmp).2.2 kap
      z y x (e4.trans hfl) hn' hz' hy' hx'
    rw [htmp, ← apply_normal_operator_inverse, e1, e2, e5] at key
    exact key

/-- One pass of the loop of `get_spectral_norm`, with or without flexion: below `ncoeff` the new
`kap` is determined by the members of the field that the pass reads and by the old `kap` below
`ncoeff`; it depends neither on `kap_tmp` nor on the buffers of the field. -/
theorem apply_normal_operator_indep (F0 F G : field K) (hF : same_operator F F0)
    (hG : same_operator G F0) (kap kap' kap_tmp kap_tmp' : ℕ → Cplx K)
    (hk : ∀ p, p < ncoeff F0 → kap p = kap' p) (hn : Even F0.npix) (hff : F0.freqFactor ≠ 0)
    (p : ℕ) (hp : p < ncoeff F0) :
    (apply_normal_operator F kap kap_tmp).2.1 p
      = (apply_normal_operator G kap' kap_tmp').2.1 p := by
  have h3 : F0.nlp * F0.npix * F0.npix = F0.npix * F0.npix * F0.nlp := by ring
  by_cases hlt : p < F0.npix * F0.npix * F0.nlp
  · obtain ⟨z, y, x, hz, hy, hx, rfl⟩ := spos_surj F0.npix F0.nlp p hn hlt
    rw [(apply_normal_operator_closed F0 F hF kap kap_tmp hn hff z y x hz hy hx).1,
      (apply_normal_operator_closed F0 G hG kap' kap_tmp' hn hff z y x hz hy hx).1,
      normal_of_combined_kap F0 kap kap' hk hn]
  · have hfl : F0.include_flexion = true := by
      cases h : F0.include_flexion
      · exfalso
        apply hlt
        unfold ncoeff at hp
        rw [h] at hp
        exact hp
      · rfl
    have hN : ncoeff F0 = F0.npix * F0.npix * F0.nlp * 2 := by
      unfold ncoeff
      rw [if_pos hfl]
    have hq : p - F0.npix * F0.npix * F0.nlp < F0.npix * F0.npix * F0.nlp := by
      rw [hN] at hp
      omega
    obtain ⟨z, y, x, hz, hy, hx, hs⟩ := spos_surj F0.npix F0.nlp _ hn hq
    have hpe : p = F0.nlp * F0.npix * F0.npix + spos F0.npix z y x := by
      rw [hs, h3]
      omega
    rw [hpe, (apply_normal_operator_closed F0 F hF kap kap_tmp hn hff z y x hz hy hx).2 hfl,
      (apply_normal_operator_closed F0 G hG kap' kap_tmp' hn hff z y x hz hy hx).2 hfl,
      normal_of_combined_kap F0 kap kap' hk hn]

/-- Arrays that agree below the bound have the same sum of squares. -/
theorem sum_of_squares_congr (N : ℕ) (u v : ℕ → Cplx K) (h : ∀ p, p < N → u p = v p) :
    sum_of_squares N u = sum_of_squares N v := by
  unfold sum_of_squares
  refine Finset.sum_congr rfl (fun p hp => ?_)
  rw [h p (mem_range.mp hp)]

/-- The body of the loop of `get_spectral_norm` keeps two states in agreement on everything
but `kap_tmp` and the buffers of the field. -/
theorem spectral_norm_step_iterate (sqrt : K → K) (tol : K) (F0 : field K)
    (hn : Even F0.npix) (hff : F0.freqFactor ≠ 0) (k : ℕ) (s t : power_state K)
    (h : same_iterate F0 s t) :
    same_iterate F0 (spectral_norm_step sqrt tol k s) (spectral_norm_step sqrt tol k t) := by
  obtain ⟨hs, ht, hk, hnorm, hold, hst⟩ := h
  unfold spectral_norm_step
  by_cases hstop : s.stopped = true
  · have hstop' : t.stopped = true := by rw [← hst]; exact hstop
    rw [if_pos hstop, if_pos hstop']
    exact ⟨hs, ht, hk, hnorm, hold, hst⟩
  · have hstop' : ¬ t.stopped = true := by rw [← hst]; exact hstop
    rw [if_neg hstop, if_neg hstop']
    dsimp only
    have hkap := apply_normal_operator_indep F0 s.F t.F hs ht s.kap t.kap s.kap_tmp t.kap_tmp
      hk hn hff
    have hS : sum_of_squares (ncoeff s.F) (apply_normal_operator s.F s.kap s.kap_tmp).2.1
        = sum_of_squares (ncoeff t.F) (apply_normal_operator t.F t.kap t.kap_tmp).2.1 := by
      rw [ncoeff_congr s.F F0 hs.1, ncoeff_congr t.F F0 ht.1]
      exact sum_of_squares_congr _ _ _ hkap
    have hFs := same_operator_trans _ _ _ (apply_normal_operator_operator s.F s.kap s.kap_tmp) hs
    have hFt := same_operator_trans _ _ _ (apply_normal_operator_operator t.F t.kap t.kap_tmp) ht
    rw [hS, hold]
    by_cases hb : |sqrt (sum_of_squares (ncoeff t.F)
        (apply_normal_operator t.F t.kap t.kap_tmp).2.1) - t.norm_old|
        / sqrt (sum_of_squares (ncoeff t.F) (apply_normal_operator t.F t.kap t.kap_tmp).2.1)
        ≤ tol
    · rw [if_pos hb, if_pos hb]
      exact ⟨hFs, hFt, hkap, rfl, rfl, rfl⟩
    · rw [if_neg hb, if_neg hb]
      refine ⟨hFs, hFt, ?_, rfl, rfl, rfl⟩
      intro p hp
      dsimp only
      rw [ncoeff_congr s.F F0 hs.1, ncoeff_congr t.F F0 ht.1,
        normalise_apply _ _ _ p hp, normalise_apply _ _ _ p hp, hkap p hp]

/-- The states of `get_spectral_norm` for two prior contents of `kap_tmp` agree, after every
number of passes, on everything but `kap_tmp` and the buffers of the field. -/
theorem spectral_norm_loop_iterate (sqrt : K → K) (F : field K) (tol : K)
    (kap kap_tmp kap_tmp' : ℕ → Cplx K) (hn : Even F.npix) (hff : F.freqFactor ≠ 0) (j : ℕ) :
    same_iterate F (spectral_norm_loop sqrt F j tol kap kap_tmp)
      (spectral_norm_loop sqrt F j tol kap kap_tmp') := by
  induction j with
  | zero =>
    exact ⟨⟨⟨rfl, rfl, rfl, rfl, rfl, rfl, rfl, rfl, rfl⟩, rfl⟩,
      ⟨⟨rfl, rfl, rfl, rfl, rfl, rfl, rfl, rfl, rfl⟩, rfl⟩, fun _ _ => rfl, rfl, rfl, rfl⟩
  | succ j ih =>
    rw [spectral_norm_loop_succ, spectral_norm_loop_succ]
    exact spectral_norm_step_iterate sqrt tol F hn hff j _ _ ih

/-- The value returned by `get_spectral_norm` does not depend on the prior content of the
scratch buffer `kap_tmp`, with or without flexion (for even `npix`, a finite pixel size and
every function `sqrt`). -/
theorem get_spectral_norm_scratch (sqrt : K → K) (F : field K) (niter : ℕ) (tol : K)
    (kap kap_tmp kap_tmp' : ℕ → Cplx K) (hn : Even F.npix) (hff : F.freqFactor ≠ 0) :
    get_spectral_norm sqrt F niter tol kap kap_tmp
      = get_spectral_norm sqrt F niter tol kap kap_tmp' := by
  unfold get_spectral_norm
  rw [(spectral_norm_loop_iterate sqrt F tol kap kap_tmp kap_tmp' hn hff niter).2.2.2.1]

set_option maxHeartbeats 4000000 in
set_option maxRecDepth 100000 in
/-- C22 (scratch buffer of `get_spectral_norm`), evaluated with flexion enabled on a one-plane
`2 x 2` field with one galaxy (`cov = w_f = lensKernel = 1`, NFFT matrix with all entries
`1`), for every start vector `kap`, tolerance and function `sqrt`: `combine_components(kap,
kap_tmp)` leaves the flexion block of `kap_tmp` as it was allocated (`kap_tmp[4]` keeps the
stale value `(1, 0)`), `forward_operator(kap_tmp)` reads it, and after the first pass the
flexion residual `res_f1[0]` is `1/4`, while it is `0` when the allocated memory holds
zeros. -/
theorem spectral_norm_reads_stale_flexion (sqrt : ℚ → ℚ) (tol : ℚ) (kap : ℕ → Cplx ℚ) :
    combine_components (example_field 1 true (-1)) kap stale_scratch (1 * 2 * 2 + 0) = (1, 0)
    ∧ (spectral_norm_loop sqrt (example_field 1 true (-1)) 1 tol kap stale_scratch).F.res_f1 0
        = 1 / 4
    ∧ (spectral_norm_loop sqrt (example_field 1 true (-1)) 1 tol kap
        (fun _ => (0, 0))).F.res_f1 0 = 0 := by
  refine ⟨?_, ?_, ?_⟩
  · simp [combine_components, forLoop, List.range_succ, Function.update_apply, kshift,
      stale_scratch, example_field]
  · rw [spectral_norm_loop_succ, spectral_norm_step_field sqrt tol 0 _ rfl]
    simp [spectral_norm_loop, spectral_norm_start, apply_normal_operator, adjoint_operator,
      forward_operator, forward_shear, forward_flexion, convergence_at_galaxies, apply_kernel,
      combine_components, spectral_gather, nfft_trafo_2d, forLoop, List.range_succ,
      Finset.sum_range_succ, Function.update_apply, kshift, field.fftFactor, stale_scratch,
      example_field]
    norm_num
  · rw [spectral_norm_loop_succ, spectral_norm_step_field sqrt tol 0 _ rfl]
    simp [spectral_norm_loop, spectral_norm_start, apply_normal_operator, adjoint_operator,
      forward_operator, forward_shear, forward_flexion, convergence_at_galaxies, apply_kernel,
      combine_components, spectral_gather, nfft_trafo_2d, forLoop, List.range_succ,
      Finset.sum_range_succ, Function.update_apply, kshift, field.fftFactor, example_field]

end Glimpse
